import Mathlib

/-!
# Structural conversion bridge (package gke, convert.go)

A shallow embedding of `Convert`, `ConvertToMap` and the restoration walk
`setOmittedFields` of convert.go, and of `removeBasePathVersion` of config.go.

Modelling decisions, all read off the Go source:

* Go values are finite trees (`Value`).  A pointer is either `ptr target` or
  `nilPtr elem`; a slice carries its element type, so that
  `iField.Type().Elem().Kind()` can be answered on an empty slice.  Source and
  destination do not share memory before the call; every write the walk makes
  through a pointer it copied from the source stores a value that is already
  there, so the tree view loses nothing.
* Struct fields are exported and declared directly (no embedded structs), so
  `FieldByName` is a search through the declared fields.  A field is of bool,
  int, string, struct, pointer, slice or `map[string]interface{}` type;
  fields of interface or array type are outside the fragment.
* `reflect` panics are the `none` result of the walk: `Elem` on a non-pointer,
  `NumField` / `FieldByName` on a value that is not of struct kind (the zero
  `reflect.Value` included), `Set` between different types, `Index` on a
  non-slice or out of range.
* `encoding/json` is not part of the repository.  `Convert` takes it as a
  `Codec` parameter, and theorems hold for every codec.  What travels through
  the wire form is stated on the reference codec, a model of `encoding/json`
  on the fragment.
* `isEmptyValue` is called by convert.go and defined elsewhere in the package;
  the walk takes it as the parameter `isEmpty`, and theorems hold for every
  choice of it.  The definition `isEmptyValue` below is the one the
  specification describes, used to run the walk on concrete inputs.
-/

namespace Gke

/-- Go types of the fragment.  A struct type is identified by its declared name;
`map` is `map[string]interface{}` and `iface` is `interface{}`. -/
inductive Ty where
  | bool
  | int
  | string
  | struct (name : String)
  | ptr (elem : Ty)
  | slice (elem : Ty)
  | map
  | iface
  deriving DecidableEq, Repr

/-- The kinds of `reflect.Kind` that the fragment uses. -/
inductive Kind where
  | Bool
  | Int
  | String
  | Struct
  | Ptr
  | Slice
  | Map
  | Interface
  deriving DecidableEq, Repr

/-- Kind of a type, `reflect.Type.Kind`. -/
def Ty.Kind : Ty → Kind
  | .bool => .Bool
  | .int => .Int
  | .string => .String
  | .struct _ => .Struct
  | .ptr _ => .Ptr
  | .slice _ => .Slice
  | .map => .Map
  | .iface => .Interface

mutual
/-- Go values.  `map` is a `map[string]interface{}`, the schema-less mapping, and
`nilMap` the nil value of that type. -/
inductive Value where
  | bool (b : Bool)
  | int (n : Int)
  | string (s : String)
  | struct (name : String) (fields : List Field)
  | ptr (target : Value)
  | nilPtr (elem : Ty)
  | slice (elem : Ty) (elems : List Value)
  | map (entries : List (String × Value))
  | nilMap
/-- A struct field: its Go name, the value of `Tag.Get("json")`, and its value. -/
inductive Field where
  | mk (name : String) (tag : String) (value : Value)
end

/-- Go name of a field. -/
def Field.name : Field → String
  | .mk n _ _ => n

/-- The json tag of a field, `fieldInfo.Tag.Get("json")`. -/
def Field.tag : Field → String
  | .mk _ t _ => t

/-- Value held by a field. -/
def Field.value : Field → Value
  | .mk _ _ v => v

/-- Static type of a value, `reflect.Value.Type`. -/
def typeOf : Value → Ty
  | .bool _ => .bool
  | .int _ => .int
  | .string _ => .string
  | .struct n _ => .struct n
  | .ptr t => .ptr (typeOf t)
  | .nilPtr e => .ptr e
  | .slice e _ => .slice e
  | .map _ => .map
  | .nilMap => .map

/-- Method `oVal.FieldByName(name)` on the declared fields; `none` is the invalid Value. -/
def FieldByName (name : String) : List Field → Option Value
  | [] => none
  | .mk n _ v :: rest => if n = name then some v else FieldByName name rest

/-- Store `v` in the field called `name` (the field `FieldByName` finds). -/
def setField (name : String) (v : Value) : List Field → List Field
  | [] => []
  | .mk n t x :: rest =>
    if n = name then .mk n t v :: rest else .mk n t x :: setField name v rest

/-- Method `oField.Set(iField)`: panics unless the value is assignable to the
type of the field.  Between the field types of the fragment, none of which is
an interface type, a value is assignable exactly when the types are identical. -/
def Set (oField iField : Value) : Option Value :=
  if typeOf iField = typeOf oField then some iField else none

/-- Method `oField.Index(j)`: panics unless `oField` is a slice with more than `j`
elements. -/
def Index : Value → Nat → Option Value
  | .slice _ es, j => es[j]?
  | _, _ => none

/-- Write back element `j` of a slice after the callee mutated it in place. -/
def setIndex : Value → Nat → Value → Value
  | .slice e es, j, v => .slice e (es.set j v)
  | o, _, _ => o

/-- The struct a non-nil pointer points to. -/
def pointee : Value → Option Value
  | .ptr t => some t
  | _ => none

/-- Whether `reflect.ValueOf(out).Elem()` succeeds: `out` holds a pointer. -/
def isPointer : Value → Bool
  | .ptr _ => true
  | .nilPtr _ => true
  | _ => false

/-- Lookup `oVal.FieldByName(name)` for `oVal := reflect.ValueOf(out).Elem()`.  The
outer `none` is the panic on an `oVal` that is not of struct kind, `some none`
the invalid Value of a name that is not declared. -/
def outField (out : Value) (name : String) : Option (Option Value) :=
  match out with
  | .ptr (.struct _ ofields) => some (FieldByName name ofields)
  | _ => none

/-- The destination after field `name` of its pointee was mutated to `v`. -/
def storeField (out : Value) (name : String) (v : Value) : Value :=
  match out with
  | .ptr (.struct sname ofields) => .ptr (.struct sname (setField name v ofields))
  | o => o

/-- Element type `Type().Elem()` of a pointer or slice type. -/
def Ty.Elem : Ty → Option Ty
  | .ptr e => some e
  | .slice e => some e
  | _ => none

/-- The condition `t.Kind() == reflect.Ptr && t.Elem().Kind() == reflect.Struct`. -/
def Ty.isPtrToStruct (t : Ty) : Bool :=
  decide (t.Kind = .Ptr) && decide (t.Elem.map Ty.Kind = some .Struct)

mutual
/-- Body of `setOmittedFields` once `iVal := reflect.ValueOf(item).Elem()` is a
valid value: `out` is still the interface value handed in, and the result is
`out` with its pointee mutated.  `none` is a panic: `Elem` on an `out` that is
no pointer, `NumField` on an `iVal` that is no struct. -/
def walk (isEmpty : Value → Bool) (iVal out : Value) : Option Value :=
  match iVal with
  | .struct _ fields => if isPointer out then fieldLoop isEmpty fields out else none
  | .bool _ => none
  | .int _ => none
  | .string _ => none
  | .ptr _ => none
  | .nilPtr _ => none
  | .slice _ _ => none
  | .map _ => none
  | .nilMap => none
termination_by structural iVal
/-- The loop `for i := 0; i < iVal.NumField(); i++` over the remaining fields. -/
def fieldLoop (isEmpty : Value → Bool) (fields : List Field) (out : Value) :
    Option Value :=
  match fields with
  | [] => some out
  | .mk name tag iField :: rest =>
    if isEmpty iField then fieldLoop isEmpty rest out
    else
      match outField out name with
      | none => none
      | some none => fieldLoop isEmpty rest out
      | some (some oField) =>
        match fieldStep isEmpty tag iField oField with
        | none => none
        | some o => fieldLoop isEmpty rest (storeField out name o)
termination_by structural fields
/-- Lines 72 to 95 for one field: the copy of an excluded field, then the
recursion by kind.  In the struct case `walk iField (ptr o)` is written as the
loop it unfolds to. -/
def fieldStep (isEmpty : Value → Bool) (tag : String) (iField oField : Value) :
    Option Value :=
  match (if tag = "-" then Set oField iField else some oField) with
  | none => none
  | some o =>
    match iField with
    | .struct _ fields => (fieldLoop isEmpty fields (.ptr o)).bind pointee
    | .ptr t => if (typeOf t).Kind = .Struct then walk isEmpty t o else some o
    | .nilPtr e => if e.Kind = .Struct then none else some o
    | .slice e elems =>
      if e.Kind = .Struct then sliceLoop isEmpty elems 0 o
      else if e.isPtrToStruct then ptrSliceLoop isEmpty elems 0 o
      else some o
    | .bool _ => some o
    | .int _ => some o
    | .string _ => some o
    | .map _ => some o
    | .nilMap => some o
termination_by structural iField
/-- The loop over a `[]struct` field from index `j` on. -/
def sliceLoop (isEmpty : Value → Bool) (elems : List Value) (j : Nat) (oField : Value) :
    Option Value :=
  match elems with
  | [] => some oField
  | e :: rest =>
    match Index oField j with
    | none => none
    | some oe =>
      match (walk isEmpty e (.ptr oe)).bind pointee with
      | none => none
      | some oe1 => sliceLoop isEmpty rest (j + 1) (setIndex oField j oe1)
termination_by structural elems
/-- The loop over a `[]*struct` field from index `j` on.  A nil element makes
`NumField` panic on the zero Value. -/
def ptrSliceLoop (isEmpty : Value → Bool) (elems : List Value) (j : Nat) (oField : Value) :
    Option Value :=
  match elems with
  | [] => some oField
  | e :: rest =>
    match Index oField j with
    | none => none
    | some oe =>
      match e with
      | .ptr t =>
        match walk isEmpty t oe with
        | none => none
        | some oe1 => ptrSliceLoop isEmpty rest (j + 1) (setIndex oField j oe1)
      | .nilPtr _ => none
      | .bool _ => none
      | .int _ => none
      | .string _ => none
      | .struct _ _ => none
      | .slice _ _ => none
      | .map _ => none
      | .nilMap => none
termination_by structural elems
end

/-- Function `setOmittedFields(item, out)`: `Elem` of a non-pointer panics, and so does
`NumField` on the zero Value that `Elem` of a nil pointer gives. -/
def setOmittedFields (isEmpty : Value → Bool) (item out : Value) : Option Value :=
  match item with
  | .ptr iVal => walk isEmpty iVal out
  | _ => none

/-- Selector `x.name` on a struct or on a pointer to a struct. -/
def Value.field? : Value → String → Option Value
  | .struct _ fields, name => FieldByName name fields
  | .ptr (.struct _ fields), name => FieldByName name fields
  | _, _ => none

mutual
/-- Modelled from the spec: `isEmptyValue` is defined outside convert.go.  The
zero/empty value of each kind as section 9 lists it: false, numeric zero, empty
text, absent optional, empty sequence or mapping, and a nested record all of
whose fields are empty. -/
def isEmptyValue : Value → Bool
  | .bool b => !b
  | .int n => n == 0
  | .string s => s == ""
  | .struct _ fields => allEmpty fields
  | .ptr _ => false
  | .nilPtr _ => true
  | .slice _ elems => elems.isEmpty
  | .map entries => entries.isEmpty
  | .nilMap => true
termination_by structural v => v
/-- Every field of the record is empty. -/
def allEmpty : List Field → Bool
  | [] => true
  | .mk _ _ v :: rest => isEmptyValue v && allEmpty rest
termination_by structural fields => fields
end

/-- Go `error` values. -/
abbrev Error := String

/-- The two `encoding/json` entry points `Convert` calls.  `Unmarshal` returns
the error, if any, together with the destination as it leaves it. -/
structure Codec where
  Wire : Type
  Marshal : Value → Except Error Wire
  Unmarshal : Wire → Value → Option Error × Value

/-- How a call ends: it returns `err` leaving the destination `out`, or panics. -/
inductive Outcome where
  | returned (err : Option Error) (out : Value)
  | panicked

/-- The type assertion `item.(map[string]interface{})`. -/
def isMap : Value → Bool
  | .map _ => true
  | .nilMap => true
  | _ => false

/-- Function `Convert(item, out)`. -/
def Convert (json : Codec) (isEmpty : Value → Bool) (item out : Value) : Outcome :=
  match json.Marshal item with
  | .error err => .returned (some err) out
  | .ok bytes =>
    match json.Unmarshal bytes out with
    | (some err, out1) => .returned (some err) out1
    | (none, out1) =>
      if isMap item then .returned none out1
      else
        match setOmittedFields isEmpty item out1 with
        | some out2 => .returned none out2
        | none => .panicked

mutual
/-- Field names are distinct in every struct of the value, as the Go compiler
enforces for every struct type. -/
def wellFormed : Value → Bool
  | .struct _ fields => decide ((fields.map Field.name).Nodup) && wfFields fields
  | .ptr t => wellFormed t
  | .slice _ elems => wfElems elems
  | _ => true
termination_by structural v => v
/-- Every field value is well formed. -/
def wfFields : List Field → Bool
  | [] => true
  | .mk _ _ v :: rest => wellFormed v && wfFields rest
termination_by structural fields => fields
/-- Every element is well formed. -/
def wfElems : List Value → Bool
  | [] => true
  | v :: rest => wellFormed v && wfElems rest
termination_by structural elems => elems
end

/-! ## A reference codec

`encoding/json` restricted to the fragment, used to run `Convert` on concrete
inputs and to state what travels through the wire form.  A json tag is `-`,
which excludes the field, or a name (of characters `encoding/json` accepts in
a key), or a name followed by `,omitempty`; a field whose tag has no name is
keyed by its Go name.  The fields of one record that travel do so under
distinct keys.  A field with `omitempty` is left out when its value is empty
in the sense of `encoding/json`.  The decoder looks a key up exactly and, when
no field answers, under the case folding `fold` of `encoding/json`, which is a
parameter.  Text is valid UTF-8 and integers fit their type, so the wire form
carries both unchanged.  Fresh elements and pointees are allocated from
`zero`, the zero value of each type.  A document that does not fit the
destination, or a combination outside the fragment, is a decoding error. -/

/-- JSON documents. -/
inductive Json where
  | null
  | bool (b : Bool)
  | num (n : Int)
  | str (s : String)
  | arr (elems : List Json)
  | obj (members : List (String × Json))

/-- The name part of a json tag: what stands before the first comma. -/
def tagName (tag : String) : String :=
  ⟨tag.data.takeWhile (fun c => c != ',')⟩

/-- The words between the commas of a tag. -/
def splitComma : List Char → List (List Char)
  | [] => [[]]
  | c :: rest =>
    if c = ',' then [] :: splitComma rest
    else
      match splitComma rest with
      | [] => [[c]]
      | w :: ws => (c :: w) :: ws

/-- Whether the options of a json tag, the words after its name, contain
`omitempty`. -/
def omitEmpty (tag : String) : Bool :=
  ((splitComma tag.data).drop 1).contains "omitempty".data

/-- Key under which a field travels: the name of its tag, or its Go name when
the tag has none. -/
def wireKey (name tag : String) : String :=
  if tagName tag = "" then name else tagName tag

/-- The empty values of `encoding/json`, which `omitempty` leaves out: false,
zero, the empty text, a nil pointer, and an empty sequence or mapping.  A
struct is never empty. -/
def jsonEmpty : Value → Bool
  | .bool b => !b
  | .int n => n == 0
  | .string s => s == ""
  | .struct _ _ => false
  | .ptr _ => false
  | .nilPtr _ => true
  | .slice _ elems => elems.isEmpty
  | .map entries => entries.isEmpty
  | .nilMap => true

mutual
/-- Serialization of a value. -/
def encode : Value → Json
  | .bool b => .bool b
  | .int n => .num n
  | .string s => .str s
  | .struct _ fields => .obj (encodeFields fields)
  | .ptr t => encode t
  | .nilPtr _ => .null
  | .slice _ elems => .arr (encodeElems elems)
  | .map entries => .obj (encodeEntries entries)
  | .nilMap => .null
termination_by structural v => v
/-- Members of the object a struct serializes to: excluded fields are left out,
and so are empty fields tagged `omitempty`. -/
def encodeFields : List Field → List (String × Json)
  | [] => []
  | .mk n t v :: rest =>
    if t = "-" then encodeFields rest
    else if omitEmpty t && jsonEmpty v then encodeFields rest
    else (wireKey n t, encode v) :: encodeFields rest
termination_by structural fields => fields
/-- Elements of the array a slice serializes to. -/
def encodeElems : List Value → List Json
  | [] => []
  | v :: rest => encode v :: encodeElems rest
termination_by structural elems => elems
/-- Members of the object a mapping serializes to. -/
def encodeEntries : List (String × Value) → List (String × Json)
  | [] => []
  | (k, v) :: rest => (k, encode v) :: encodeEntries rest
termination_by structural entries => entries
end

/-- The first field that travels under exactly this key: Go name and current
value. -/
def findKey (key : String) : List Field → Option (String × Value)
  | [] => none
  | .mk n t v :: rest =>
    if t ≠ "-" ∧ wireKey n t = key then some (n, v) else findKey key rest

/-- The first field whose key equals this key under the case folding. -/
def findFolded (fold : String → String) (key : String) :
    List Field → Option (String × Value)
  | [] => none
  | .mk n t v :: rest =>
    if t ≠ "-" ∧ fold (wireKey n t) = fold key then some (n, v)
    else findFolded fold key rest

/-- Case folding of keys made of ASCII characters: `encoding/json` folds the
letters `a` to `z` to upper case and leaves the other ASCII characters. -/
def asciiFold (key : String) : String :=
  ⟨key.data.map Char.toUpper⟩

/-- The destination field a key decodes into: the field with exactly this key,
or else the first one whose key matches it under the case folding. -/
def lookupKey (fold : String → String) (key : String) (fields : List Field) :
    Option (String × Value) :=
  match findKey key fields with
  | some r => some r
  | none => findFolded fold key fields

mutual
/-- The value a document decodes to in an `interface{}`.  Numbers of the
fragment are integers; a `null` there is outside the fragment. -/
def dynamic : Json → Option Value
  | .null => none
  | .bool b => some (.bool b)
  | .num n => some (.int n)
  | .str s => some (.string s)
  | .arr elems => (dynamicElems elems).map (Value.slice .iface)
  | .obj members => (dynamicEntries members).map Value.map
termination_by structural j => j
/-- Elements of an array decoded into a `[]interface{}`. -/
def dynamicElems : List Json → Option (List Value)
  | [] => some []
  | j :: rest =>
    match dynamic j with
    | none => none
    | some v => (dynamicElems rest).map (fun vs => v :: vs)
termination_by structural elems => elems
/-- Members of an object decoded into a `map[string]interface{}`. -/
def dynamicEntries : List (String × Json) → Option (List (String × Value))
  | [] => some []
  | (key, j) :: rest =>
    match dynamic j with
    | none => none
    | some v => (dynamicEntries rest).map (fun es => (key, v) :: es)
termination_by structural members => members
end

mutual
/-- Deserialization into `dst`; `none` is a decoding error. -/
def decode (fold : String → String) (zero : Ty → Value) : Json → Value → Option Value
  | .null, .ptr t => some (.nilPtr (typeOf t))
  | .null, .slice e _ => some (.slice e [])
  | .null, .map _ => some .nilMap
  | .null, dst => some dst
  | .bool b, .bool _ => some (.bool b)
  | .num n, .int _ => some (.int n)
  | .str s, .string _ => some (.string s)
  | .obj members, .struct n fields =>
    (decodeMembers fold zero members fields).map (Value.struct n)
  | .obj members, .ptr (.struct n fields) =>
    (decodeMembers fold zero members fields).map (fun fs => .ptr (.struct n fs))
  | .obj members, .nilPtr e =>
    match zero e with
    | .struct n fields =>
      (decodeMembers fold zero members fields).map (fun fs => .ptr (.struct n fs))
    | _ => none
  | .obj members, .map cur =>
    (dynamicEntries members).map (fun es => Value.map (cur ++ es))
  | .obj members, .nilMap => (dynamicEntries members).map Value.map
  | .arr elems, .slice e cur => (decodeElems fold zero elems e cur).map (Value.slice e)
  | _, _ => none
termination_by structural j => j
/-- Members are decoded in order; a key no field answers to is ignored. -/
def decodeMembers (fold : String → String) (zero : Ty → Value) :
    List (String × Json) → List Field → Option (List Field)
  | [], fields => some fields
  | (key, j) :: rest, fields =>
    match lookupKey fold key fields with
    | none => decodeMembers fold zero rest fields
    | some (name, cur) =>
      match decode fold zero j cur with
      | none => none
      | some v => decodeMembers fold zero rest (setField name v fields)
termination_by structural members => members
/-- Each element is decoded into the element the slice already holds at that
index, or into a fresh zero value of the element type. -/
def decodeElems (fold : String → String) (zero : Ty → Value) :
    List Json → Ty → List Value → Option (List Value)
  | [], _, _ => some []
  | j :: rest, e, cur =>
    match decode fold zero j (cur.headD (zero e)) with
    | none => none
    | some v => (decodeElems fold zero rest e cur.tail).map (fun vs => v :: vs)
termination_by structural elems => elems
end

/-- The reference codec over a case folding and a table of zero values.
`Unmarshal` decodes into what its pointer argument points to, and refuses
anything but a present pointer. -/
def jsonCodecFold (fold : String → String) (zero : Ty → Value) : Codec where
  Wire := Json
  Marshal := fun item => .ok (encode item)
  Unmarshal := fun bytes out =>
    match out with
    | .ptr t =>
      match decode fold zero bytes t with
      | some t1 => (none, .ptr t1)
      | none => (some "json: cannot unmarshal", out)
    | _ => (some "json: Unmarshal(non-pointer)", out)

/-- The reference codec for shapes whose keys are made of ASCII characters. -/
def jsonCodec (zero : Ty → Value) : Codec :=
  jsonCodecFold asciiFold zero

/-- A codec whose serialization step fails on every value, as `encoding/json`
does on a value it cannot represent. -/
def rejectingCodec : Codec where
  Wire := Json
  Marshal := fun _ => .error "json: unsupported value"
  Unmarshal := fun _ out => (none, out)

/-- The variable `out` after `json.Unmarshal(bytes, &out)` returned `p`. -/
def deref : Value → Value
  | .ptr t => t
  | v => v

/-- Function `ConvertToMap(item)`: the mapping and the error it returns. -/
def ConvertToMap (json : Codec) (item : Value) : Value × Option Error :=
  match json.Marshal item with
  | .error err => (.nilMap, some err)
  | .ok bytes =>
    match json.Unmarshal bytes (.ptr (.map [])) with
    | (some err, _) => (.nilMap, some err)
    | (none, out1) => (deref out1, none)

/-- Both codec steps of `Convert` succeed on `item`, and decoding leaves the
destination as `out1`. -/
def Decoded (json : Codec) (item out out1 : Value) : Prop :=
  ∃ bytes, json.Marshal item = .ok bytes ∧ json.Unmarshal bytes out = (none, out1)

/-- The decoding step of `Convert` leaves field `name` of the destination as it
found it (the wire form of `item` carries nothing for it). -/
def DecodeKeeps (json : Codec) (item out : Value) (name : String) : Prop :=
  ∀ bytes, json.Marshal item = .ok bytes →
    (json.Unmarshal bytes out).2.field? name = out.field? name

/-! ## A worked example

A source of the newer API version and a destination of the older one, as the
provider converts them. -/

/-- Three node pools of the example source, each with its own excluded `Hash`. -/
def exPools : List Value :=
  [.struct "v1beta1.Pool" [.mk "Name" "name" (.string "a"), .mk "Hash" "-" (.int 11)],
   .struct "v1beta1.Pool" [.mk "Name" "name" (.string "b"), .mk "Hash" "-" (.int 22)],
   .struct "v1beta1.Pool" [.mk "Name" "name" (.string "c"), .mk "Hash" "-" (.int 33)]]

/-- Fields of the excluded nested record `Meta` of the example source. -/
def exMetaFields : List Field :=
  [.mk "Owner" "-" (.string "me"), .mk "Rev" "rev" (.int 4)]

/-- Fields of the record behind the pointer `Master` of the example source. -/
def exMasterFields : List Field :=
  [.mk "Version" "version" (.string "1.2"), .mk "Token" "-" (.string "tk")]

/-- Fields of the example source record. -/
def exFields : List Field :=
  [.mk "Name" "name" (.string "prod"),
   .mk "Etag" "-" (.string "abc"),
   .mk "Labels" "-" (.slice .string []),
   .mk "Config" "config"
     (.struct "v1beta1.Config"
       [.mk "Zone" "zone" (.string "us"), .mk "Secret" "-" (.string "s3")]),
   .mk "Meta" "-" (.struct "common.Meta" exMetaFields),
   .mk "Master" "master" (.ptr (.struct "v1beta1.Master" exMasterFields)),
   .mk "Pools" "pools" (.slice (.struct "v1beta1.Pool") exPools),
   .mk "Taints" "taints"
     (.slice (.ptr (.struct "v1beta1.Taint"))
       [.ptr (.struct "v1beta1.Taint"
         [.mk "Key" "key" (.string "k"), .mk "Hash" "-" (.int 5)])]),
   .mk "Alpha" "alpha" (.int 9)]

/-- The example source: a pointer to a `v1beta1.Cluster`. -/
def exSource : Value := .ptr (.struct "v1beta1.Cluster" exFields)

/-- The example destination before the call: a `v1.Cluster` whose `Labels` and
`SelfLink` are already populated. -/
def exDest : Value :=
  .ptr (.struct "v1.Cluster"
    [.mk "Name" "name" (.string ""),
     .mk "Etag" "-" (.string ""),
     .mk "Labels" "-" (.slice .string [.string "keep"]),
     .mk "Config" "config"
       (.struct "v1.Config" [.mk "Zone" "zone" (.string ""), .mk "Secret" "-" (.string "")]),
     .mk "Meta" "-"
       (.struct "common.Meta" [.mk "Owner" "-" (.string ""), .mk "Rev" "rev" (.int 0)]),
     .mk "Master" "master" (.nilPtr (.struct "v1.Master")),
     .mk "Pools" "pools" (.slice (.struct "v1.Pool") []),
     .mk "Taints" "taints" (.slice (.ptr (.struct "v1.Taint")) []),
     .mk "SelfLink" "selfLink" (.string "keep-me")])

/-- Zero values of the destination types.  The fragment has no nil interface
value; the table answers `iface` with the nil mapping and is never asked. -/
def exZero : Ty → Value
  | .bool => .bool false
  | .int => .int 0
  | .string => .string ""
  | .ptr e => .nilPtr e
  | .slice e => .slice e []
  | .map => .nilMap
  | .iface => .nilMap
  | .struct n =>
    if n = "v1.Master" then
      .struct n [.mk "Version" "version" (.string ""), .mk "Token" "-" (.string "")]
    else if n = "v1.Pool" then
      .struct n [.mk "Name" "name" (.string ""), .mk "Hash" "-" (.int 0)]
    else if n = "v1.Taint" then
      .struct n [.mk "Key" "key" (.string ""), .mk "Hash" "-" (.int 0)]
    else .struct n []

/-- The example destination as the decoding step leaves it. -/
def exDecoded : Value :=
  .ptr (.struct "v1.Cluster"
    [.mk "Name" "name" (.string "prod"),
     .mk "Etag" "-" (.string ""),
     .mk "Labels" "-" (.slice .string [.string "keep"]),
     .mk "Config" "config"
       (.struct "v1.Config" [.mk "Zone" "zone" (.string "us"), .mk "Secret" "-" (.string "")]),
     .mk "Meta" "-"
       (.struct "common.Meta" [.mk "Owner" "-" (.string ""), .mk "Rev" "rev" (.int 0)]),
     .mk "Master" "master"
       (.ptr (.struct "v1.Master"
         [.mk "Version" "version" (.string "1.2"), .mk "Token" "-" (.string "")])),
     .mk "Pools" "pools"
       (.slice (.struct "v1.Pool")
         [.struct "v1.Pool" [.mk "Name" "name" (.string "a"), .mk "Hash" "-" (.int 0)],
          .struct "v1.Pool" [.mk "Name" "name" (.string "b"), .mk "Hash" "-" (.int 0)],
          .struct "v1.Pool" [.mk "Name" "name" (.string "c"), .mk "Hash" "-" (.int 0)]]),
     .mk "Taints" "taints"
       (.slice (.ptr (.struct "v1.Taint"))
         [.ptr (.struct "v1.Taint" [.mk "Key" "key" (.string "k"), .mk "Hash" "-" (.int 0)])]),
     .mk "SelfLink" "selfLink" (.string "keep-me")])

/-- The example destination after `Convert`. -/
def exResult : Value :=
  .ptr (.struct "v1.Cluster"
    [.mk "Name" "name" (.string "prod"),
     .mk "Etag" "-" (.string "abc"),
     .mk "Labels" "-" (.slice .string [.string "keep"]),
     .mk "Config" "config"
       (.struct "v1.Config" [.mk "Zone" "zone" (.string "us"), .mk "Secret" "-" (.string "s3")]),
     .mk "Meta" "-"
       (.struct "common.Meta" [.mk "Owner" "-" (.string "me"), .mk "Rev" "rev" (.int 4)]),
     .mk "Master" "master"
       (.ptr (.struct "v1.Master"
         [.mk "Version" "version" (.string "1.2"), .mk "Token" "-" (.string "tk")])),
     .mk "Pools" "pools"
       (.slice (.struct "v1.Pool")
         [.struct "v1.Pool" [.mk "Name" "name" (.string "a"), .mk "Hash" "-" (.int 11)],
          .struct "v1.Pool" [.mk "Name" "name" (.string "b"), .mk "Hash" "-" (.int 22)],
          .struct "v1.Pool" [.mk "Name" "name" (.string "c"), .mk "Hash" "-" (.int 33)]]),
     .mk "Taints" "taints"
       (.slice (.ptr (.struct "v1.Taint"))
         [.ptr (.struct "v1.Taint" [.mk "Key" "key" (.string "k"), .mk "Hash" "-" (.int 5)])]),
     .mk "SelfLink" "selfLink" (.string "keep-me")])

/-- A mapping as the client layer decodes it from a response. -/
def exMapping : Value :=
  .map [("name", .string "prod"), ("selfLink", .string "https://x/y")]

/-- A destination whose `Name` is an integer, which the text `prod` cannot be
decoded into. -/
def exBadDest : Value :=
  .ptr (.struct "v1.Cluster" [.mk "Name" "name" (.int 0)])

/-- The fields of a record held by value or through a present pointer. -/
def recordFields : Value → Option (List Field)
  | .struct _ fields => some fields
  | .ptr (.struct _ fields) => some fields
  | _ => none

/-- Follow a chain of selectors `x.g1.g2...`. -/
def Value.path? (v : Value) : List String → Option Value
  | [] => some v
  | name :: rest => (v.field? name).bind (fun w => w.path? rest)

/-- In the record with fields `fields`, the chain of nested record fields
`path` (each held by value or through a present pointer, each non-empty, tagged
or not) leads to a record where `p` is an excluded field with the non-empty
value `pv`. -/
def ExcludedIn (isEmpty : Value → Bool) (p : String) (pv : Value) :
    List String → List Field → Prop
  | [], fields => Field.mk p "-" pv ∈ fields ∧ isEmpty pv = false
  | g :: path, fields =>
    ∃ tag gv gfields, Field.mk g tag gv ∈ fields ∧ isEmpty gv = false ∧
      recordFields gv = some gfields ∧ ExcludedIn isEmpty p pv path gfields

/-- Whether the destination is a pointer to a struct. -/
def isRecordPtr : Value → Bool
  | .ptr (.struct _ _) => true
  | _ => false

/-- Every field of the list is empty according to `isEmpty`. -/
def allEmptyBy (isEmpty : Value → Bool) : List Field → Bool
  | [] => true
  | f :: rest => isEmpty f.value && allEmptyBy isEmpty rest
/-- What `setOmittedFields` does to destination element `oe` for the source
element `e` of a `[]*struct` field. -/
def ptrElemStep (isEmpty : Value → Bool) (e oe : Value) : Option Value :=
  match e with
  | .ptr t => walk isEmpty t oe
  | _ => none
/-- A source whose `Config` is a nested record with a non-empty field. -/
def kmSource : Value :=
  .ptr (.struct "v1beta1.Cluster"
    [.mk "Config" "config" (.struct "v1beta1.Config" [.mk "Zone" "zone" (.string "us")]),
     .mk "Etag" "-" (.string "abc")])

/-- A destination that declares `Config` as text, kept off the wire. -/
def kmDest : Value :=
  .ptr (.struct "v1.Cluster"
    [.mk "Config" "-" (.string "legacy"), .mk "Etag" "-" (.string "")])

/-- What `ConvertToMap` returns for the example source: no key for `Etag`,
`Labels`, `Meta`, nor for the excluded fields of the nested records. -/
def exWireMap : Value :=
  .map
    [("name", .string "prod"),
     ("config", .map [("zone", .string "us")]),
     ("master", .map [("version", .string "1.2")]),
     ("pools", .slice .iface
       [.map [("name", .string "a")], .map [("name", .string "b")],
        .map [("name", .string "c")]]),
     ("taints", .slice .iface [.map [("key", .string "k")]]),
     ("alpha", .int 9)]

/-- A source whose sequence of optional records holds an absent element. -/
def nilElemSource : Value :=
  .ptr (.struct "v1.Cluster"
    [.mk "Taints" "taints"
      (.slice (.ptr (.struct "v1.Taint")) [.nilPtr (.struct "v1.Taint")])])

/-- A fresh destination of the same shape as `nilElemSource`. -/
def nilElemDest : Value :=
  .ptr (.struct "v1.Cluster"
    [.mk "Taints" "taints" (.slice (.ptr (.struct "v1.Taint")) [])])

/-! ## The version pattern of config.go

The `regexp` package is modelled by the list of ways an expression matches at
the front of the input, in the order a leftmost-first matcher prefers them. -/

/-- Regular expressions of the fragment `removeBasePathVersion` uses. -/
inductive Regex where
  | lit (c : Char)
  | oneOf (cs : List Char)
  | noneOf (cs : List Char)
  | dot
  | seq (a b : Regex)
  | star (a : Regex)
  | plusLazy (a : Regex)
  | group (index : Nat) (a : Regex)
  | endText

/-- Text of the capture groups that took part in a match. -/
abbrev Captures := List (Nat × List Char)

/-- One way of matching at the front of the input: the input left over, and
the groups captured on the way. -/
abbrev Thread := List Char × Captures

/-- Match one character satisfying `p`. -/
def stepChar (p : Char → Bool) (input : List Char) (caps : Captures) : List Thread :=
  match input with
  | c :: rest => if p c then [(rest, caps)] else []
  | [] => []

/-- Greedy repetition: one more round of `body` is preferred to stopping. -/
def repeatGreedy (body : List Char → Captures → List Thread) :
    Nat → List Char → Captures → List Thread
  | 0, input, caps => [(input, caps)]
  | n + 1, input, caps =>
    ((body input caps).filter (fun t => t.1.length < input.length)).flatMap
        (fun t => repeatGreedy body n t.1 t.2) ++ [(input, caps)]

/-- Lazy repetition: stopping is preferred to one more round of `body`. -/
def repeatLazy (body : List Char → Captures → List Thread) :
    Nat → List Char → Captures → List Thread
  | 0, input, caps => [(input, caps)]
  | n + 1, input, caps =>
    (input, caps) ::
      ((body input caps).filter (fun t => t.1.length < input.length)).flatMap
        (fun t => repeatLazy body n t.1 t.2)

/-- All the ways the expression matches at the front of the input, in the
order of preference of a leftmost-first matcher. -/
def Regex.run : Regex → List Char → Captures → List Thread
  | .lit c, input, caps => stepChar (fun x => x == c) input caps
  | .oneOf cs, input, caps => stepChar (fun x => cs.contains x) input caps
  | .noneOf cs, input, caps => stepChar (fun x => !cs.contains x) input caps
  | .dot, input, caps => stepChar (fun x => x != '\n') input caps
  | .seq a b, input, caps => (a.run input caps).flatMap (fun t => b.run t.1 t.2)
  | .star a, input, caps => repeatGreedy a.run input.length input caps
  | .plusLazy a, input, caps =>
    (a.run input caps).flatMap (fun t => repeatLazy a.run t.1.length t.1 t.2)
  | .group i a, input, caps =>
    (a.run input caps).map
      (fun t => (t.1, (i, input.take (input.length - t.1.length)) :: t.2))
  | .endText, input, caps => if input.isEmpty then [(input, caps)] else []

/-- Method `ReplaceAllString`: every match, found from left to right, is
replaced by the expansion of the template. -/
def replaceAll (re : Regex) (template : Captures → List Char) : Nat → List Char → List Char
  | 0, input => input
  | n + 1, input =>
    match (re.run input []).head? with
    | some (rest, caps) =>
      if rest.length < input.length then template caps ++ replaceAll re template n rest
      else
        match input with
        | [] => template caps
        | c :: tail => template caps ++ c :: replaceAll re template n tail
    | none =>
      match input with
      | [] => []
      | c :: tail => c :: replaceAll re template n tail

/-- The expression `(?P<base>http[s]://.*)(?P<version>/[^/]+?/$)`. -/
def versionPattern : Regex :=
  .seq
    (.group 1
      (.seq (.lit 'h') (.seq (.lit 't') (.seq (.lit 't') (.seq (.lit 'p')
        (.seq (.oneOf ['s']) (.seq (.lit ':') (.seq (.lit '/') (.seq (.lit '/')
          (.star .dot))))))))))
    (.group 2
      (.seq (.lit '/') (.seq (.plusLazy (.noneOf ['/'])) (.seq (.lit '/') .endText))))

/-- Expansion of the template `$1/`. -/
def versionTemplate (caps : Captures) : List Char :=
  (caps.lookup 1).getD [] ++ ['/']

/-- Function `removeBasePathVersion(url)`. -/
def removeBasePathVersion (url : String) : String :=
  ⟨replaceAll versionPattern versionTemplate (url.length + 1) url.data⟩

/-- The segment the expression removes: `input` ends in `/seg/` with `seg` not
empty and free of `/`, and `result` is `input` without `seg/`. -/
def DropsSegment (input result : List Char) : Prop :=
  ∃ base seg, input = base ++ '/' :: seg ++ ['/'] ∧ seg ≠ [] ∧ '/' ∉ seg ∧
    result = base ++ ['/']

/-! ## The walk with a bound on the depth of calls

A second transcription of `setOmittedFields`, in which every recursive call is
made through `self` with the two interface values the Go code passes.  The
outer `none` says that the bound on nested calls was reached; inside it, `none`
is a panic as before. -/

/-- The loop over a `[]struct` field, recursive calls made through `self`. -/
def sliceWith (self : Value → Value → Option (Option Value)) :
    List Value → Nat → Value → Option (Option Value)
  | [], _, oField => some (some oField)
  | e :: rest, j, oField =>
    match Index oField j with
    | none => some none
    | some oe =>
      match self (.ptr e) (.ptr oe) with
      | none => none
      | some r =>
        match r.bind pointee with
        | none => some none
        | some oe1 => sliceWith self rest (j + 1) (setIndex oField j oe1)

/-- The loop over a `[]*struct` field, recursive calls made through `self`. -/
def ptrSliceWith (self : Value → Value → Option (Option Value)) :
    List Value → Nat → Value → Option (Option Value)
  | [], _, oField => some (some oField)
  | e :: rest, j, oField =>
    match Index oField j with
    | none => some none
    | some oe =>
      match self e oe with
      | none => none
      | some none => some none
      | some (some oe1) => ptrSliceWith self rest (j + 1) (setIndex oField j oe1)

/-- Lines 72 to 95 for one field, recursive calls made through `self`. -/
def stepWith (self : Value → Value → Option (Option Value)) (tag : String)
    (iField oField : Value) : Option (Option Value) :=
  match (if tag = "-" then Set oField iField else some oField) with
  | none => some none
  | some o =>
    if (typeOf iField).Kind = .Struct then
      (self (.ptr iField) (.ptr o)).map (fun r => r.bind pointee)
    else if (typeOf iField).isPtrToStruct then self iField o
    else
      match iField with
      | .slice e elems =>
        if e.Kind = .Struct then sliceWith self elems 0 o
        else if e.isPtrToStruct then ptrSliceWith self elems 0 o
        else some (some o)
      | _ => some (some o)

/-- The loop over the fields, recursive calls made through `self`. -/
def loopWith (self : Value → Value → Option (Option Value)) (isEmpty : Value → Bool) :
    List Field → Value → Option (Option Value)
  | [], out => some (some out)
  | .mk name tag iField :: rest, out =>
    if isEmpty iField then loopWith self isEmpty rest out
    else
      match outField out name with
      | none => some none
      | some none => loopWith self isEmpty rest out
      | some (some oField) =>
        match stepWith self tag iField oField with
        | none => none
        | some none => some none
        | some (some o) => loopWith self isEmpty rest (storeField out name o)

/-- Function `setOmittedFields(item, out)` with at most `fuel` nested calls. -/
def setOmittedFieldsFuel (isEmpty : Value → Bool) : Nat → Value → Value → Option (Option Value)
  | 0, _, _ => none
  | fuel + 1, item, out =>
    match item with
    | .ptr (.struct _ fields) =>
      if isPointer out then loopWith (setOmittedFieldsFuel isEmpty fuel) isEmpty fields out
      else some none
    | _ => some none

mutual
/-- Nesting depth of the records of a value: the number of nested calls a walk
from it can make. -/
def Value.depth : Value → Nat
  | .struct _ fields => depthFields fields + 1
  | .ptr t => t.depth
  | .slice _ elems => depthElems elems
  | _ => 0
termination_by structural v => v
/-- Largest depth among the field values. -/
def depthFields : List Field → Nat
  | [] => 0
  | .mk _ _ v :: rest => max v.depth (depthFields rest)
termination_by structural fields => fields
/-- Largest depth among the elements. -/
def depthElems : List Value → Nat
  | [] => 0
  | v :: rest => max v.depth (depthElems rest)
termination_by structural elems => elems
end

/-! ## Paths into a value -/

/-- One selector of a path into a value: a field name or a sequence index. -/
inductive Step where
  | field (name : String)
  | index (j : Nat)

/-- The primitive kinds: truth value, integer and text. -/
def isPrimitive : Value → Bool
  | .bool _ => true
  | .int _ => true
  | .string _ => true
  | _ => false

/-- Read along a path of selectors and indexes, `x.f[j].g`. -/
def Value.at? (v : Value) : List Step → Option Value
  | [] => some v
  | .field name :: rest => (v.field? name).bind (fun w => w.at? rest)
  | .index j :: rest => (Index v j).bind (fun w => w.at? rest)

/-- No field that the path names in the source is marked excluded: at each
selector the source field of that name, if the source has one there, carries a
tag other than `"-"`, and so on below it. -/
def included : List Step → Value → Bool
  | [], _ => true
  | .field name :: rest, v =>
    match recordFields v with
    | some fs => fs.all (fun f => f.name != name || (f.tag != "-" && included rest f.value))
    | none => true
  | .index j :: rest, v =>
    match v with
    | .slice _ es =>
      match es[j]? with
      | some e => included rest e
      | none => true
    | _ => true

/-- Fields of a source record whose tags carry `omitempty`: `Zone` is empty and
does not travel, `Etag` is excluded. -/
def rtFields : List Field :=
  [.mk "Name" "name,omitempty" (.string "prod"),
   .mk "Zone" "zone,omitempty" (.string ""),
   .mk "Nodes" "nodeCount" (.int 3),
   .mk "Etag" "-" (.string "abc")]

/-- Fields of a destination record of the older version, not fresh: `Name` and
`Zone` are already populated. -/
def rtDestFields : List Field :=
  [.mk "Name" "name" (.string "old"),
   .mk "Zone" "zone,omitempty" (.string "eu"),
   .mk "Etag" "-" (.string "")]

/-! ## Basic facts about field lookup -/

theorem FieldByName_setField_same (name : String) (v : Value) :
    ∀ fs : List Field, (FieldByName name fs).isSome = true →
      FieldByName name (setField name v fs) = some v
  | [], h => by simp [FieldByName] at h
  | .mk n t x :: rest, h => by
    by_cases hn : n = name
    · simp [setField, FieldByName, hn]
    · simp only [FieldByName, hn, if_false] at h
      simp only [setField, FieldByName, hn, if_false]
      exact FieldByName_setField_same name v rest h

theorem FieldByName_setField_ne {name other : String} (hne : other ≠ name) (v : Value) :
    ∀ fs : List Field, FieldByName other (setField name v fs) = FieldByName other fs
  | [] => rfl
  | .mk n t x :: rest => by
    by_cases hn : n = name
    · have hno : ¬ n = other := fun h => hne (h ▸ hn)
      simp only [setField, hn, if_true, FieldByName]
      rw [if_neg (fun e => hne e.symm), if_neg (fun e => hne e.symm)]
    · simp only [setField, hn, if_false, FieldByName]
      rw [FieldByName_setField_ne hne v rest]

theorem setField_of_FieldByName {name : String} {v : Value} :
    ∀ fs : List Field, FieldByName name fs = some v → setField name v fs = fs
  | [], _ => rfl
  | .mk n t x :: rest, h => by
    by_cases hn : n = name
    · simp only [FieldByName, hn, if_true, Option.some.injEq] at h
      simp [setField, hn, h]
    · simp only [FieldByName, hn, if_false] at h
      simp only [setField, hn, if_false]
      rw [setField_of_FieldByName rest h]

theorem FieldByName_eq_none {name : String} :
    ∀ fs : List Field, name ∉ fs.map Field.name → FieldByName name fs = none
  | [], _ => rfl
  | .mk n t x :: rest, h => by
    simp only [List.map_cons, List.mem_cons, not_or, Field.name] at h
    have hn : ¬ n = name := fun e => h.1 e.symm
    simp only [FieldByName, hn, if_false]
    exact FieldByName_eq_none rest h.2

theorem FieldByName_of_mem {name tag : String} {v : Value} :
    ∀ fs : List Field, (fs.map Field.name).Nodup → Field.mk name tag v ∈ fs →
      FieldByName name fs = some v
  | [], _, h => by simp at h
  | .mk n t x :: rest, hnd, h => by
    simp only [List.map_cons, List.nodup_cons, Field.name] at hnd
    rcases List.mem_cons.mp h with h | h
    · injection h with h1 h2 h3
      simp [FieldByName, h1, h3]
    · have hmem : name ∈ rest.map Field.name := List.mem_map.mpr ⟨_, h, rfl⟩
      have hn : ¬ n = name := fun e => hnd.1 (e ▸ hmem)
      simp only [FieldByName, hn, if_false]
      exact FieldByName_of_mem rest hnd.2 h

theorem value_of_name {name tag : String} {v : Value} {fs : List Field}
    (hnd : (fs.map Field.name).Nodup) (hmem : Field.mk name tag v ∈ fs)
    {f : Field} (hf : f ∈ fs) (hfn : f.name = name) : f.value = v := by
  have h1 := FieldByName_of_mem fs hnd hmem
  cases f with
  | mk n t x =>
    simp only [Field.name] at hfn
    subst hfn
    have h2 := FieldByName_of_mem fs hnd hf
    rw [h1] at h2
    exact (Option.some.inj h2).symm

theorem storeField_field_ne {name other : String} (hne : other ≠ name) (out v : Value) :
    (storeField out name v).field? other = out.field? other := by
  unfold storeField
  split
  · simp only [Value.field?]; exact FieldByName_setField_ne hne v _
  · rfl

theorem storeField_field_same {name : String} {out o : Value} (v : Value)
    (h : outField out name = some (some o)) :
    (storeField out name v).field? name = some v := by
  unfold outField at h
  split at h
  · simp only [Option.some.injEq] at h
    simp only [storeField, Value.field?]
    exact FieldByName_setField_same name v _ (by simp [h])
  · simp at h

theorem outField_field {out : Value} {name : String} {r : Option Value}
    (h : outField out name = some r) : out.field? name = r := by
  unfold outField at h
  split at h
  · simp only [Option.some.injEq] at h; simpa [Value.field?] using h
  · simp at h

theorem fieldLoop_frame (isEmpty : Value → Bool) (name : String) :
    ∀ (fs : List Field) (out out' : Value),
      (∀ f ∈ fs, f.name = name → isEmpty f.value = true) →
      fieldLoop isEmpty fs out = some out' → out'.field? name = out.field? name
  | [], out, out', _, h => by
    simp only [fieldLoop, Option.some.injEq] at h; rw [h]
  | .mk n t v :: rest, out, out', hemp, h => by
    have hrest : ∀ f ∈ rest, f.name = name → isEmpty f.value = true :=
      fun f hf => hemp f (List.mem_cons_of_mem _ hf)
    rw [fieldLoop.eq_2] at h
    split at h
    · exact fieldLoop_frame isEmpty name rest out out' hrest h
    · rename_i hv
      have hn : name ≠ n := fun e => hv (hemp (.mk n t v) (List.mem_cons_self _ _) e.symm)
      split at h
      · simp at h
      · exact fieldLoop_frame isEmpty name rest out out' hrest h
      · split at h
        · simp at h
        · rw [fieldLoop_frame isEmpty name rest _ out' hrest h]
          exact storeField_field_ne hn _ _

theorem FieldByName_setField_isSome (name other : String) (v : Value) :
    ∀ fs : List Field,
      (FieldByName other (setField name v fs)).isSome = (FieldByName other fs).isSome
  | [] => rfl
  | .mk n t x :: rest => by
    by_cases hn : n = name
    · subst hn
      by_cases ho : n = other
      · simp only [setField, if_true, FieldByName, ho, Option.isSome_some]
      · simp only [setField, if_true, FieldByName, ho, if_false]
    · by_cases ho : n = other
      · subst ho
        simp only [setField, hn, if_false, FieldByName, if_true, Option.isSome_some]
      · simp only [setField, hn, if_false, FieldByName, ho]
        exact FieldByName_setField_isSome name other v rest

theorem storeField_declares (out : Value) (name other : String) (v : Value) :
    ((storeField out name v).field? other).isSome = (out.field? other).isSome := by
  unfold storeField
  split
  · simp only [Value.field?]; exact FieldByName_setField_isSome name other v _
  · rfl

theorem fieldLoop_declares (isEmpty : Value → Bool) (name : String) :
    ∀ (fs : List Field) (out out' : Value),
      fieldLoop isEmpty fs out = some out' →
      (out'.field? name).isSome = (out.field? name).isSome
  | [], out, out', h => by
    simp only [fieldLoop, Option.some.injEq] at h; rw [h]
  | .mk n t v :: rest, out, out', h => by
    rw [fieldLoop.eq_2] at h
    split at h
    · exact fieldLoop_declares isEmpty name rest out out' h
    · split at h
      · simp at h
      · exact fieldLoop_declares isEmpty name rest out out' h
      · split at h
        · simp at h
        · rw [fieldLoop_declares isEmpty name rest _ out' h]
          exact storeField_declares _ _ _ _

theorem storeField_ptr (o : Value) (name : String) (v : Value) :
    ∃ o', storeField (.ptr o) name v = .ptr o' := by
  unfold storeField
  split
  · exact ⟨_, rfl⟩
  · exact ⟨_, rfl⟩

theorem fieldLoop_ptr (isEmpty : Value → Bool) :
    ∀ (fs : List Field) (o r : Value),
      fieldLoop isEmpty fs (.ptr o) = some r → ∃ o', r = .ptr o'
  | [], o, r, h => by
    simp only [fieldLoop, Option.some.injEq] at h; exact ⟨o, h.symm⟩
  | .mk n t v :: rest, o, r, h => by
    rw [fieldLoop.eq_2] at h
    split at h
    · exact fieldLoop_ptr isEmpty rest o r h
    · split at h
      · simp at h
      · exact fieldLoop_ptr isEmpty rest o r h
      · split at h
        · simp at h
        · rename_i o2 _
          obtain ⟨o3, ho3⟩ := storeField_ptr o n o2
          rw [ho3] at h
          exact fieldLoop_ptr isEmpty rest o3 r h

theorem fieldLoop_effect (isEmpty : Value → Bool) {name tag : String} {v : Value} :
    ∀ (fs : List Field) (out out' : Value) (o : Value),
      (fs.map Field.name).Nodup → Field.mk name tag v ∈ fs → isEmpty v = false →
      out.field? name = some o →
      fieldLoop isEmpty fs out = some out' →
      ∃ o', fieldStep isEmpty tag v o = some o' ∧ out'.field? name = some o'
  | [], _, _, _, _, hmem, _, _, _ => by simp at hmem
  | .mk n t x :: rest, out, out', o, hnd, hmem, hne, hout, h => by
    simp only [List.map_cons, List.nodup_cons, Field.name] at hnd
    rw [fieldLoop.eq_2] at h
    rcases List.mem_cons.mp hmem with heq | hin
    · injection heq with h1 h2 h3
      subst h1; subst h2; subst h3
      have hframe : ∀ f ∈ rest, f.name = name → isEmpty f.value = true := by
        intro f hf hfn
        exact absurd (List.mem_map.mpr ⟨f, hf, hfn⟩) hnd.1
      rw [if_neg (by simp [hne])] at h
      split at h
      · simp at h
      · rename_i hof
        have := outField_field hof
        rw [hout] at this; simp at this
      · rename_i oField hof
        have := outField_field hof
        rw [hout] at this
        simp only [Option.some.injEq] at this
        subst this
        split at h
        · simp at h
        · rename_i o2 hstep
          refine ⟨o2, hstep, ?_⟩
          rw [fieldLoop_frame isEmpty name rest _ out' hframe h]
          exact storeField_field_same o2 hof
    · have hmem' : name ∈ rest.map Field.name := List.mem_map.mpr ⟨_, hin, rfl⟩
      have hn : name ≠ n := fun e => hnd.1 (e ▸ hmem')
      split at h
      · exact fieldLoop_effect isEmpty rest out out' o hnd.2 hin hne hout h
      · split at h
        · simp at h
        · exact fieldLoop_effect isEmpty rest out out' o hnd.2 hin hne hout h
        · split at h
          · simp at h
          · rename_i o2 _
            refine fieldLoop_effect isEmpty rest _ out' o hnd.2 hin hne ?_ h
            rw [storeField_field_ne hn]; exact hout

theorem fieldStep_struct (isEmpty : Value → Bool) (tag sname : String)
    (fields : List Field) (oField : Value) :
    fieldStep isEmpty tag (.struct sname fields) oField =
      (if tag = "-" then Set oField (.struct sname fields) else some oField).bind
        (fun o => (walk isEmpty (.struct sname fields) (.ptr o)).bind pointee) := by
  rw [fieldStep.eq_1]
  split
  · rename_i h; rw [h]; rfl
  · rename_i o h
    simp only [h, Option.some_bind, walk.eq_1, isPointer, if_true]

/-! ## Walking a value onto itself -/

theorem copied_value {tag : String} {o v o1 : Value} (hcase : tag = "-" ∨ o = v)
    (h : (if tag = "-" then Set o v else some o) = some o1) : o1 = v := by
  by_cases ht : tag = "-"
  · rw [if_pos ht] at h
    unfold Set at h
    split at h
    · exact (Option.some.inj h).symm
    · simp at h
  · rw [if_neg ht] at h
    rcases hcase with hc | hc
    · exact absurd hc ht
    · rw [← hc]; exact (Option.some.inj h).symm

theorem Index_append (e : Ty) (pre : List Value) (x : Value) (rest : List Value) :
    Index (.slice e (pre ++ x :: rest)) pre.length = some x := by
  simp only [Index]
  rw [List.getElem?_append_right (Nat.le_refl _)]
  simp

theorem setIndex_append (e : Ty) (pre : List Value) (x : Value) (rest : List Value) :
    setIndex (.slice e (pre ++ x :: rest)) pre.length x = .slice e (pre ++ x :: rest) := by
  simp [setIndex]

mutual
theorem walk_self (isEmpty : Value → Bool) :
    ∀ v : Value, wellFormed v = true → ∀ r, walk isEmpty v (.ptr v) = some r → r = .ptr v
  | .struct n fs, hwf, r, h => by
    simp only [wellFormed, Bool.and_eq_true, decide_eq_true_eq] at hwf
    rw [walk.eq_1] at h
    simp only [isPointer, if_true] at h
    exact fieldLoop_self isEmpty fs hwf.2 n [] (by simpa using hwf.1) r h
  | .bool _, _, r, h => by simp [walk] at h
  | .int _, _, r, h => by simp [walk] at h
  | .string _, _, r, h => by simp [walk] at h
  | .ptr _, _, r, h => by simp [walk] at h
  | .nilPtr _, _, r, h => by simp [walk] at h
  | .slice _ _, _, r, h => by simp [walk] at h
  | .map _, _, r, h => by simp [walk] at h
  | .nilMap, _, r, h => by simp [walk] at h
theorem fieldLoop_self (isEmpty : Value → Bool) :
    ∀ suf : List Field, wfFields suf = true → ∀ (n : String) (pre : List Field),
      ((pre ++ suf).map Field.name).Nodup → ∀ r,
      fieldLoop isEmpty suf (.ptr (.struct n (pre ++ suf))) = some r →
      r = .ptr (.struct n (pre ++ suf))
  | [], _, n, pre, _, r, h => by
    simp only [fieldLoop, Option.some.injEq] at h; exact h.symm
  | .mk fn ft fv :: rest, hwf, n, pre, hnd, r, h => by
    simp only [wfFields, Bool.and_eq_true] at hwf
    have happ : pre ++ Field.mk fn ft fv :: rest = (pre ++ [Field.mk fn ft fv]) ++ rest := by
      simp
    have hnext := fieldLoop_self isEmpty rest hwf.2 n (pre ++ [Field.mk fn ft fv])
      (by rw [← happ]; exact hnd) r
    rw [← happ] at hnext
    rw [fieldLoop.eq_2] at h
    split at h
    · exact hnext h
    · have hlook : FieldByName fn (pre ++ Field.mk fn ft fv :: rest) = some fv :=
        @FieldByName_of_mem fn ft fv _ hnd (by simp)
      simp only [outField, hlook] at h
      split at h
      · simp at h
      · rename_i o hstep
        have ho : o = fv := fieldStep_self isEmpty fv hwf.1 ft fv o (Or.inr rfl) hstep
        subst ho
        simp only [storeField, setField_of_FieldByName _ hlook] at h
        exact hnext h
theorem fieldStep_self (isEmpty : Value → Bool) :
    ∀ v : Value, wellFormed v = true → ∀ (tag : String) (o r : Value),
      (tag = "-" ∨ o = v) → fieldStep isEmpty tag v o = some r → r = v
  | .struct n fs, hwf, tag, o, r, hcase, h => by
    simp only [wellFormed, Bool.and_eq_true, decide_eq_true_eq] at hwf
    rw [fieldStep.eq_1] at h
    split at h
    · simp at h
    · rename_i o1 hset
      have := copied_value hcase hset
      subst this
      simp only [Option.bind_eq_some] at h
      obtain ⟨r1, hr1, hp⟩ := h
      have := fieldLoop_self isEmpty fs hwf.2 n [] (by simpa using hwf.1) r1 hr1
      subst this
      simpa [pointee] using hp.symm
  | .ptr t, hwf, tag, o, r, hcase, h => by
    simp only [wellFormed] at hwf
    rw [fieldStep.eq_1] at h
    split at h
    · simp at h
    · rename_i o1 hset
      have := copied_value hcase hset
      subst this
      simp only at h
      split at h
      · exact walk_self isEmpty t hwf r h
      · exact (Option.some.inj h).symm
  | .nilPtr e, _, tag, o, r, hcase, h => by
    rw [fieldStep.eq_1] at h
    split at h
    · simp at h
    · rename_i o1 hset
      have := copied_value hcase hset
      subst this
      simp only at h
      split at h
      · simp at h
      · exact (Option.some.inj h).symm
  | .slice e es, hwf, tag, o, r, hcase, h => by
    simp only [wellFormed] at hwf
    rw [fieldStep.eq_1] at h
    split at h
    · simp at h
    · rename_i o1 hset
      have := copied_value hcase hset
      subst this
      simp only at h
      split at h
      · exact sliceLoop_self isEmpty es hwf e [] r h
      · split at h
        · exact ptrSliceLoop_self isEmpty es hwf e [] r h
        · exact (Option.some.inj h).symm
  | .bool _, _, tag, o, r, hcase, h => by
    rw [fieldStep.eq_1] at h
    split at h
    · simp at h
    · rename_i o1 hset
      have := copied_value hcase hset
      subst this
      exact (Option.some.inj h).symm
  | .int _, _, tag, o, r, hcase, h => by
    rw [fieldStep.eq_1] at h
    split at h
    · simp at h
    · rename_i o1 hset
      have := copied_value hcase hset
      subst this
      exact (Option.some.inj h).symm
  | .string _, _, tag, o, r, hcase, h => by
    rw [fieldStep.eq_1] at h
    split at h
    · simp at h
    · rename_i o1 hset
      have := copied_value hcase hset
      subst this
      exact (Option.some.inj h).symm
  | .map _, _, tag, o, r, hcase, h => by
    rw [fieldStep.eq_1] at h
    split at h
    · simp at h
    · rename_i o1 hset
      have := copied_value hcase hset
      subst this
      exact (Option.some.inj h).symm
  | .nilMap, _, tag, o, r, hcase, h => by
    rw [fieldStep.eq_1] at h
    split at h
    · simp at h
    · rename_i o1 hset
      have := copied_value hcase hset
      subst this
      exact (Option.some.inj h).symm
theorem sliceLoop_self (isEmpty : Value → Bool) :
    ∀ suf : List Value, wfElems suf = true → ∀ (e : Ty) (pre : List Value) (r : Value),
      sliceLoop isEmpty suf pre.length (.slice e (pre ++ suf)) = some r →
      r = .slice e (pre ++ suf)
  | [], _, e, pre, r, h => by
    simp only [sliceLoop, Option.some.injEq] at h; exact h.symm
  | x :: rest, hwf, e, pre, r, h => by
    simp only [wfElems, Bool.and_eq_true] at hwf
    have happ : pre ++ x :: rest = (pre ++ [x]) ++ rest := by simp
    have hnext := sliceLoop_self isEmpty rest hwf.2 e (pre ++ [x]) r
    rw [← happ] at hnext
    rw [sliceLoop.eq_2, Index_append] at h
    simp only at h
    split at h
    · simp at h
    · rename_i oe1 hw
      simp only [Option.bind_eq_some] at hw
      obtain ⟨r1, hr1, hp⟩ := hw
      have := walk_self isEmpty x hwf.1 r1 hr1
      subst this
      simp only [pointee, Option.some.injEq] at hp
      subst hp
      rw [setIndex_append] at h
      exact hnext (by simpa using h)
theorem ptrSliceLoop_self (isEmpty : Value → Bool) :
    ∀ suf : List Value, wfElems suf = true → ∀ (e : Ty) (pre : List Value) (r : Value),
      ptrSliceLoop isEmpty suf pre.length (.slice e (pre ++ suf)) = some r →
      r = .slice e (pre ++ suf)
  | [], _, e, pre, r, h => by
    simp only [ptrSliceLoop, Option.some.injEq] at h; exact h.symm
  | x :: rest, hwf, e, pre, r, h => by
    simp only [wfElems, Bool.and_eq_true] at hwf
    have happ : pre ++ x :: rest = (pre ++ [x]) ++ rest := by simp
    have hnext := ptrSliceLoop_self isEmpty rest hwf.2 e (pre ++ [x]) r
    rw [← happ] at hnext
    rw [ptrSliceLoop.eq_2, Index_append] at h
    simp only at h
    cases x with
    | ptr t =>
      simp only [wellFormed] at hwf
      simp only at h
      split at h
      · simp at h
      · rename_i oe1 hw
        have := walk_self isEmpty t hwf.1 oe1 hw
        subst this
        rw [setIndex_append] at h
        exact hnext (by simpa using h)
    | _ => simp at h
end

/-! ## Facts about `Convert` -/

theorem Convert_of_decoded (json : Codec) (isEmpty : Value → Bool) {item out out1 : Value}
    (hdec : Decoded json item out out1) :
    Convert json isEmpty item out =
      if isMap item then .returned none out1
      else
        match setOmittedFields isEmpty item out1 with
        | some out2 => .returned none out2
        | none => .panicked := by
  obtain ⟨bytes, hm, hu⟩ := hdec
  unfold Convert
  rw [hm]
  simp only [hu]

theorem restored_of_Convert (json : Codec) (isEmpty : Value → Bool)
    {sname : String} {fields : List Field} {out out1 out2 : Value}
    (hdec : Decoded json (.ptr (.struct sname fields)) out out1)
    (hok : Convert json isEmpty (.ptr (.struct sname fields)) out = .returned none out2) :
    fieldLoop isEmpty fields out1 = some out2 := by
  rw [Convert_of_decoded json isEmpty hdec] at hok
  simp only [isMap, Bool.false_eq_true, if_false, setOmittedFields, walk] at hok
  split at hok
  · rename_i o2 h2
    injection hok with _ h
    subst h
    split at h2
    · exact h2
    · simp at h2
  · simp at hok

theorem wfFields_mem : ∀ (fs : List Field), wfFields fs = true →
    ∀ f ∈ fs, wellFormed f.value = true
  | [], _, f, hf => by simp at hf
  | .mk n t v :: rest, h, f, hf => by
    simp only [wfFields, Bool.and_eq_true] at h
    rcases List.mem_cons.mp hf with e | hin
    · rw [e]; exact h.1
    · exact wfFields_mem rest h.2 f hin

theorem wfElems_mem : ∀ (es : List Value), wfElems es = true →
    ∀ e ∈ es, wellFormed e = true
  | [], _, e, he => by simp at he
  | v :: rest, h, e, he => by
    simp only [wfElems, Bool.and_eq_true] at h
    rcases List.mem_cons.mp he with e1 | hin
    · rw [e1]; exact h.1
    · exact wfElems_mem rest h.2 e hin

theorem wellFormed_record {sname : String} {fields : List Field}
    (h : wellFormed (.ptr (.struct sname fields)) = true) :
    (fields.map Field.name).Nodup ∧ ∀ f ∈ fields, wellFormed f.value = true := by
  simp only [wellFormed, Bool.and_eq_true, decide_eq_true_eq] at h
  exact ⟨h.1, wfFields_mem fields h.2⟩

/-- C1. Excluded-field preservation.  The source is a record (a pointer to a
struct, not a mapping) with distinct field names; `name` is a field of it tagged
`-` whose value is not empty; the destination, as decoding leaves it, declares a
field `name`.  If `Convert` returns without error, the destination field `name`
holds the source value, whatever the codec put on the wire. -/
theorem excluded_field_preserved (json : Codec) (isEmpty : Value → Bool)
    (sname : String) (fields : List Field) (out out1 out2 : Value)
    (name : String) (v : Value)
    (hwf : wellFormed (.ptr (.struct sname fields)) = true)
    (hf : Field.mk name "-" v ∈ fields)
    (hne : isEmpty v = false)
    (hdec : Decoded json (.ptr (.struct sname fields)) out out1)
    (hdecl : (out1.field? name).isSome = true)
    (hok : Convert json isEmpty (.ptr (.struct sname fields)) out = .returned none out2) :
    out2.field? name = some v := by
  obtain ⟨hnd, hvals⟩ := wellFormed_record hwf
  have hloop := restored_of_Convert json isEmpty hdec hok
  obtain ⟨o, ho⟩ := Option.isSome_iff_exists.mp hdecl
  obtain ⟨o2, hstep, hres⟩ := fieldLoop_effect isEmpty fields out1 out2 o hnd hf hne ho hloop
  have := fieldStep_self isEmpty v (hvals _ hf) "-" o o2 (Or.inl rfl) hstep
  rw [hres, this]

/-- Witness for C1 on the worked example: the excluded `Etag` reaches the
destination. -/
theorem excluded_field_preserved_witness :
    wellFormed exSource = true ∧ isEmptyValue (.string "abc") = false ∧
      Decoded (jsonCodec exZero) exSource exDest exDecoded ∧
      exResult.field? "Etag" = some (.string "abc") :=
  ⟨by decide, rfl, ⟨encode exSource, rfl, rfl⟩,
    excluded_field_preserved (jsonCodec exZero) isEmptyValue "v1beta1.Cluster" exFields
      exDest exDecoded exResult "Etag" (.string "abc") (by decide) (by simp [exFields]) rfl
      ⟨encode exSource, rfl, rfl⟩ rfl rfl⟩

/-! ## Fields the walk passes over -/

theorem outField_storeField_absent {out : Value} {name : String}
    (h : outField out name = some none) (other : String) (o : Value) :
    outField (storeField out other o) name = some none := by
  unfold outField at h
  split at h
  · rename_i s ofs
    simp only [Option.some.injEq] at h
    simp only [storeField, outField, Option.some.injEq]
    have := FieldByName_setField_isSome other name o ofs
    rw [h] at this
    simpa using this
  · simp at h

theorem fieldLoop_skip (isEmpty : Value → Bool) (name tag : String) (v : Value)
    (post : List Field) :
    ∀ (pre : List Field) (out : Value),
      (isEmpty v = true ∨ outField out name = some none) →
      fieldLoop isEmpty (pre ++ Field.mk name tag v :: post) out =
        fieldLoop isEmpty (pre ++ post) out
  | [], out, h => by
    simp only [List.nil_append]
    rw [fieldLoop.eq_2]
    rcases h with h | h
    · rw [if_pos h]
    · rw [h]
      split <;> rfl
  | .mk n t x :: pre, out, h => by
    simp only [List.cons_append]
    rw [fieldLoop.eq_2, fieldLoop.eq_2]
    rw [fieldLoop_skip isEmpty name tag v post pre out h]
    split
    · rfl
    · split
      · rfl
      · rfl
      · split
        · rfl
        · rename_i o _
          apply fieldLoop_skip isEmpty name tag v post pre
          rcases h with h | h
          · exact Or.inl h
          · exact Or.inr (outField_storeField_absent h n o)

theorem Convert_frame (json : Codec) (isEmpty : Value → Bool)
    (sname : String) (fields : List Field) (out : Value) (name : String)
    (hskip : ∀ f ∈ fields, f.name = name → isEmpty f.value = true)
    (hkeep : DecodeKeeps json (.ptr (.struct sname fields)) out name)
    (err : Option Error) (out2 : Value)
    (h : Convert json isEmpty (.ptr (.struct sname fields)) out = .returned err out2) :
    out2.field? name = out.field? name := by
  unfold Convert at h
  split at h
  · injection h with _ h2
    rw [← h2]
  · rename_i bytes hm
    have hk := hkeep bytes hm
    split at h
    · rename_i e out1 hu
      injection h with _ h2
      rw [hu] at hk
      rw [← h2]; exact hk
    · rename_i out1 hu
      rw [hu] at hk
      simp only [isMap, Bool.false_eq_true, if_false, setOmittedFields, walk] at h
      split at h
      · rename_i o2 hw
        injection h with _ h2
        subst h2
        split at hw
        · rw [fieldLoop_frame isEmpty name fields out1 o2 hskip hw]; exact hk
        · simp at hw
      · simp at h

/-- C3. Empty-excluded non-clobber.  The source record has distinct field names
and an excluded field `name` whose value is empty; the destination holds the
non-empty `w` in its field `name` before the call, and the decoding step leaves
that field alone (nothing travels for an excluded field).  Then whenever
`Convert` returns, the destination field still holds `w`; and the walk neither
copies nor enters the empty field: it is the walk of the source without it. -/
theorem empty_excluded_no_clobber (json : Codec) (isEmpty : Value → Bool)
    (sname : String) (pre post : List Field) (out : Value) (name : String) (v w : Value)
    (hnames : ((pre ++ Field.mk name "-" v :: post).map Field.name).Nodup)
    (hz : isEmpty v = true)
    (hpre : out.field? name = some w)
    (_hw : isEmpty w = false)
    (hkeep : DecodeKeeps json (.ptr (.struct sname (pre ++ Field.mk name "-" v :: post)))
      out name) :
    (∀ err out2,
        Convert json isEmpty (.ptr (.struct sname (pre ++ Field.mk name "-" v :: post))) out
          = .returned err out2 →
        out2.field? name = some w) ∧
      (∀ o : Value,
        setOmittedFields isEmpty (.ptr (.struct sname (pre ++ Field.mk name "-" v :: post))) o
          = setOmittedFields isEmpty (.ptr (.struct sname (pre ++ post))) o) := by
  constructor
  · intro err out2 h
    rw [← hpre]
    refine Convert_frame json isEmpty sname _ out name ?_ hkeep err out2 h
    intro f hf hfn
    have hlook := FieldByName_of_mem _ hnames (List.mem_append_right pre (List.mem_cons_self _ _))
    have hlook2 : FieldByName name (pre ++ Field.mk name "-" v :: post) = some f.value := by
      cases f with
      | mk n t x =>
        simp only [Field.name] at hfn
        subst hfn
        exact FieldByName_of_mem _ hnames hf
    rw [hlook] at hlook2
    rw [← Option.some.inj hlook2]; exact hz
  · intro o
    simp only [setOmittedFields, walk]
    rw [fieldLoop_skip isEmpty name "-" v post pre o (Or.inl hz)]

/-- Witness for C3 on the worked example: the empty excluded `Labels` of the
source leaves the populated `Labels` of the destination alone. -/
theorem empty_excluded_no_clobber_witness :
    isEmptyValue (.slice .string []) = true ∧
      exDest.field? "Labels" = some (.slice .string [.string "keep"]) ∧
      exResult.field? "Labels" = some (.slice .string [.string "keep"]) :=
  ⟨rfl, rfl,
    (empty_excluded_no_clobber (jsonCodec exZero) isEmptyValue "v1beta1.Cluster"
      (exFields.take 2) (exFields.drop 3) exDest "Labels" (.slice .string [])
      (.slice .string [.string "keep"]) (by decide) rfl rfl rfl
      (fun _ hb => by cases hb; rfl)).1 none exResult rfl⟩
/-- C4. Map source has no restoration.  For a source that is a schema-less
mapping (the type assertion `item.(map[string]interface{})` succeeds),
`Convert` is the two codec steps and nothing else: it returns what `Unmarshal`
returns and leaves the destination as `Unmarshal` leaves it.  The
excluded-field walk is not run (on a mapping it would panic, and `Convert`
never panics here), so a destination field that decoding leaves alone keeps the
value it had before the call. -/
theorem map_source_no_restoration (json : Codec) (isEmpty : Value → Bool)
    (item out : Value) (hmap : isMap item = true) :
    Convert json isEmpty item out =
        (match json.Marshal item with
         | .error err => .returned (some err) out
         | .ok bytes => .returned (json.Unmarshal bytes out).1 (json.Unmarshal bytes out).2) ∧
      setOmittedFields isEmpty item out = none ∧
      Convert json isEmpty item out ≠ .panicked ∧
      (∀ (name : String) (err : Option Error) (out2 : Value),
        DecodeKeeps json item out name →
        Convert json isEmpty item out = .returned err out2 →
        out2.field? name = out.field? name) := by
  have hconv : Convert json isEmpty item out =
      (match json.Marshal item with
       | .error err => .returned (some err) out
       | .ok bytes =>
         .returned (json.Unmarshal bytes out).1 (json.Unmarshal bytes out).2) := by
    unfold Convert
    cases hm : json.Marshal item with
    | error e => rfl
    | ok bytes =>
      simp only
      rcases hu : json.Unmarshal bytes out with ⟨e, o1⟩
      cases e with
      | some e => rfl
      | none => simp [hmap]
  have hwalk : setOmittedFields isEmpty item out = none := by
    cases item <;> simp [isMap] at hmap <;> rfl
  refine ⟨hconv, hwalk, ?_, ?_⟩
  · rw [hconv]
    cases json.Marshal item <;> simp
  · intro name err out2 hkeep h
    rw [hconv] at h
    cases hm : json.Marshal item with
    | error e =>
      rw [hm] at h
      injection h with _ h2
      rw [← h2]
    | ok bytes =>
      rw [hm] at h
      injection h with _ h2
      rw [← h2]
      exact hkeep bytes hm

/-- Witness for C4: the mapping populates `Name` and `SelfLink` only, and the
pre-populated excluded `Labels` of the destination is as before. -/
theorem map_source_no_restoration_witness :
    isMap exMapping = true ∧
      Convert (jsonCodec exZero) isEmptyValue exMapping exDest =
        .returned none ((jsonCodec exZero).Unmarshal (encode exMapping) exDest).2 ∧
      (((jsonCodec exZero).Unmarshal (encode exMapping) exDest).2.field? "Name"
          = some (.string "prod")) ∧
      (((jsonCodec exZero).Unmarshal (encode exMapping) exDest).2.field? "Labels"
          = exDest.field? "Labels") :=
  ⟨rfl, (map_source_no_restoration (jsonCodec exZero) isEmptyValue exMapping exDest rfl).1,
    rfl,
    (map_source_no_restoration (jsonCodec exZero) isEmptyValue exMapping exDest rfl).2.2.2
      "Labels" none _ (fun _ hb => by cases hb; rfl) rfl⟩

/-- C5. `Convert` returns the error `e`, leaving the destination `o`, exactly
when `Marshal` fails with `e` (the destination is untouched) or `Marshal`
succeeds and `Unmarshal` fails with `e` (the destination is as `Unmarshal` left
it).  In both cases the walk has not run: the destination is not the walked one
and the call does not panic even where the walk would.  When both steps succeed
`Convert` returns no error. -/
theorem convert_error_iff (json : Codec) (isEmpty : Value → Bool) (item out : Value) :
    (∀ (e : Error) (o : Value),
        Convert json isEmpty item out = .returned (some e) o ↔
          (json.Marshal item = .error e ∧ o = out) ∨
          (∃ bytes, json.Marshal item = .ok bytes ∧
            json.Unmarshal bytes out = (some e, o))) ∧
      (∀ out1, Decoded json item out out1 →
        ∀ (e : Error) (o : Value), Convert json isEmpty item out ≠ .returned (some e) o) := by
  have key : ∀ (e : Error) (o : Value),
      Convert json isEmpty item out = .returned (some e) o ↔
        (json.Marshal item = .error e ∧ o = out) ∨
        (∃ bytes, json.Marshal item = .ok bytes ∧
          json.Unmarshal bytes out = (some e, o)) := by
    intro e o
    unfold Convert
    cases hm : json.Marshal item with
    | error e1 =>
      simp only [Outcome.returned.injEq, Option.some.injEq, Except.error.injEq]
      constructor
      · rintro ⟨h1, h2⟩; exact Or.inl ⟨h1, h2.symm⟩
      · rintro (⟨h1, h2⟩ | ⟨b, hb, _⟩)
        · exact ⟨h1, h2.symm⟩
        · cases hb
    | ok bytes =>
      simp only
      rcases hu : json.Unmarshal bytes out with ⟨e1, o1⟩
      cases e1 with
      | some e1 =>
        simp only [Outcome.returned.injEq, Option.some.injEq]
        constructor
        · rintro ⟨h1, h2⟩
          refine Or.inr ⟨bytes, rfl, ?_⟩
          rw [hu, h1, h2]
        · rintro (⟨h1, _⟩ | ⟨b, hb, h2⟩)
          · cases h1
          · cases hb
            rw [hu] at h2
            injection h2 with h3 h4
            exact ⟨Option.some.inj h3, h4⟩
      | none =>
        simp only
        constructor
        · intro h
          split at h
          · cases h
          · split at h <;> cases h
        · rintro (⟨h1, _⟩ | ⟨b, hb, h2⟩)
          · cases h1
          · cases hb
            rw [hu] at h2
            cases h2
  refine ⟨key, ?_⟩
  intro out1 hdec e o h
  obtain ⟨bytes, hm, hu⟩ := hdec
  rcases (key e o).mp h with ⟨h1, _⟩ | ⟨b, hb, h2⟩
  · rw [hm] at h1; cases h1
  · rw [hm] at hb
    cases hb
    rw [hu] at h2
    cases h2
/-- Witness for C5: decoding the text `prod` into an integer field fails, and
`Convert` returns that error with the destination as the decoder left it. -/
theorem convert_error_iff_witness :
    Convert (jsonCodec exZero) isEmptyValue exSource exBadDest =
      .returned (some "json: cannot unmarshal") exBadDest :=
  ((convert_error_iff (jsonCodec exZero) isEmptyValue exSource exBadDest).1
    "json: cannot unmarshal" exBadDest).mpr (Or.inr ⟨encode exSource, rfl, rfl⟩)

/-- C8. A field declared only on the destination.  At the top level: if no
field of the source record is called `name` and the decoding step leaves the
destination field `name` alone, then whenever `Convert` returns, that field
holds the value it had before the call.  At every nesting level: a run of the
walk from a source record `iVal` that declares no field `name` leaves the field
`name` of the record it writes to as it was. -/
theorem destination_only_field_untouched (json : Codec) (isEmpty : Value → Bool)
    (sname : String) (fields : List Field) (out : Value) (name : String)
    (honly : name ∉ fields.map Field.name)
    (hkeep : DecodeKeeps json (.ptr (.struct sname fields)) out name) :
    (∀ err out2,
        Convert json isEmpty (.ptr (.struct sname fields)) out = .returned err out2 →
        out2.field? name = out.field? name) ∧
      (∀ (inner : String) (ifields : List Field) (o o2 : Value),
        name ∉ ifields.map Field.name →
        walk isEmpty (.struct inner ifields) o = some o2 →
        o2.field? name = o.field? name) := by
  constructor
  · intro err out2 h
    refine Convert_frame json isEmpty sname fields out name ?_ hkeep err out2 h
    intro f hf hfn
    exact absurd (List.mem_map.mpr ⟨f, hf, hfn⟩) honly
  · intro inner ifields o o2 hno hw
    rw [walk.eq_1] at hw
    split at hw
    · refine fieldLoop_frame isEmpty name ifields o o2 ?_ hw
      intro f hf hfn
      exact absurd (List.mem_map.mpr ⟨f, hf, hfn⟩) hno
    · simp at hw

/-- Witness for C8 on the worked example: `SelfLink` exists on the destination
only and keeps its value. -/
theorem destination_only_field_untouched_witness :
    "SelfLink" ∉ exFields.map Field.name ∧
      exDest.field? "SelfLink" = some (.string "keep-me") ∧
      exResult.field? "SelfLink" = exDest.field? "SelfLink" :=
  ⟨by decide, rfl,
    (destination_only_field_untouched (jsonCodec exZero) isEmptyValue "v1beta1.Cluster"
      exFields exDest "SelfLink" (by decide) (fun _ hb => by cases hb; rfl)).1
      none exResult rfl⟩

/-- C9. Unknown-field tolerance.  The source record has a field `name` (any
tag, any value, empty or not) and the destination, a record as decoding leaves
it, declares no field of that name.  Then the walk passes over the field: its
result, and whether it completes, are those of the walk of the source without
that field, so nothing is copied, nothing is entered and no destination field
changes because of it.  `Convert` returns no error, and returns successfully
with that result whenever the walk of the remaining fields completes. -/
theorem unknown_field_tolerated (json : Codec) (isEmpty : Value → Bool)
    (sname : String) (pre post : List Field) (name tag : String) (v : Value)
    (out : Value) (dname : String) (dfields : List Field)
    (hdec : Decoded json (.ptr (.struct sname (pre ++ Field.mk name tag v :: post))) out
      (.ptr (.struct dname dfields)))
    (habsent : name ∉ dfields.map Field.name) :
    setOmittedFields isEmpty (.ptr (.struct sname (pre ++ Field.mk name tag v :: post)))
        (.ptr (.struct dname dfields))
      = setOmittedFields isEmpty (.ptr (.struct sname (pre ++ post)))
          (.ptr (.struct dname dfields)) ∧
    Convert json isEmpty (.ptr (.struct sname (pre ++ Field.mk name tag v :: post))) out
      = (match setOmittedFields isEmpty (.ptr (.struct sname (pre ++ post)))
            (.ptr (.struct dname dfields)) with
         | some out2 => .returned none out2
         | none => .panicked) ∧
    (∀ (e : Error) (o : Value),
      Convert json isEmpty (.ptr (.struct sname (pre ++ Field.mk name tag v :: post))) out
        ≠ .returned (some e) o) := by
  have hskip : setOmittedFields isEmpty
      (.ptr (.struct sname (pre ++ Field.mk name tag v :: post))) (.ptr (.struct dname dfields))
      = setOmittedFields isEmpty (.ptr (.struct sname (pre ++ post)))
          (.ptr (.struct dname dfields)) := by
    simp only [setOmittedFields, walk]
    rw [fieldLoop_skip isEmpty name tag v post pre _
      (Or.inr (by simp only [outField, FieldByName_eq_none dfields habsent]))]
  have hconv := Convert_of_decoded json isEmpty hdec
  simp only [isMap, Bool.false_eq_true, if_false] at hconv
  rw [hskip] at hconv
  refine ⟨hskip, hconv, ?_⟩
  intro e o h
  rw [hconv] at h
  split at h <;> cases h

/-- Witness for C9 on the worked example: `Alpha` exists on the source only. -/
theorem unknown_field_tolerated_witness :
    "Alpha" ∉ ["Name", "Etag", "Labels", "Config", "Meta", "Master", "Pools", "Taints",
        "SelfLink"] ∧
      Convert (jsonCodec exZero) isEmptyValue exSource exDest = .returned none exResult :=
  ⟨by decide,
    (unknown_field_tolerated (jsonCodec exZero) isEmptyValue "v1beta1.Cluster"
      (exFields.take 8) [] "Alpha" "alpha" (.int 9) exDest "v1.Cluster" _
      ⟨encode exSource, rfl, rfl⟩ (by decide)).2.1⟩

/-! ## Walking onto something that is not a record -/

theorem outField_of_not_record {out : Value} (h : isRecordPtr out = false) (name : String) :
    outField out name = none := by
  unfold outField
  split
  · simp [isRecordPtr] at h
  · rfl

theorem fieldLoop_not_record (isEmpty : Value → Bool) {out : Value}
    (h : isRecordPtr out = false) :
    ∀ fs : List Field,
      fieldLoop isEmpty fs out = if allEmptyBy isEmpty fs then some out else none
  | [] => by simp [fieldLoop, allEmptyBy]
  | .mk n t v :: rest => by
    rw [fieldLoop.eq_2, outField_of_not_record h, fieldLoop_not_record isEmpty h rest]
    cases hv : isEmpty v <;> simp [allEmptyBy, Field.value, hv]

theorem allEmptyBy_mem (isEmpty : Value → Bool) :
    ∀ fs : List Field, allEmptyBy isEmpty fs = true → ∀ f ∈ fs, isEmpty f.value = true
  | [], _, f, hf => by simp at hf
  | g :: rest, h, f, hf => by
    simp only [allEmptyBy, Bool.and_eq_true] at h
    rcases List.mem_cons.mp hf with e | hin
    · rw [e]; exact h.1
    · exact allEmptyBy_mem isEmpty rest h.2 f hin

theorem record_of_fieldLoop (isEmpty : Value → Bool) {fs : List Field} {out out' : Value}
    {f : Field} (hf : f ∈ fs) (hne : isEmpty f.value = false)
    (h : fieldLoop isEmpty fs out = some out') : isRecordPtr out = true := by
  by_contra hc
  have hc' : isRecordPtr out = false := by simpa using hc
  rw [fieldLoop_not_record isEmpty hc'] at h
  split at h
  · rename_i hall
    have := allEmptyBy_mem isEmpty fs hall f hf
    rw [hne] at this; cases this
  · cases h

theorem field_of_ptr {o : Value} (h : isRecordPtr (.ptr o) = true) (name : String) :
    (Value.ptr o).field? name = o.field? name := by
  cases o <;> simp [isRecordPtr] at h
  rfl

theorem field_of_ptr_some {o x : Value} {name : String}
    (h : (Value.ptr o).field? name = some x) : o.field? name = some x := by
  cases o <;> simp [Value.field?] at h
  simpa [Value.field?] using h

theorem field_recordFields {v : Value} {fs : List Field} (h : recordFields v = some fs)
    (name : String) : v.field? name = FieldByName name fs := by
  unfold recordFields at h
  split at h
  · cases h; rfl
  · cases h; rfl
  · cases h

theorem wellFormed_recordFields {v : Value} {fs : List Field}
    (h : recordFields v = some fs) (hwf : wellFormed v = true) :
    (fs.map Field.name).Nodup ∧ wfFields fs = true := by
  unfold recordFields at h
  split at h
  · cases h
    simpa only [wellFormed, Bool.and_eq_true, decide_eq_true_eq] using hwf
  · cases h
    simpa only [wellFormed, Bool.and_eq_true, decide_eq_true_eq] using hwf
  · cases h

theorem ExcludedIn_head (isEmpty : Value → Bool) {p : String} {pv : Value} :
    ∀ {path : List String} {fs : List Field}, ExcludedIn isEmpty p pv path fs →
      ∃ f ∈ fs, isEmpty f.value = false ∧ f.name = (path ++ [p]).head!
  | [], fs, h => ⟨_, h.1, h.2, rfl⟩
  | g :: path, fs, h => by
    obtain ⟨tag, gv, gfs, hmem, hne, _, _⟩ := h
    exact ⟨_, hmem, hne, rfl⟩

theorem ExcludedIn_path (isEmpty : Value → Bool) {p : String} {pv : Value} :
    ∀ (path : List String) (fs : List Field) (v : Value), recordFields v = some fs →
      (fs.map Field.name).Nodup → wfFields fs = true →
      ExcludedIn isEmpty p pv path fs → v.path? (path ++ [p]) = some pv
  | [], fs, v, hrec, hnd, _, h => by
    simp only [List.nil_append, Value.path?]
    rw [field_recordFields hrec, FieldByName_of_mem fs hnd h.1]
    rfl
  | g :: path, fs, v, hrec, hnd, hwf, h => by
    obtain ⟨tag, gv, gfs, hmem, _, hgrec, hrest⟩ := h
    simp only [List.cons_append, Value.path?]
    rw [field_recordFields hrec, FieldByName_of_mem fs hnd hmem]
    have hgwf := wfFields_mem fs hwf _ hmem
    obtain ⟨hnd2, hwf2⟩ := wellFormed_recordFields hgrec hgwf
    exact ExcludedIn_path isEmpty path gfs gv hgrec hnd2 hwf2 hrest

theorem path_of_ptr {o : Value} (h : isRecordPtr (.ptr o) = true) (name : String)
    (rest : List String) : (Value.ptr o).path? (name :: rest) = o.path? (name :: rest) := by
  simp only [Value.path?, field_of_ptr h]

theorem path_of_ptr_some {o x : Value} {name : String} {rest : List String}
    (h : (Value.ptr o).path? (name :: rest) = some x) : o.path? (name :: rest) = some x := by
  simp only [Value.path?, Option.bind_eq_some] at h ⊢
  obtain ⟨w, hw, hx⟩ := h
  exact ⟨w, field_of_ptr_some hw, hx⟩

theorem fieldLoop_path (isEmpty : Value → Bool) {p : String} {pv : Value} :
    ∀ (path : List String) (fs : List Field) (out out' : Value),
      (fs.map Field.name).Nodup → wfFields fs = true →
      ExcludedIn isEmpty p pv path fs →
      (out.path? (path ++ [p])).isSome = true →
      fieldLoop isEmpty fs out = some out' →
      out'.path? (path ++ [p]) = some pv
  | [], fs, out, out', hnd, hwf, hsrc, hdecl, hloop => by
    simp only [List.nil_append, Value.path?] at hdecl ⊢
    obtain ⟨o, ho⟩ : ∃ o, out.field? p = some o := by
      cases hf : out.field? p with
      | none => rw [hf] at hdecl; simp at hdecl
      | some o => exact ⟨o, rfl⟩
    obtain ⟨o2, hstep, hres⟩ := fieldLoop_effect isEmpty fs out out' o hnd hsrc.1 hsrc.2 ho hloop
    have := fieldStep_self isEmpty pv (wfFields_mem fs hwf _ hsrc.1) "-" o o2 (Or.inl rfl) hstep
    rw [hres, this]; rfl
  | g :: path, fs, out, out', hnd, hwf, hsrc, hdecl, hloop => by
    obtain ⟨tag, gv, gfs, hmem, hne, hgrec, hrest⟩ := hsrc
    have hgwf := wfFields_mem fs hwf _ hmem
    obtain ⟨hnd2, hwf2⟩ := wellFormed_recordFields hgrec hgwf
    simp only [List.cons_append, Value.path?] at hdecl ⊢
    obtain ⟨og, hog, hogp⟩ : ∃ og, out.field? g = some og ∧
        (og.path? (path ++ [p])).isSome = true := by
      cases hf : out.field? g with
      | none => rw [hf] at hdecl; simp at hdecl
      | some og => rw [hf] at hdecl; exact ⟨og, rfl, by simpa using hdecl⟩
    obtain ⟨og', hstep, hres⟩ := fieldLoop_effect isEmpty fs out out' og hnd hmem hne hog hloop
    rw [hres]
    simp only [Option.some_bind]
    -- the value the recursion starts from declares the rest of the path
    rw [fieldStep.eq_1] at hstep
    split at hstep
    · cases hstep
    · rename_i o1 hset
      have ho1 : (o1.path? (path ++ [p])).isSome = true := by
        by_cases ht : tag = "-"
        · have := copied_value (Or.inl ht) hset
          rw [this, ExcludedIn_path isEmpty path gfs gv hgrec hnd2 hwf2 hrest]; rfl
        · rw [if_neg ht] at hset
          cases hset; exact hogp
      obtain ⟨f, hfmem, hfne, _⟩ := ExcludedIn_head isEmpty hrest
      obtain ⟨hd, tl, hpath⟩ : ∃ hd tl, path ++ [p] = hd :: tl := by
        cases path with
        | nil => exact ⟨p, [], rfl⟩
        | cons a b => exact ⟨a, b ++ [p], rfl⟩
      unfold recordFields at hgrec
      split at hgrec
      · cases hgrec
        simp only [Option.bind_eq_some] at hstep
        obtain ⟨r, hr, hp⟩ := hstep
        obtain ⟨og2, hog2⟩ := fieldLoop_ptr isEmpty _ _ _ hr
        subst hog2
        simp only [pointee, Option.some.injEq] at hp
        subst hp
        have hrecp := record_of_fieldLoop isEmpty hfmem hfne hr
        have hdecl2 : ((Value.ptr o1).path? (path ++ [p])).isSome = true := by
          rw [hpath, path_of_ptr hrecp, ← hpath]; exact ho1
        have := fieldLoop_path isEmpty path _ (.ptr o1) (.ptr og2) hnd2 hwf2 hrest hdecl2 hr
        rw [hpath] at this
        show og2.path? (path ++ [p]) = some pv
        rw [hpath]
        exact path_of_ptr_some this
      · cases hgrec
        simp only [typeOf, Ty.Kind, if_true] at hstep
        rw [walk.eq_1] at hstep
        split at hstep
        · exact fieldLoop_path isEmpty path _ o1 og' hnd2 hwf2 hrest ho1 hstep
        · cases hstep
      · cases hgrec

/-- C6. Nested recursion.  The source is a record with distinct field names at
every level.  Through the chain `g :: path` of nested record fields, each held
by value or through a present pointer, each non-empty, excluded or not, it
reaches a record in which `p` is excluded and holds the non-empty `pv`; the
destination, as decoding leaves it, declares the same chain ending in `p`.
If `Convert` returns without error, the destination holds `pv` at the end of
that chain.  The chain has at least one nested record, so the restoration is at
depth two or more. -/
theorem nested_excluded_restored (json : Codec) (isEmpty : Value → Bool)
    (sname : String) (fields : List Field) (out out1 out2 : Value)
    (g : String) (path : List String) (p : String) (pv : Value)
    (hwf : wellFormed (.ptr (.struct sname fields)) = true)
    (hsrc : ExcludedIn isEmpty p pv (g :: path) fields)
    (hdec : Decoded json (.ptr (.struct sname fields)) out out1)
    (hdecl : (out1.path? (g :: path ++ [p])).isSome = true)
    (hok : Convert json isEmpty (.ptr (.struct sname fields)) out = .returned none out2) :
    out2.path? (g :: path ++ [p]) = some pv := by
  have hloop := restored_of_Convert json isEmpty hdec hok
  simp only [wellFormed, Bool.and_eq_true, decide_eq_true_eq] at hwf
  exact fieldLoop_path isEmpty (g :: path) fields out1 out2 hwf.1 hwf.2 hsrc hdecl hloop
/-! ## The loops over sequences -/

theorem sliceLoop_spec (isEmpty : Value → Bool) :
    ∀ (es : List Value) (j : Nat) (T : Ty) (os : List Value) (r : Value),
      sliceLoop isEmpty es j (.slice T os) = some r →
      ∃ os', r = .slice T os' ∧ os'.length = os.length ∧
        (∀ i, i < j → os'[i]? = os[i]?) ∧
        ∀ k e, es[k]? = some e → ∃ oe oe', os[j + k]? = some oe ∧
          (walk isEmpty e (.ptr oe)).bind pointee = some oe' ∧ os'[j + k]? = some oe'
  | [], j, T, os, r, h => by
    simp only [sliceLoop, Option.some.injEq] at h
    exact ⟨os, h.symm, rfl, fun _ _ => rfl, fun k e hk => by simp at hk⟩
  | x :: rest, j, T, os, r, h => by
    rw [sliceLoop.eq_2] at h
    simp only [Index] at h
    split at h
    · cases h
    · rename_i oe hoe
      split at h
      · cases h
      · rename_i oe1 hw
        simp only [setIndex] at h
        obtain ⟨os', hr, hlen, hpre, hall⟩ := sliceLoop_spec isEmpty rest (j + 1) T _ r h
        have hj : j < os.length := by
          rcases List.getElem?_eq_some_iff.mp hoe with ⟨hj, _⟩
          exact hj
        refine ⟨os', hr, by rw [hlen, List.length_set], ?_, ?_⟩
        · intro i hi
          rw [hpre i (Nat.lt_succ_of_lt hi), List.getElem?_set_ne (Nat.ne_of_gt hi)]
        · intro k e hk
          cases k with
          | zero =>
            simp only [List.getElem?_cons_zero, Option.some.injEq] at hk
            subst hk
            refine ⟨oe, oe1, hoe, hw, ?_⟩
            rw [Nat.add_zero, hpre j (Nat.lt_succ_self j), List.getElem?_set_self hj]
          | succ k =>
            simp only [List.getElem?_cons_succ] at hk
            obtain ⟨oe2, oe3, h1, h2, h3⟩ := hall k e hk
            have hidx : j + (k + 1) = j + 1 + k := by omega
            rw [hidx]
            refine ⟨oe2, oe3, ?_, h2, h3⟩
            rw [List.getElem?_set_ne (by omega)] at h1
            exact h1

theorem ptrSliceLoop_spec (isEmpty : Value → Bool) :
    ∀ (es : List Value) (j : Nat) (T : Ty) (os : List Value) (r : Value),
      ptrSliceLoop isEmpty es j (.slice T os) = some r →
      ∃ os', r = .slice T os' ∧ os'.length = os.length ∧
        (∀ i, i < j → os'[i]? = os[i]?) ∧
        ∀ k e, es[k]? = some e → ∃ oe oe', os[j + k]? = some oe ∧
          ptrElemStep isEmpty e oe = some oe' ∧ os'[j + k]? = some oe'
  | [], j, T, os, r, h => by
    simp only [ptrSliceLoop, Option.some.injEq] at h
    exact ⟨os, h.symm, rfl, fun _ _ => rfl, fun k e hk => by simp at hk⟩
  | x :: rest, j, T, os, r, h => by
    rw [ptrSliceLoop.eq_2] at h
    simp only [Index] at h
    split at h
    · cases h
    · rename_i oe hoe
      have hstep : ∃ oe1, ptrElemStep isEmpty x oe = some oe1 ∧
          ptrSliceLoop isEmpty rest (j + 1) (setIndex (.slice T os) j oe1) = some r := by
        cases x with
        | ptr t =>
          simp only at h
          split at h
          · cases h
          · rename_i oe1 hw
            exact ⟨oe1, hw, h⟩
        | _ => cases h
      obtain ⟨oe1, hw, h⟩ := hstep
      simp only [setIndex] at h
      obtain ⟨os', hr, hlen, hpre, hall⟩ := ptrSliceLoop_spec isEmpty rest (j + 1) T _ r h
      have hj : j < os.length := by
        rcases List.getElem?_eq_some_iff.mp hoe with ⟨hj, _⟩
        exact hj
      refine ⟨os', hr, by rw [hlen, List.length_set], ?_, ?_⟩
      · intro i hi
        rw [hpre i (Nat.lt_succ_of_lt hi), List.getElem?_set_ne (Nat.ne_of_gt hi)]
      · intro k e hk
        cases k with
        | zero =>
          simp only [List.getElem?_cons_zero, Option.some.injEq] at hk
          subst hk
          refine ⟨oe, oe1, hoe, hw, ?_⟩
          rw [Nat.add_zero, hpre j (Nat.lt_succ_self j), List.getElem?_set_self hj]
        | succ k =>
          simp only [List.getElem?_cons_succ] at hk
          obtain ⟨oe2, oe3, h1, h2, h3⟩ := hall k e hk
          have hidx : j + (k + 1) = j + 1 + k := by omega
          rw [hidx]
          refine ⟨oe2, oe3, ?_, h2, h3⟩
          rw [List.getElem?_set_ne (by omega)] at h1
          exact h1

theorem elem_restored (isEmpty : Value → Bool) {e oe oe' : Value} {efs : List Field}
    {q : String} {v : Value} (hwf : wellFormed e = true)
    (hrec : recordFields e = some efs) (hq : ExcludedIn isEmpty q v [] efs)
    (hdecl : (oe.field? q).isSome = true)
    (h : (walk isEmpty e (.ptr oe)).bind pointee = some oe') :
    oe'.field? q = some v := by
  obtain ⟨hnd, hwfs⟩ := wellFormed_recordFields hrec hwf
  simp only [Option.bind_eq_some] at h
  obtain ⟨r, hr, hp⟩ := h
  unfold recordFields at hrec
  split at hrec
  · cases hrec
    rw [walk.eq_1] at hr
    simp only [isPointer, if_true] at hr
    obtain ⟨o2, ho2⟩ := fieldLoop_ptr isEmpty _ _ _ hr
    subst ho2
    simp only [pointee, Option.some.injEq] at hp
    subst hp
    have hrecp := record_of_fieldLoop isEmpty hq.1 hq.2 hr
    have hdecl2 : ((Value.ptr oe).path? ([] ++ [q])).isSome = true := by
      simp only [List.nil_append, Value.path?, field_of_ptr hrecp]
      cases hf : oe.field? q with
      | none => rw [hf] at hdecl; cases hdecl
      | some w => rfl
    have := fieldLoop_path isEmpty [] _ (.ptr oe) (.ptr o2) hnd hwfs hq hdecl2 hr
    have := path_of_ptr_some this
    simp only [Value.path?, Option.bind_eq_some] at this
    obtain ⟨w, hw, hw2⟩ := this
    cases hw2; exact hw
  · cases hrec
    simp [walk] at hr
  · cases hrec

theorem ptr_elem_restored (isEmpty : Value → Bool) {e oe oe' : Value} {efs : List Field}
    {q : String} {v : Value} (hwf : wellFormed e = true)
    (hrec : recordFields e = some efs) (hq : ExcludedIn isEmpty q v [] efs)
    (hdecl : (oe.field? q).isSome = true)
    (h : ptrElemStep isEmpty e oe = some oe') :
    oe'.field? q = some v := by
  obtain ⟨hnd, hwfs⟩ := wellFormed_recordFields hrec hwf
  unfold recordFields at hrec
  split at hrec
  · cases hrec
    simp [ptrElemStep] at h
  · cases hrec
    simp only [ptrElemStep] at h
    rw [walk.eq_1] at h
    split at h
    · have hdecl2 : (oe.path? ([] ++ [q])).isSome = true := by
        simp only [List.nil_append, Value.path?]
        cases hf : oe.field? q with
        | none => rw [hf] at hdecl; cases hdecl
        | some w => rfl
      have := fieldLoop_path isEmpty [] _ oe oe' hnd hwfs hq hdecl2 h
      simp only [List.nil_append, Value.path?, Option.bind_eq_some] at this
      obtain ⟨w, hw, hw2⟩ := this
      cases hw2; exact hw
    · cases h
  · cases hrec

theorem source_elem_field (isEmpty : Value → Bool) {e : Value} {efs : List Field}
    {q : String} {v : Value} (hwf : wellFormed e = true)
    (hrec : recordFields e = some efs) (hq : ExcludedIn isEmpty q v [] efs) :
    e.field? q = some v := by
  obtain ⟨hnd, _⟩ := wellFormed_recordFields hrec hwf
  rw [field_recordFields hrec, FieldByName_of_mem efs hnd hq.1]
/-- C7. Sequence recursion.  The source is a record with distinct field names at
every level; its field `s` is a sequence of records or of optional records
(not the empty value when it has elements), every element a record (by value
or present) in which `q` is excluded and not empty.  The destination field `s`,
as decoding leaves it, is a sequence of as many elements as the source has,
each declaring `q`.  If `Convert` returns without error, the destination field
`s` is a sequence of that same length and at every index the field `q` of the
destination element is the field `q` of the source element. -/
theorem sequence_excluded_restored (json : Codec) (isEmpty : Value → Bool)
    (sname : String) (fields : List Field) (out out1 out2 : Value)
    (s stag : String) (elemTy : Ty) (elems : List Value) (q : String)
    (T : Ty) (oelems : List Value)
    (hwf : wellFormed (.ptr (.struct sname fields)) = true)
    (hs : Field.mk s stag (.slice elemTy elems) ∈ fields)
    (helem : elemTy.Kind = .Struct ∨ elemTy.isPtrToStruct = true)
    (hsne : elems ≠ [] → isEmpty (.slice elemTy elems) = false)
    (hq : ∀ e ∈ elems, ∃ efs v, recordFields e = some efs ∧ ExcludedIn isEmpty q v [] efs)
    (hdec : Decoded json (.ptr (.struct sname fields)) out out1)
    (hdst : out1.field? s = some (.slice T oelems))
    (hlen : oelems.length = elems.length)
    (hdecl : ∀ oe ∈ oelems, (oe.field? q).isSome = true)
    (hok : Convert json isEmpty (.ptr (.struct sname fields)) out = .returned none out2) :
    ∃ T2 oelems2, out2.field? s = some (.slice T2 oelems2) ∧
      oelems2.length = elems.length ∧
      ∀ (j : Nat) (e : Value), elems[j]? = some e →
        (e.field? q).isSome = true ∧
          (oelems2[j]?).bind (fun oe => oe.field? q) = e.field? q := by
  obtain ⟨hnd, hvals⟩ := wellFormed_record hwf
  have hloop := restored_of_Convert json isEmpty hdec hok
  cases hse : isEmpty (.slice elemTy elems) with
  | true =>
    have hnil : elems = [] := by
      by_contra hc
      have := hsne hc
      rw [hse] at this; cases this
    subst hnil
    have hframe := fieldLoop_frame isEmpty s fields out1 out2
      (fun f hf hfn => by rw [value_of_name hnd hs hf hfn]; exact hse) hloop
    refine ⟨T, oelems, by rw [hframe, hdst], hlen, ?_⟩
    intro j e hj
    simp at hj
  | false =>
    obtain ⟨o', hstep, hres⟩ :=
      fieldLoop_effect isEmpty fields out1 out2 _ hnd hs hse hdst hloop
    have hwfs : wfElems elems = true := by
      have := hvals _ hs
      simpa only [Field.value, wellFormed] using this
    have hsrc : ∀ e ∈ elems, ∃ v, e.field? q = some v ∧
        ∀ oe oe', (oe.field? q).isSome = true →
          ((walk isEmpty e (.ptr oe)).bind pointee = some oe' ∨
            ptrElemStep isEmpty e oe = some oe') → oe'.field? q = some v := by
      intro e he
      obtain ⟨efs, v, hrec, hex⟩ := hq e he
      have hewf := wfElems_mem elems hwfs e he
      refine ⟨v, source_elem_field isEmpty hewf hrec hex, ?_⟩
      intro oe oe' hd hw
      rcases hw with hw | hw
      · exact elem_restored isEmpty hewf hrec hex hd hw
      · exact ptr_elem_restored isEmpty hewf hrec hex hd hw
    rw [fieldStep.eq_1] at hstep
    split at hstep
    · cases hstep
    · rename_i o1 hset
      obtain ⟨T1, os1, ho1, hlen1, hdecl1⟩ : ∃ T1 os1, o1 = .slice T1 os1 ∧
          os1.length = elems.length ∧ ∀ oe ∈ os1, (oe.field? q).isSome = true := by
        by_cases ht : stag = "-"
        · have := copied_value (Or.inl ht) hset
          refine ⟨elemTy, elems, this, rfl, ?_⟩
          intro oe hoe
          obtain ⟨v, hv, _⟩ := hsrc oe hoe
          rw [hv]; rfl
        · rw [if_neg ht] at hset
          cases hset
          exact ⟨T, oelems, rfl, hlen, hdecl⟩
      subst ho1
      simp only at hstep
      have hfin : ∀ os' : List Value,
          (∀ (k : Nat) (e : Value), elems[k]? = some e → ∃ oe oe', os1[0 + k]? = some oe ∧
            ((walk isEmpty e (.ptr oe)).bind pointee = some oe' ∨
              ptrElemStep isEmpty e oe = some oe') ∧ os'[0 + k]? = some oe') →
          ∀ (j : Nat) (e : Value), elems[j]? = some e →
            (e.field? q).isSome = true ∧
              (os'[j]?).bind (fun oe => oe.field? q) = e.field? q := by
        intro os' hall j e hj
        obtain ⟨oe, oe', h1, h2, h3⟩ := hall j e hj
        obtain ⟨v, hv, hrest⟩ := hsrc e (List.getElem?_mem hj)
        rw [Nat.zero_add] at h1 h3
        have := hrest oe oe' (hdecl1 oe (List.getElem?_mem h1)) h2
        rw [hv, h3]
        exact ⟨rfl, this⟩
      split at hstep
      · obtain ⟨os', hr, hl, _, hall⟩ := sliceLoop_spec isEmpty elems 0 T1 os1 o' hstep
        refine ⟨T1, os', by rw [hres, hr], by rw [hl, hlen1], hfin os' ?_⟩
        intro k e hk
        obtain ⟨oe, oe', h1, h2, h3⟩ := hall k e hk
        exact ⟨oe, oe', h1, Or.inl h2, h3⟩
      · split at hstep
        · obtain ⟨os', hr, hl, _, hall⟩ := ptrSliceLoop_spec isEmpty elems 0 T1 os1 o' hstep
          refine ⟨T1, os', by rw [hres, hr], by rw [hl, hlen1], hfin os' ?_⟩
          intro k e hk
          obtain ⟨oe, oe', h1, h2, h3⟩ := hall k e hk
          exact ⟨oe, oe', h1, Or.inr h2, h3⟩
        · rename_i h1 h2
          rcases helem with h | h
          · exact absurd h h1
          · exact absurd h h2
/-- Witness for C6 on the worked example: `Owner` inside the excluded record
`Meta`, and `Token` behind the pointer `Master` that the decoder allocated. -/
theorem nested_excluded_restored_witness :
    ExcludedIn isEmptyValue "Owner" (.string "me") ["Meta"] exFields ∧
      exResult.path? ["Meta", "Owner"] = some (.string "me") ∧
      exResult.path? ["Master", "Token"] = some (.string "tk") :=
  ⟨⟨"-", .struct "common.Meta" exMetaFields, exMetaFields, by simp [exFields], rfl, rfl,
      by simp [exMetaFields], rfl⟩,
    nested_excluded_restored (jsonCodec exZero) isEmptyValue "v1beta1.Cluster" exFields
      exDest exDecoded exResult "Meta" [] "Owner" (.string "me") (by decide)
      ⟨"-", .struct "common.Meta" exMetaFields, exMetaFields, by simp [exFields], rfl, rfl,
        by simp [exMetaFields], rfl⟩
      ⟨encode exSource, rfl, rfl⟩ rfl rfl,
    nested_excluded_restored (jsonCodec exZero) isEmptyValue "v1beta1.Cluster" exFields
      exDest exDecoded exResult "Master" [] "Token" (.string "tk") (by decide)
      ⟨"master", .ptr (.struct "v1beta1.Master" exMasterFields), exMasterFields,
        by simp [exFields], rfl, rfl, by simp [exMasterFields], rfl⟩
      ⟨encode exSource, rfl, rfl⟩ rfl rfl⟩

/-- Witness for C7 on the worked example: the three `Pools`, each with its own
excluded `Hash`. -/
theorem sequence_excluded_restored_witness :
    ∃ T2 oelems2, exResult.field? "Pools" = some (.slice T2 oelems2) ∧
      oelems2.length = exPools.length ∧
      ∀ (j : Nat) (e : Value), exPools[j]? = some e →
        (e.field? "Hash").isSome = true ∧
          (oelems2[j]?).bind (fun oe => oe.field? "Hash") = e.field? "Hash" :=
  sequence_excluded_restored (jsonCodec exZero) isEmptyValue "v1beta1.Cluster" exFields
    exDest exDecoded exResult "Pools" "pools" (.struct "v1beta1.Pool") exPools "Hash"
    (.struct "v1.Pool")
    [.struct "v1.Pool" [.mk "Name" "name" (.string "a"), .mk "Hash" "-" (.int 0)],
     .struct "v1.Pool" [.mk "Name" "name" (.string "b"), .mk "Hash" "-" (.int 0)],
     .struct "v1.Pool" [.mk "Name" "name" (.string "c"), .mk "Hash" "-" (.int 0)]]
    (by decide) (by simp [exFields]) (Or.inl rfl) (fun _ => rfl)
    (by
      intro e he
      simp only [exPools, List.mem_cons, List.mem_singleton, List.not_mem_nil, or_false] at he
      rcases he with rfl | rfl | rfl
      · exact ⟨_, .int 11, rfl, by simp, rfl⟩
      · exact ⟨_, .int 22, rfl, by simp, rfl⟩
      · exact ⟨_, .int 33, rfl, by simp, rfl⟩)
    ⟨encode exSource, rfl, rfl⟩ rfl rfl
    (by
      intro oe hoe
      simp only [List.mem_cons, List.mem_singleton, List.not_mem_nil, or_false] at hoe
      rcases hoe with rfl | rfl | rfl <;> rfl)
    rfl

/-- C10, as stated, fails.  The source field `Config` is a non-empty nested
record and the destination declares `Config` as text: the walk does not skip
the field, it panics (`FieldByName` on a value that is not a struct), and so
does `Convert`, whose codec steps both succeed. -/
theorem kind_mismatch_faults :
    isEmptyValue (.struct "v1beta1.Config" [.mk "Zone" "zone" (.string "us")]) = false ∧
      kmDest.field? "Config" = some (.string "legacy") ∧
      Decoded (jsonCodec exZero) kmSource kmDest kmDest ∧
      setOmittedFields isEmptyValue kmSource kmDest = none ∧
      Convert (jsonCodec exZero) isEmptyValue kmSource kmDest = .panicked :=
  ⟨rfl, rfl, ⟨encode kmSource, rfl, rfl⟩, rfl, rfl⟩

theorem fieldLoop_of_step_none (isEmpty : Value → Bool) {name tag : String}
    {iField o : Value} (rest : List Field) {out : Value}
    (hne : isEmpty iField = false) (hout : outField out name = some (some o))
    (hstep : fieldStep isEmpty tag iField o = none) :
    fieldLoop isEmpty (.mk name tag iField :: rest) out = none := by
  rw [fieldLoop.eq_2, if_neg (by simp [hne]), hout]
  simp only [hstep]

/-- C10, amended.  At a field that is not empty, against a destination record
that holds `o` under the same name, `o` being of another kind than the field:
* a nested record that is not excluded, against an `o` that is not a struct:
  the walk goes on with the remaining fields, the destination unchanged, when
  every field of the nested record is empty, and panics otherwise;
* a present pointer to a record, not excluded, against an `o` of bool, int,
  string, struct, slice or map kind: the walk panics (`Elem` on a value that
  is no pointer);
* a sequence of records or of optional records with at least one element, not
  excluded, against an `o` of bool, int, string, struct, pointer or map kind:
  the walk panics (`Index` on a value that is no sequence);
* an excluded field against an `o` of another kind that is not an interface:
  the walk panics (`Set` of a value that is not assignable).
The walk never returns an error: it either completes or panics. -/
theorem kind_mismatch_behaviour (isEmpty : Value → Bool) (name tag : String)
    (iField o : Value) (rest : List Field) (out : Value)
    (hne : isEmpty iField = false)
    (hout : outField out name = some (some o)) :
    (∀ sn nfs, tag ≠ "-" → iField = .struct sn nfs → (typeOf o).Kind ≠ .Struct →
        fieldLoop isEmpty (.mk name tag iField :: rest) out =
          if allEmptyBy isEmpty nfs then fieldLoop isEmpty rest out else none) ∧
      (∀ sn nfs, tag ≠ "-" → iField = .ptr (.struct sn nfs) →
        (typeOf o).Kind ∈ [Kind.Bool, .Int, .String, .Struct, .Slice, .Map] →
        fieldLoop isEmpty (.mk name tag iField :: rest) out = none) ∧
      (∀ e x xs, tag ≠ "-" → iField = .slice e (x :: xs) →
        (e.Kind = .Struct ∨ e.isPtrToStruct = true) →
        (typeOf o).Kind ∈ [Kind.Bool, .Int, .String, .Struct, .Ptr, .Map] →
        fieldLoop isEmpty (.mk name tag iField :: rest) out = none) ∧
      (tag = "-" → (typeOf iField).Kind ≠ (typeOf o).Kind →
        (typeOf o).Kind ≠ .Interface →
        fieldLoop isEmpty (.mk name tag iField :: rest) out = none) := by
  refine ⟨?_, ?_, ?_, ?_⟩
  · intro sn nfs htag hi hk
    subst hi
    have hnr : isRecordPtr (.ptr o) = false := by
      cases o <;> simp [isRecordPtr, typeOf, Ty.Kind] at hk ⊢
    have hstore : storeField out name o = out := by
      unfold outField at hout
      split at hout
      · simp only [Option.some.injEq] at hout
        simp only [storeField, setField_of_FieldByName _ hout]
      · cases hout
    rw [fieldLoop.eq_2, if_neg (by simp [hne]), hout]
    simp only [fieldStep.eq_1, if_neg htag, fieldLoop_not_record isEmpty hnr]
    by_cases hall : allEmptyBy isEmpty nfs = true
    · simp only [hall, if_true, Option.some_bind, pointee, hstore]
    · simp only [hall, Bool.false_eq_true, if_false, Option.none_bind]
  · intro sn nfs htag hi hk
    subst hi
    apply fieldLoop_of_step_none isEmpty rest hne hout
    have hnp : isPointer o = false := by
      cases o <;> simp [isPointer, typeOf, Ty.Kind] at hk ⊢
    simp [fieldStep.eq_1, htag, typeOf, Ty.Kind, walk.eq_1, hnp]
  · intro e x xs htag hi he hk
    subst hi
    apply fieldLoop_of_step_none isEmpty rest hne hout
    have hidx : Index o 0 = none := by
      cases o <;> simp [Index, typeOf, Ty.Kind] at hk ⊢
    rw [fieldStep.eq_1]
    simp only [if_neg htag]
    rcases he with he | he
    · simp [he, sliceLoop.eq_2, hidx]
    · by_cases hs : e.Kind = .Struct
      · simp [hs, sliceLoop.eq_2, hidx]
      · simp [hs, he, ptrSliceLoop.eq_2, hidx]
  · intro htag hk _
    have hty : typeOf iField ≠ typeOf o := fun h => hk (by rw [h])
    apply fieldLoop_of_step_none isEmpty rest hne hout
    rw [fieldStep.eq_1]
    simp [htag, Set, hty]

/-- Witness for the amended C10: a present pointer to a record against a
destination field that holds text, a sequence of records against a
destination field that holds text, and an excluded integer against a
destination field that holds text. -/
theorem kind_mismatch_behaviour_witness :
    fieldLoop isEmptyValue
        [.mk "Master" "master" (.ptr (.struct "v1beta1.Master"
          [.mk "Version" "version" (.string "1.2")]))]
        (.ptr (.struct "v1.Cluster" [.mk "Master" "-" (.string "m")])) = none ∧
      fieldLoop isEmptyValue
        [.mk "Pools" "pools" (.slice (.struct "v1beta1.Pool")
          [.struct "v1beta1.Pool" [.mk "Name" "name" (.string "a")]])]
        (.ptr (.struct "v1.Cluster" [.mk "Pools" "pools" (.string "p")])) = none ∧
      fieldLoop isEmptyValue [.mk "Hash" "-" (.int 5)]
        (.ptr (.struct "v1.Cluster" [.mk "Hash" "-" (.string "h")])) = none :=
  ⟨(kind_mismatch_behaviour isEmptyValue "Master" "master"
      (.ptr (.struct "v1beta1.Master" [.mk "Version" "version" (.string "1.2")]))
      (.string "m") [] (.ptr (.struct "v1.Cluster" [.mk "Master" "-" (.string "m")]))
      rfl rfl).2.1 "v1beta1.Master" _ (by decide) rfl (by decide),
    (kind_mismatch_behaviour isEmptyValue "Pools" "pools"
      (.slice (.struct "v1beta1.Pool")
        [.struct "v1beta1.Pool" [.mk "Name" "name" (.string "a")]])
      (.string "p") [] (.ptr (.struct "v1.Cluster" [.mk "Pools" "pools" (.string "p")]))
      rfl rfl).2.2.1 (.struct "v1beta1.Pool") _ [] (by decide) rfl (Or.inl rfl)
      (by decide),
    (kind_mismatch_behaviour isEmptyValue "Hash" "-" (.int 5) (.string "h") []
      (.ptr (.struct "v1.Cluster" [.mk "Hash" "-" (.string "h")])) rfl rfl).2.2.2
      rfl (by decide) (by decide)⟩

/-! ## `ConvertToMap` and the remaining facts about `Convert` -/

/-- A nil pointer is no record: its wire form is `null`, which the decoder
stores as the nil mapping, so `ConvertToMap` returns the nil mapping with no
error. -/
theorem ConvertToMap_nil_on_null :
    (jsonCodec exZero).Marshal (.nilPtr (.struct "v1beta1.Cluster")) = .ok Json.null ∧
      ConvertToMap (jsonCodec exZero) (.nilPtr (.struct "v1beta1.Cluster"))
        = (.nilMap, none) :=
  ⟨rfl, rfl⟩

theorem dynamicEntries_keys :
    ∀ (ms : List (String × Json)) (es : List (String × Value)),
      dynamicEntries ms = some es → es.map Prod.fst = ms.map Prod.fst
  | [], es, h => by
    simp only [dynamicEntries, Option.some.injEq] at h
    subst h; rfl
  | (key, j) :: rest, es, h => by
    rw [dynamicEntries.eq_2] at h
    split at h
    · simp at h
    · simp only [Option.map_eq_some'] at h
      obtain ⟨es1, hes1, rfl⟩ := h
      simp [dynamicEntries_keys rest es1 hes1]

theorem encodeFields_keys :
    ∀ (fs : List Field) (k : String), k ∈ (encodeFields fs).map Prod.fst →
      ∃ f ∈ fs, f.tag ≠ "-" ∧ wireKey f.name f.tag = k
  | [], k, h => by simp [encodeFields] at h
  | .mk n t v :: rest, k, h => by
    rw [encodeFields.eq_2] at h
    have hrest : k ∈ (encodeFields rest).map Prod.fst →
        ∃ f ∈ Field.mk n t v :: rest, f.tag ≠ "-" ∧ wireKey f.name f.tag = k := by
      intro hk
      obtain ⟨f, hf, hft, hfk⟩ := encodeFields_keys rest k hk
      exact ⟨f, List.mem_cons_of_mem _ hf, hft, hfk⟩
    split at h
    · exact hrest h
    · rename_i ht
      split at h
      · exact hrest h
      · simp only [List.map_cons, List.mem_cons] at h
        rcases h with h | h
        · exact ⟨.mk n t v, List.mem_cons_self _ _, ht, h.symm⟩
        · exact hrest h

theorem encode_record {item : Value} {fs : List Field} (h : recordFields item = some fs) :
    encode item = .obj (encodeFields fs) := by
  unfold recordFields at h
  split at h
  · simp only [Option.some.injEq] at h; subst h; simp [encode]
  · simp only [Option.some.injEq] at h; subst h; simp [encode]
  · simp at h

/-- On the reference codec a source record decodes to the mapping its object
reads as; a `null` inside the object is outside the fragment of dynamic values
and is reported as a decoding error. -/
theorem ConvertToMap_record (fold : String → String) (zero : Ty → Value) {item : Value}
    {fs : List Field} (h : recordFields item = some fs) :
    ConvertToMap (jsonCodecFold fold zero) item =
      match dynamicEntries (encodeFields fs) with
      | some entries => (.map entries, none)
      | none => (.nilMap, some "json: cannot unmarshal") := by
  simp only [ConvertToMap, jsonCodecFold, encode_record h, decode]
  cases dynamicEntries (encodeFields fs) <;> simp [deref]

/-- C11. `ConvertToMap` returns the wire form of the source decoded as a
mapping.  For every codec: if `Marshal` fails, or `Unmarshal` fails, the result
is the nil mapping and that error; otherwise it is, with no error, the mapping
the decoder left.  For a source record (held by value or through a present
pointer) on the reference codec: `ConvertToMap` succeeds whenever the object
the record serializes to reads as a mapping, and every successful result is a
mapping that is not nil, each of whose keys is the wire key of a field of the
source that is not marked excluded.  So an excluded field has no key of its
own: its name is no key of the mapping unless a field that is not excluded
travels under that very name.  Nothing is restored. -/
theorem ConvertToMap_spec (json : Codec) (fold : String → String) (zero : Ty → Value)
    (item : Value) (fs : List Field) (hrec : recordFields item = some fs) :
    (∀ e, json.Marshal item = .error e → ConvertToMap json item = (.nilMap, some e)) ∧
      (∀ bytes e o, json.Marshal item = .ok bytes →
        json.Unmarshal bytes (.ptr (.map [])) = (some e, o) →
        ConvertToMap json item = (.nilMap, some e)) ∧
      (∀ bytes o, json.Marshal item = .ok bytes →
        json.Unmarshal bytes (.ptr (.map [])) = (none, o) →
        ConvertToMap json item = (deref o, none)) ∧
      ((dynamicEntries (encodeFields fs)).isSome = true →
        ∃ entries, ConvertToMap (jsonCodecFold fold zero) item = (.map entries, none)) ∧
      (∀ m, ConvertToMap (jsonCodecFold fold zero) item = (m, none) →
        ∃ entries, m = .map entries ∧
          (∀ k ∈ entries.map Prod.fst,
            ∃ f ∈ fs, f.tag ≠ "-" ∧ wireKey f.name f.tag = k) ∧
          (∀ g ∈ fs, g.tag = "-" →
            (∀ f ∈ fs, f.tag ≠ "-" → wireKey f.name f.tag ≠ g.name) →
            g.name ∉ entries.map Prod.fst)) := by
  refine ⟨?_, ?_, ?_, ?_, ?_⟩
  · intro e h
    simp only [ConvertToMap, h]
  · intro bytes e o hm hu
    simp only [ConvertToMap, hm, hu]
  · intro bytes o hm hu
    simp only [ConvertToMap, hm, hu]
  · intro hsome
    rw [ConvertToMap_record fold zero hrec]
    cases hd : dynamicEntries (encodeFields fs) with
    | none => rw [hd] at hsome; simp at hsome
    | some entries => exact ⟨entries, rfl⟩
  · intro m hm
    rw [ConvertToMap_record fold zero hrec] at hm
    cases hd : dynamicEntries (encodeFields fs) with
    | none => rw [hd] at hm; simp at hm
    | some entries =>
      rw [hd] at hm
      simp only [Prod.mk.injEq, and_true] at hm
      have hkeys : ∀ k ∈ entries.map Prod.fst,
          ∃ f ∈ fs, f.tag ≠ "-" ∧ wireKey f.name f.tag = k := by
        intro k hk
        rw [dynamicEntries_keys _ _ hd] at hk
        exact encodeFields_keys fs k hk
      refine ⟨entries, hm.symm, hkeys, ?_⟩
      intro g _ _ hfree hin
      obtain ⟨f, hf, hft, hfk⟩ := hkeys g.name hin
      exact hfree f hf hft hfk

/-- Witness for C11 on the worked example: the mapping has the included fields
and none of the excluded ones, so neither `Etag` nor `Meta` is a key. -/
theorem ConvertToMap_spec_witness :
    recordFields exSource = some exFields ∧
      ConvertToMap (jsonCodec exZero) exSource = (exWireMap, none) ∧
      ∃ entries, exWireMap = .map entries ∧
        (∀ k ∈ entries.map Prod.fst,
          ∃ f ∈ exFields, f.tag ≠ "-" ∧ wireKey f.name f.tag = k) ∧
        "Etag" ∉ entries.map Prod.fst ∧ "Meta" ∉ entries.map Prod.fst :=
  ⟨rfl, rfl,
    match (ConvertToMap_spec (jsonCodec exZero) asciiFold exZero exSource exFields
      rfl).2.2.2.2 exWireMap rfl with
    | ⟨entries, he, hk, hx⟩ =>
      ⟨entries, he, hk,
        hx (.mk "Etag" "-" (.string "abc")) (by simp [exFields]) rfl (by decide),
        hx (.mk "Meta" "-" (.struct "common.Meta" exMetaFields)) (by simp [exFields]) rfl
          (by decide)⟩⟩

/-- C13 fails on the code.  The source holds a sequence of optional records
with one absent element, the destination is a fresh record of the same shape,
and both codec steps succeed (the absent element travels as `null`).  The walk
then calls itself on the absent element and panics in `NumField`. -/
theorem nil_element_faults :
    Decoded (jsonCodec exZero) nilElemSource nilElemDest nilElemSource ∧
      setOmittedFields isEmptyValue nilElemSource nilElemSource = none ∧
      Convert (jsonCodec exZero) isEmptyValue nilElemSource nilElemDest = .panicked :=
  ⟨⟨encode nilElemSource, rfl, rfl⟩, rfl, rfl⟩

/-- C17. Atomicity on encoding failure.  If `Marshal` fails with `e`, `Convert`
returns `e` and the destination is exactly as it was before the call.  Neither
the decoder nor the walk is consulted: the outcome is the same whatever
`Unmarshal` and `isEmptyValue` are. -/
theorem encoding_failure_atomic (json : Codec) (isEmpty : Value → Bool)
    (item out : Value) (e : Error) (h : json.Marshal item = .error e) :
    Convert json isEmpty item out = .returned (some e) out ∧
      ∀ (u : json.Wire → Value → Option Error × Value) (isEmpty2 : Value → Bool),
        Convert ⟨json.Wire, json.Marshal, u⟩ isEmpty2 item out = .returned (some e) out := by
  constructor
  · simp only [Convert, h]
  · intro u isEmpty2
    simp only [Convert, h]

/-- Witness for C17: serialization fails, the destination is untouched. -/
theorem encoding_failure_atomic_witness :
    Convert rejectingCodec isEmptyValue exSource exDest =
      .returned (some "json: unsupported value") exDest :=
  (encoding_failure_atomic rejectingCodec isEmptyValue exSource exDest
    "json: unsupported value" rfl).1

/-! ## `removeBasePathVersion` -/

theorem mem_stepChar {p : Char → Bool} {input : List Char} {caps : Captures} {t : Thread} :
    t ∈ stepChar p input caps ↔ ∃ c, input = c :: t.1 ∧ p c = true ∧ t.2 = caps := by
  cases input with
  | nil => simp [stepChar]
  | cons c rest =>
    simp only [stepChar]
    by_cases hp : p c = true
    · simp only [hp, if_true, List.mem_singleton, List.cons.injEq]
      constructor
      · rintro rfl; exact ⟨c, ⟨rfl, rfl⟩, hp, rfl⟩
      · rintro ⟨c', ⟨h1, h2⟩, _, h3⟩
        cases t; simp only at h2 h3; rw [h2, h3]
    · simp only [hp, Bool.false_eq_true, if_false, List.not_mem_nil, false_iff]
      rintro ⟨c', h1, h2, _⟩
      injection h1 with h1 _
      rw [← h1] at h2; exact hp h2

theorem mem_repeatGreedy_stepChar (p : Char → Bool) :
    ∀ (n : Nat) (input : List Char) (caps : Captures) (t : Thread),
      t ∈ repeatGreedy (stepChar p) n input caps →
      t.2 = caps ∧ ∃ w, input = w ++ t.1 ∧ ∀ c ∈ w, p c = true
  | 0, input, caps, t, h => by
    simp only [repeatGreedy, List.mem_singleton] at h
    subst h; exact ⟨rfl, [], rfl, by simp⟩
  | n + 1, input, caps, t, h => by
    simp only [repeatGreedy, List.mem_append, List.mem_flatMap, List.mem_filter,
      List.mem_singleton] at h
    rcases h with ⟨t1, ⟨ht1, _⟩, ht⟩ | h
    · obtain ⟨c, hin, hp, hc⟩ := mem_stepChar.mp ht1
      obtain ⟨h2, w, hw, hall⟩ := mem_repeatGreedy_stepChar p n t1.1 t1.2 t ht
      refine ⟨by rw [h2, hc], c :: w, by rw [hin, hw]; rfl, ?_⟩
      intro x hx
      rcases List.mem_cons.mp hx with rfl | hx
      · exact hp
      · exact hall x hx
    · subst h; exact ⟨rfl, [], rfl, by simp⟩

theorem mem_repeatLazy_stepChar (p : Char → Bool) :
    ∀ (n : Nat) (input : List Char) (caps : Captures) (t : Thread),
      t ∈ repeatLazy (stepChar p) n input caps →
      t.2 = caps ∧ ∃ w, input = w ++ t.1 ∧ ∀ c ∈ w, p c = true
  | 0, input, caps, t, h => by
    simp only [repeatLazy, List.mem_singleton] at h
    subst h; exact ⟨rfl, [], rfl, by simp⟩
  | n + 1, input, caps, t, h => by
    simp only [repeatLazy, List.mem_cons, List.mem_flatMap, List.mem_filter] at h
    rcases h with h | ⟨t1, ⟨ht1, _⟩, ht⟩
    · subst h; exact ⟨rfl, [], rfl, by simp⟩
    · obtain ⟨c, hin, hp, hc⟩ := mem_stepChar.mp ht1
      obtain ⟨h2, w, hw, hall⟩ := mem_repeatLazy_stepChar p n t1.1 t1.2 t ht
      refine ⟨by rw [h2, hc], c :: w, by rw [hin, hw]; rfl, ?_⟩
      intro x hx
      rcases List.mem_cons.mp hx with rfl | hx
      · exact hp
      · exact hall x hx

theorem take_consumed (w r : List Char) :
    (w ++ r).take ((w ++ r).length - r.length) = w := by
  have : (w ++ r).length - r.length = w.length := by simp
  rw [this, List.take_left']
  rfl

theorem run_dot : Regex.run .dot = stepChar (fun x => x != '\n') := by
  funext input caps; rfl

theorem run_noneOf (cs : List Char) :
    Regex.run (.noneOf cs) = stepChar (fun x => !cs.contains x) := by
  funext input caps; rfl

theorem versionPattern_sound {input : List Char} {t : Thread}
    (h : t ∈ versionPattern.run input []) :
    t.1 = [] ∧ ∃ base seg, input = base ++ '/' :: seg ++ ['/'] ∧ seg ≠ [] ∧ '/' ∉ seg ∧
      t.2.lookup 1 = some base := by
  simp only [versionPattern, Regex.run, List.mem_flatMap, List.mem_map, run_dot,
    run_noneOf] at h
  obtain ⟨t1, ⟨a, ha, rfl⟩, t2, ht2, rfl⟩ := h
  -- the first group
  obtain ⟨a1, h1, a2, h2, a3, h3, a4, h4, a5, h5, a6, h6, a7, h7, a8, h8, h9⟩ := ha
  obtain ⟨c1, e1, _, k1⟩ := mem_stepChar.mp h1
  obtain ⟨c2, e2, _, k2⟩ := mem_stepChar.mp h2
  obtain ⟨c3, e3, _, k3⟩ := mem_stepChar.mp h3
  obtain ⟨c4, e4, _, k4⟩ := mem_stepChar.mp h4
  obtain ⟨c5, e5, _, k5⟩ := mem_stepChar.mp h5
  obtain ⟨c6, e6, _, k6⟩ := mem_stepChar.mp h6
  obtain ⟨c7, e7, _, k7⟩ := mem_stepChar.mp h7
  obtain ⟨c8, e8, _, k8⟩ := mem_stepChar.mp h8
  obtain ⟨k9, w, e9, _⟩ := mem_repeatGreedy_stepChar _ _ _ _ _ h9
  -- the second group
  obtain ⟨b1, g1, b2, g2, g3⟩ := ht2
  obtain ⟨d1, f1, p1, m1⟩ := mem_stepChar.mp g1
  obtain ⟨b3, g4, g5⟩ := g2
  obtain ⟨d2, f2, p2, m2⟩ := mem_stepChar.mp g4
  obtain ⟨m3, w2, f3, p3⟩ := mem_repeatLazy_stepChar _ _ _ _ _ g5
  obtain ⟨b4, g6, g7⟩ := g3
  obtain ⟨d3, f4, p4, m4⟩ := mem_stepChar.mp g6
  split at g7
  · rename_i hemp
    simp only [List.mem_singleton] at g7
    subst g7
    have hb4 : b4.1 = [] := by simpa using hemp
    simp only [beq_iff_eq] at p1 p4
    subst p1; subst p4
    refine ⟨hb4, c1 :: c2 :: c3 :: c4 :: c5 :: c6 :: c7 :: c8 :: w, d2 :: w2, ?_, by simp, ?_, ?_⟩
    · rw [e1, e2, e3, e4, e5, e6, e7, e8, e9, f1, f2, f3, f4, hb4]
      simp
    · intro hmem
      rcases List.mem_cons.mp hmem with hd | hd
      · rw [← hd] at p2; simp at p2
      · have := p3 _ hd; simp at this
    · have hcaps : b4.2 = [(1, input.take (input.length - a.1.length))] := by
        rw [m4, m3, m2, m1]
        simp only
        rw [k9, k8, k7, k6, k5, k4, k3, k2, k1]
      have hin : input = (c1 :: c2 :: c3 :: c4 :: c5 :: c6 :: c7 :: c8 :: w) ++ a.1 := by
        rw [e1, e2, e3, e4, e5, e6, e7, e8, e9]; rfl
      have hlen : input.take (input.length - a.1.length)
          = c1 :: c2 :: c3 :: c4 :: c5 :: c6 :: c7 :: c8 :: w := by
        rw [hin]; exact take_consumed _ _
      rw [hcaps, hlen]
      rfl
  · simp at g7

theorem replaceAll_nil (n : Nat) : replaceAll versionPattern versionTemplate n [] = [] := by
  cases n with
  | zero => rfl
  | succ n => rfl

theorem replaceAll_cases :
    ∀ (n : Nat) (input : List Char),
      replaceAll versionPattern versionTemplate n input = input ∨
        DropsSegment input (replaceAll versionPattern versionTemplate n input)
  | 0, input => Or.inl rfl
  | n + 1, input => by
    simp only [replaceAll]
    split
    · rename_i rest caps hhead
      have hmem : (rest, caps) ∈ versionPattern.run input [] :=
        List.mem_of_mem_head? (by rw [hhead]; exact rfl)
      obtain ⟨hrest, base, seg, hin, hne, hns, hcap⟩ := versionPattern_sound hmem
      simp only at hrest hcap
      subst hrest
      have hlen : ([] : List Char).length < input.length := by
        rw [hin]; simp
      rw [if_pos hlen, replaceAll_nil]
      refine Or.inr ⟨base, seg, hin, hne, hns, ?_⟩
      simp [versionTemplate, hcap]
    · cases input with
      | nil => exact Or.inl rfl
      | cons c tail =>
        simp only
        rcases replaceAll_cases n tail with h | ⟨base, seg, hin, hne, hns, hres⟩
        · rw [h]; exact Or.inl rfl
        · refine Or.inr ⟨c :: base, seg, ?_, hne, hns, ?_⟩
          · rw [hin]; rfl
          · rw [hres]; rfl

theorem replaceAll_matched (n : Nat) (input : List Char)
    (h : versionPattern.run input [] ≠ []) :
    DropsSegment input (replaceAll versionPattern versionTemplate (n + 1) input) := by
  simp only [replaceAll]
  split
  · rename_i rest caps hhead
    have hmem : (rest, caps) ∈ versionPattern.run input [] :=
      List.mem_of_mem_head? (by rw [hhead]; exact rfl)
    obtain ⟨hrest, base, seg, hin, hne, hns, hcap⟩ := versionPattern_sound hmem
    simp only at hrest hcap
    subst hrest
    have hlen : ([] : List Char).length < input.length := by
      rw [hin]; simp
    rw [if_pos hlen, replaceAll_nil]
    refine ⟨base, seg, hin, hne, hns, ?_⟩
    simp [versionTemplate, hcap]
  · rename_i hnone
    exact absurd (List.head?_eq_none_iff.mp hnone) h

theorem mem_repeatGreedy_of (p : Char → Bool) (r : List Char) (caps : Captures) :
    ∀ (w : List Char) (n : Nat), (∀ c ∈ w, p c = true) → w.length ≤ n →
      (r, caps) ∈ repeatGreedy (stepChar p) n (w ++ r) caps
  | [], 0, _, _ => by simp [repeatGreedy]
  | [], n + 1, _, _ => by simp [repeatGreedy]
  | c :: w, 0, _, hlen => by simp at hlen
  | c :: w, n + 1, hall, hlen => by
    simp only [repeatGreedy, List.mem_append, List.mem_flatMap, List.mem_filter]
    refine Or.inl ⟨(w ++ r, caps), ⟨?_, by simp⟩, ?_⟩
    · exact mem_stepChar.mpr ⟨c, rfl, hall c (List.mem_cons_self _ _), rfl⟩
    · exact mem_repeatGreedy_of p r caps w n
        (fun x hx => hall x (List.mem_cons_of_mem _ hx)) (by simpa using hlen)

theorem mem_repeatLazy_of (p : Char → Bool) (r : List Char) (caps : Captures) :
    ∀ (w : List Char) (n : Nat), (∀ c ∈ w, p c = true) → w.length ≤ n →
      (r, caps) ∈ repeatLazy (stepChar p) n (w ++ r) caps
  | [], 0, _, _ => by simp [repeatLazy]
  | [], n + 1, _, _ => by simp [repeatLazy]
  | c :: w, 0, _, hlen => by simp at hlen
  | c :: w, n + 1, hall, hlen => by
    simp only [repeatLazy, List.mem_cons, List.mem_flatMap, List.mem_filter]
    refine Or.inr ⟨(w ++ r, caps), ⟨?_, by simp⟩, ?_⟩
    · exact mem_stepChar.mpr ⟨c, rfl, hall c (List.mem_cons_self _ _), rfl⟩
    · exact mem_repeatLazy_of p r caps w n
        (fun x hx => hall x (List.mem_cons_of_mem _ hx)) (by simpa using hlen)

theorem mem_run_seq {a b : Regex} {input : List Char} {caps : Captures} {t : Thread}
    (m : Thread) (h1 : m ∈ a.run input caps) (h2 : t ∈ b.run m.1 m.2) :
    t ∈ (Regex.seq a b).run input caps := by
  simp only [Regex.run, List.mem_flatMap]
  exact ⟨m, h1, h2⟩

theorem mem_run_lit (c : Char) (rest : List Char) (caps : Captures) :
    (rest, caps) ∈ (Regex.lit c).run (c :: rest) caps := by
  simp only [Regex.run]
  exact mem_stepChar.mpr ⟨c, rfl, by simp, rfl⟩

theorem mem_run_group {a : Regex} {input : List Char} {caps : Captures} {t : Thread}
    (i : Nat) (h : t ∈ a.run input caps) :
    (t.1, (i, input.take (input.length - t.1.length)) :: t.2) ∈
      (Regex.group i a).run input caps := by
  simp only [Regex.run, List.mem_map]
  exact ⟨t, h, rfl⟩

theorem versionPattern_complete (rest seg : List Char) (c : Char) (hrest : '\n' ∉ rest)
    (hc : c ≠ '/') (hseg : '/' ∉ seg) :
    versionPattern.run
      ('h' :: 't' :: 't' :: 'p' :: 's' :: ':' :: '/' :: '/' ::
        (rest ++ '/' :: c :: (seg ++ ['/'])))
      [] ≠ [] := by
  have hstar : (('/' :: c :: (seg ++ ['/'])), ([] : Captures)) ∈
      (Regex.star .dot).run (rest ++ '/' :: c :: (seg ++ ['/'])) [] := by
    simp only [Regex.run, run_dot]
    exact mem_repeatGreedy_of _ _ _ rest _
      (fun x hx => by
        have : x ≠ '\n' := fun e => hrest (e ▸ hx)
        simpa using this)
      (by simp)
  have hlazy : ∀ caps : Captures, ((['/'] : List Char), caps) ∈
      (Regex.plusLazy (.noneOf ['/'])).run (c :: (seg ++ ['/'])) caps := by
    intro caps
    simp only [Regex.run, run_noneOf, List.mem_flatMap]
    refine ⟨(seg ++ ['/'], caps), mem_stepChar.mpr ⟨c, rfl, by simpa using hc, rfl⟩, ?_⟩
    exact mem_repeatLazy_of _ _ caps seg _
      (fun x hx => by
        have : x ≠ '/' := fun e => hseg (e ▸ hx)
        simpa using this)
      (by simp)
  have hone : (('/' :: c :: (seg ++ ['/'])), ([] : Captures)) ∈
      (Regex.seq (.lit 'h') (.seq (.lit 't') (.seq (.lit 't') (.seq (.lit 'p')
        (.seq (.oneOf ['s']) (.seq (.lit ':') (.seq (.lit '/') (.seq (.lit '/')
          (.star .dot))))))))).run
        ('h' :: 't' :: 't' :: 'p' :: 's' :: ':' :: '/' :: '/' ::
          (rest ++ '/' :: c :: (seg ++ ['/'])))
        [] := by
    refine mem_run_seq _ (mem_run_lit 'h' _ []) ?_
    refine mem_run_seq _ (mem_run_lit 't' _ []) ?_
    refine mem_run_seq _ (mem_run_lit 't' _ []) ?_
    refine mem_run_seq _ (mem_run_lit 'p' _ []) ?_
    refine mem_run_seq (':' :: '/' :: '/' :: (rest ++ '/' :: c :: (seg ++ ['/'])), [])
      (by simp only [Regex.run]; exact mem_stepChar.mpr ⟨'s', rfl, by decide, rfl⟩) ?_
    refine mem_run_seq _ (mem_run_lit ':' _ []) ?_
    refine mem_run_seq _ (mem_run_lit '/' _ []) ?_
    refine mem_run_seq _ (mem_run_lit '/' _ []) ?_
    exact hstar
  have htwo : ∀ caps : Captures, (([] : List Char), caps) ∈
      (Regex.seq (.lit '/') (.seq (.plusLazy (.noneOf ['/']))
        (.seq (.lit '/') .endText))).run ('/' :: c :: (seg ++ ['/'])) caps := by
    intro caps
    refine mem_run_seq _ (mem_run_lit '/' _ caps) ?_
    refine mem_run_seq _ (hlazy caps) ?_
    refine mem_run_seq _ (mem_run_lit '/' _ caps) ?_
    simp [Regex.run]
  have hmem := @mem_run_seq _ (.group 2 (.seq (.lit '/') (.seq (.plusLazy (.noneOf ['/']))
      (.seq (.lit '/') .endText)))) _ _ _ _ (mem_run_group 1 hone) (mem_run_group 2 (htwo _))
  intro h
  rw [versionPattern] at h
  rw [h] at hmem
  simp at hmem

theorem split_at_first {c : Char} :
    ∀ (x x' y y' : List Char), c ∉ x → c ∉ x' → x ++ c :: y = x' ++ c :: y' →
      x = x' ∧ y = y'
  | [], [], y, y', _, _, h => by
    simp only [List.nil_append, List.cons.injEq, true_and] at h
    exact ⟨rfl, h⟩
  | [], a :: x', y, y', _, hx', h => by
    simp only [List.nil_append, List.cons_append, List.cons.injEq] at h
    exact absurd (h.1 ▸ List.mem_cons_self _ _) hx'
  | a :: x, [], y, y', hx, _, h => by
    simp only [List.nil_append, List.cons_append, List.cons.injEq] at h
    exact absurd (h.1 ▸ List.mem_cons_self _ _) hx
  | a :: x, b :: x', y, y', hx, hx', h => by
    simp only [List.cons_append, List.cons.injEq] at h
    obtain ⟨h1, h2⟩ := split_at_first x x' y y'
      (fun m => hx (List.mem_cons_of_mem _ m)) (fun m => hx' (List.mem_cons_of_mem _ m)) h.2
    exact ⟨by rw [h.1, h1], h2⟩

theorem last_segment_unique {base base' seg seg' : List Char}
    (hs : '/' ∉ seg) (hs' : '/' ∉ seg')
    (h : base ++ '/' :: seg ++ ['/'] = base' ++ '/' :: seg' ++ ['/']) : base = base' := by
  have h1 : base ++ '/' :: seg = base' ++ '/' :: seg' := List.append_cancel_right h
  have h2 := congrArg List.reverse h1
  simp only [List.reverse_append, List.reverse_cons, List.append_assoc, List.singleton_append]
    at h2
  have := split_at_first seg.reverse seg'.reverse base.reverse base'.reverse
    (by simpa using hs) (by simpa using hs') h2
  exact List.reverse_injective this.2

/-- C18. For every `u`, `removeBasePathVersion u` is `u` itself, or `u` ends in
`/seg/` for a non-empty `seg` free of `/` and the result is `u` without `seg/`.
Hence the result is an initial part of `u`, it ends in `/` whenever it differs
from `u`, and a `u` that does not end in `/` is returned unchanged. -/
theorem removeBasePathVersion_shape (u : String) :
    (removeBasePathVersion u = u ∨
        ∃ base seg : String, u = base ++ "/" ++ seg ++ "/" ∧ seg ≠ "" ∧ '/' ∉ seg.data ∧
          removeBasePathVersion u = base ++ "/") ∧
      (removeBasePathVersion u).data <+: u.data ∧
      (removeBasePathVersion u ≠ u → (removeBasePathVersion u).data.getLast? = some '/') ∧
      (u.data.getLast? ≠ some '/' → removeBasePathVersion u = u) := by
  have key : removeBasePathVersion u = u ∨
      ∃ base seg : String, u = base ++ "/" ++ seg ++ "/" ∧ seg ≠ "" ∧ '/' ∉ seg.data ∧
        removeBasePathVersion u = base ++ "/" := by
    rcases replaceAll_cases (u.length + 1) u.data with h | ⟨base, seg, hin, hne, hns, hres⟩
    · left
      apply String.ext
      simpa [removeBasePathVersion] using h
    · right
      refine ⟨⟨base⟩, ⟨seg⟩, ?_, ?_, hns, ?_⟩
      · apply String.ext
        simp only [String.data_append]
        rw [hin]
        simp
      · intro h
        apply hne
        have := congrArg String.data h
        simpa using this
      · apply String.ext
        simp only [String.data_append]
        simpa [removeBasePathVersion] using hres
  refine ⟨key, ?_, ?_, ?_⟩
  · rcases key with h | ⟨base, seg, hu, _, _, hres⟩
    · rw [h]
    · rw [hres]
      refine ⟨seg.data ++ ['/'], ?_⟩
      have := congrArg String.data hu
      simp only [String.data_append] at this ⊢
      rw [this]
      simp
  · intro hne
    rcases key with h | ⟨base, seg, _, _, _, hres⟩
    · exact absurd h hne
    · rw [hres]
      simp [String.data_append]
  · intro hlast
    rcases key with h | ⟨base, seg, hu, _, _, _⟩
    · exact h
    · exfalso
      apply hlast
      have := congrArg String.data hu
      simp only [String.data_append] at this
      rw [this]
      exact List.getLast?_concat _

/-- For an `https` base path whose part before the version holds no line break,
the version segment is removed. -/
theorem removeBasePathVersion_https (rest v : String) (hrest : '\n' ∉ rest.data)
    (hv : v ≠ "") (hvs : '/' ∉ v.data) :
    removeBasePathVersion ("https://" ++ rest ++ "/" ++ v ++ "/") =
      "https://" ++ rest ++ "/" := by
  obtain ⟨c, seg, hvd⟩ : ∃ c seg, v.data = c :: seg := by
    cases hd : v.data with
    | nil => exact absurd (String.ext (by simpa using hd)) hv
    | cons c seg => exact ⟨c, seg, rfl⟩
  have hc : c ≠ '/' := fun e => hvs (by rw [hvd, e]; exact List.mem_cons_self _ _)
  have hseg : '/' ∉ seg := fun m => hvs (by rw [hvd]; exact List.mem_cons_of_mem _ m)
  have hdata : ("https://" ++ rest ++ "/" ++ v ++ "/").data =
      'h' :: 't' :: 't' :: 'p' :: 's' :: ':' :: '/' :: '/' ::
        (rest.data ++ '/' :: c :: (seg ++ ['/'])) := by
    simp only [String.data_append, hvd]
    simp
  obtain ⟨base, seg', hin, _, hns, hres⟩ :=
    replaceAll_matched ("https://" ++ rest ++ "/" ++ v ++ "/").length
      ("https://" ++ rest ++ "/" ++ v ++ "/").data
      (by rw [hdata]; exact versionPattern_complete rest.data seg c hrest hc hseg)
  apply String.ext
  simp only [removeBasePathVersion]
  rw [hres]
  have hin2 : ("https://" ++ rest ++ "/" ++ v ++ "/").data =
      ("https://" ++ rest).data ++ '/' :: v.data ++ ['/'] := by
    simp only [String.data_append]
    simp
  rw [hin2] at hin
  have := last_segment_unique hvs hns hin
  rw [← this]
  simp [String.data_append]

/-- C12 fails on the code: a base path that begins with `http://` keeps its
version segment, because `http[s]` asks for the letter `s`. -/
theorem removeBasePathVersion_http_unchanged :
    removeBasePathVersion "http://localhost:8080/v1/" = "http://localhost:8080/v1/" := by
  decide

/-- Witness for C18 on the default container base path: the version segment
goes, and what is left is an initial part of the input. -/
theorem removeBasePathVersion_shape_witness :
    removeBasePathVersion "https://container.googleapis.com/v1beta1/" =
        "https://container.googleapis.com/" ∧
      (removeBasePathVersion "https://container.googleapis.com/v1beta1/").data <+:
        "https://container.googleapis.com/v1beta1/".data :=
  ⟨by decide,
    (removeBasePathVersion_shape "https://container.googleapis.com/v1beta1/").2.1⟩

/-! ## Termination of the walk -/

theorem setOmittedFields_ptr_struct (isEmpty : Value → Bool) (s : String)
    (fs : List Field) (out : Value) :
    setOmittedFields isEmpty (.ptr (.struct s fs)) out =
      if isPointer out then fieldLoop isEmpty fs out else none := by
  simp only [setOmittedFields, walk.eq_1]

theorem sliceWith_eq (isEmpty : Value → Bool)
    (self : Value → Value → Option (Option Value)) (k : Nat)
    (hself : ∀ v o, v.depth ≤ k → self v o = some (setOmittedFields isEmpty v o)) :
    ∀ (es : List Value) (j : Nat) (o : Value), depthElems es ≤ k →
      sliceWith self es j o = some (sliceLoop isEmpty es j o)
  | [], j, o, _ => by simp [sliceWith, sliceLoop]
  | e :: rest, j, o, hd => by
    simp only [depthElems, Nat.max_le] at hd
    rw [sliceWith, sliceLoop.eq_2]
    cases hidx : Index o j with
    | none => rfl
    | some oe =>
      simp only
      rw [hself (.ptr e) (.ptr oe) (by simpa [Value.depth] using hd.1)]
      simp only [setOmittedFields]
      cases hw : (walk isEmpty e (.ptr oe)).bind pointee with
      | none => rfl
      | some oe1 => exact sliceWith_eq isEmpty self k hself rest (j + 1) _ hd.2

theorem ptrSliceWith_eq (isEmpty : Value → Bool)
    (self : Value → Value → Option (Option Value)) (k : Nat)
    (hself : ∀ v o, v.depth ≤ k → self v o = some (setOmittedFields isEmpty v o)) :
    ∀ (es : List Value) (j : Nat) (o : Value), depthElems es ≤ k →
      ptrSliceWith self es j o = some (ptrSliceLoop isEmpty es j o)
  | [], j, o, _ => by simp [ptrSliceWith, ptrSliceLoop]
  | e :: rest, j, o, hd => by
    simp only [depthElems, Nat.max_le] at hd
    rw [ptrSliceWith, ptrSliceLoop.eq_2]
    cases hidx : Index o j with
    | none => rfl
    | some oe =>
      simp only
      rw [hself e oe hd.1]
      have hnext := ptrSliceWith_eq isEmpty self k hself rest (j + 1)
      cases e with
      | ptr t =>
        simp only [setOmittedFields]
        cases hw : walk isEmpty t oe with
        | none => rfl
        | some oe1 => exact hnext _ hd.2
      | _ => rfl

theorem isPtrToStruct_ptr (e : Ty) : (Ty.ptr e).isPtrToStruct = true ↔ e.Kind = .Struct := by
  simp only [Ty.isPtrToStruct, Ty.Elem, Option.map_some', Option.some.injEq,
    Bool.and_eq_true, decide_eq_true_eq]
  exact ⟨fun h => h.2, fun h => ⟨rfl, h⟩⟩

theorem stepWith_eq (isEmpty : Value → Bool)
    (self : Value → Value → Option (Option Value)) (k : Nat)
    (hself : ∀ v o, v.depth ≤ k → self v o = some (setOmittedFields isEmpty v o))
    (tag : String) (iField oField : Value) (hd : iField.depth ≤ k) :
    stepWith self tag iField oField = some (fieldStep isEmpty tag iField oField) := by
  rw [stepWith, fieldStep.eq_1]
  cases hset : (if tag = "-" then Set oField iField else some oField) with
  | none => rfl
  | some o =>
    simp only
    cases iField with
    | struct s fs =>
      have hk : (typeOf (Value.struct s fs)).Kind = Kind.Struct := rfl
      rw [if_pos hk, hself _ _ (by simpa [Value.depth] using hd), setOmittedFields_ptr_struct]
      simp [isPointer]
    | ptr t =>
      have hk : ¬ (typeOf (Value.ptr t)).Kind = Kind.Struct := by
        intro h; cases h
      rw [if_neg hk]
      by_cases hs : (typeOf t).Kind = .Struct
      · have hp : (typeOf (Value.ptr t)).isPtrToStruct = true :=
          (isPtrToStruct_ptr _).mpr hs
        rw [if_pos hp, hself _ _ hd]
        simp only [setOmittedFields, if_pos hs]
      · have hp : ¬ (typeOf (Value.ptr t)).isPtrToStruct = true :=
          fun h => hs ((isPtrToStruct_ptr _).mp h)
        rw [if_neg hp]
        simp only [if_neg hs]
    | nilPtr e =>
      have hk : ¬ (typeOf (Value.nilPtr e)).Kind = Kind.Struct := by
        intro h; cases h
      rw [if_neg hk]
      by_cases hs : e.Kind = .Struct
      · have hp : (typeOf (Value.nilPtr e)).isPtrToStruct = true :=
          (isPtrToStruct_ptr _).mpr hs
        rw [if_pos hp, hself _ _ hd]
        simp only [setOmittedFields, if_pos hs]
      · have hp : ¬ (typeOf (Value.nilPtr e)).isPtrToStruct = true :=
          fun h => hs ((isPtrToStruct_ptr _).mp h)
        rw [if_neg hp]
        simp only [if_neg hs]
    | slice e es =>
      have hk : ¬ (typeOf (Value.slice e es)).Kind = Kind.Struct := by
        intro h; cases h
      have hp : ¬ (typeOf (Value.slice e es)).isPtrToStruct = true := by
        intro h
        simp only [typeOf, Ty.isPtrToStruct, Bool.and_eq_true, decide_eq_true_eq] at h
        cases h.1
      rw [if_neg hk, if_neg hp]
      simp only
      have hde : depthElems es ≤ k := by simpa [Value.depth] using hd
      split
      · exact sliceWith_eq isEmpty self k hself es 0 o hde
      · split
        · exact ptrSliceWith_eq isEmpty self k hself es 0 o hde
        · rfl
    | bool b => rfl
    | int n => rfl
    | string s => rfl
    | map m => rfl
    | nilMap => rfl

theorem loopWith_eq (isEmpty : Value → Bool)
    (self : Value → Value → Option (Option Value)) (k : Nat)
    (hself : ∀ v o, v.depth ≤ k → self v o = some (setOmittedFields isEmpty v o)) :
    ∀ (fs : List Field) (out : Value), depthFields fs ≤ k →
      loopWith self isEmpty fs out = some (fieldLoop isEmpty fs out)
  | [], out, _ => by simp [loopWith, fieldLoop]
  | .mk n t v :: rest, out, hd => by
    simp only [depthFields, Nat.max_le] at hd
    rw [loopWith, fieldLoop.eq_2]
    have hnext := loopWith_eq isEmpty self k hself rest
    split
    · exact hnext out hd.2
    · cases hof : outField out n with
      | none => rfl
      | some r =>
        cases r with
        | none => exact hnext out hd.2
        | some oField =>
          simp only
          rw [stepWith_eq isEmpty self k hself t v oField hd.1]
          cases hstep : fieldStep isEmpty t v oField with
          | none => rfl
          | some o => exact hnext _ hd.2

theorem setOmittedFieldsFuel_eq (isEmpty : Value → Bool) :
    ∀ (fuel : Nat) (item out : Value), item.depth < fuel →
      setOmittedFieldsFuel isEmpty fuel item out = some (setOmittedFields isEmpty item out)
  | 0, _, _, h => by simp at h
  | fuel + 1, item, out, h => by
    have hcall := setOmittedFieldsFuel_eq isEmpty fuel
    cases item with
    | ptr t =>
      cases t with
      | struct s fs =>
        simp only [Value.depth] at h
        simp only [setOmittedFieldsFuel, setOmittedFields_ptr_struct]
        split
        · exact loopWith_eq isEmpty _ (depthFields fs)
            (fun v o hv => hcall v o (by omega)) fs out (Nat.le_refl _)
        · rfl
      | _ => rfl
    | _ => rfl

theorem depthFields_mem : ∀ (fs : List Field) (f : Field), f ∈ fs →
    f.value.depth ≤ depthFields fs
  | [], f, h => by simp at h
  | .mk n t v :: rest, f, h => by
    simp only [depthFields]
    rcases List.mem_cons.mp h with e | hin
    · rw [e]; exact Nat.le_max_left _ _
    · exact Nat.le_trans (depthFields_mem rest f hin) (Nat.le_max_right _ _)

theorem depthElems_mem : ∀ (es : List Value) (e : Value), e ∈ es →
    e.depth ≤ depthElems es
  | [], e, h => by simp at h
  | v :: rest, e, h => by
    simp only [depthElems]
    rcases List.mem_cons.mp h with e1 | hin
    · rw [e1]; exact Nat.le_max_left _ _
    · exact Nat.le_trans (depthElems_mem rest e hin) (Nat.le_max_right _ _)

/-- C14. Termination.  The walk from a source whose records nest `d` deep
makes at most `d` nested calls: the transcription that counts nested calls
never reaches a bound larger than `d`, and returns exactly what the
structurally recursive `setOmittedFields` returns.  Every recursive call is on
a sub-value of the source of smaller depth: the value of a field of the record
(the pointee of a pointer has the depth of the pointer) or an element of a
sequence held by a field. -/
theorem setOmittedFields_terminates (isEmpty : Value → Bool) (fuel : Nat)
    (item out : Value) (h : item.depth < fuel) :
    setOmittedFieldsFuel isEmpty fuel item out ≠ none ∧
      setOmittedFieldsFuel isEmpty fuel item out =
        some (setOmittedFields isEmpty item out) ∧
      (∀ s fs, item = .ptr (.struct s fs) → ∀ f ∈ fs,
        f.value.depth < item.depth ∧
          ∀ T es, f.value = .slice T es → ∀ e ∈ es, e.depth < item.depth) := by
  have := setOmittedFieldsFuel_eq isEmpty fuel item out h
  refine ⟨by rw [this]; simp, this, ?_⟩
  intro s fs hitem f hf
  subst hitem
  have hfd := depthFields_mem fs f hf
  refine ⟨by simp only [Value.depth]; omega, ?_⟩
  intro T es hv e he
  have := depthElems_mem es e he
  rw [hv] at hfd
  simp only [Value.depth] at hfd ⊢
  omega

/-- Witness for C14 on the worked example: the source nests two deep and three
levels of calls are enough. -/
theorem setOmittedFields_terminates_witness :
    exSource.depth = 2 ∧
      setOmittedFieldsFuel isEmptyValue 3 exSource exDecoded = some (some exResult) :=
  ⟨rfl, (setOmittedFields_terminates isEmptyValue 3 exSource exDecoded (by decide)).2.1⟩

/-! ## Running the walk twice -/

theorem storeField_isPointer (out : Value) (name : String) (v : Value) :
    isPointer (storeField out name v) = isPointer out := by
  unfold storeField
  split <;> simp [isPointer]

theorem storeField_isRecordPtr (out : Value) (name : String) (v : Value) :
    isRecordPtr (storeField out name v) = isRecordPtr out := by
  unfold storeField
  split <;> simp [isRecordPtr]

theorem fieldLoop_shape (isEmpty : Value → Bool) :
    ∀ (fs : List Field) (out d : Value), fieldLoop isEmpty fs out = some d →
      isPointer d = isPointer out ∧ isRecordPtr d = isRecordPtr out
  | [], out, d, h => by
    simp only [fieldLoop, Option.some.injEq] at h; subst h; exact ⟨rfl, rfl⟩
  | .mk n t v :: rest, out, d, h => by
    rw [fieldLoop.eq_2] at h
    split at h
    · exact fieldLoop_shape isEmpty rest out d h
    · split at h
      · simp at h
      · exact fieldLoop_shape isEmpty rest out d h
      · split at h
        · simp at h
        · have := fieldLoop_shape isEmpty rest _ d h
          rw [storeField_isPointer, storeField_isRecordPtr] at this
          exact this

theorem outField_of_record {out : Value} (h : isRecordPtr out = true) (name : String) :
    outField out name = some (out.field? name) := by
  unfold isRecordPtr at h
  split at h
  · simp [outField, Value.field?]
  · simp at h

theorem storeField_same {out o : Value} {name : String}
    (h : outField out name = some (some o)) : storeField out name o = out := by
  unfold outField at h
  split at h
  · rename_i sn ofs
    simp only [Option.some.injEq] at h
    simp only [storeField, setField_of_FieldByName _ h]
  · simp at h

theorem pointee_eq_some {p x : Value} (h : pointee p = some x) : p = .ptr x := by
  unfold pointee at h
  split at h
  · simp only [Option.some.injEq] at h; rw [h]
  · simp at h

theorem set_of_getElem? {α : Type} : ∀ (l : List α) (j : Nat) (x : α),
    l[j]? = some x → l.set j x = l
  | [], _, _, h => by simp at h
  | a :: l, 0, x, h => by simp at h; simp [h]
  | a :: l, j + 1, x, h => by
    simp at h
    simp [set_of_getElem? l j x h]

theorem setIndex_same {o x : Value} {j : Nat} (h : Index o j = some x) :
    setIndex o j x = o := by
  unfold Index at h
  split at h
  · simp only [setIndex, set_of_getElem? _ _ _ h]
  · simp at h
theorem Index_setIndex_ne {i j : Nat} (hne : i ≠ j) (o x : Value) :
    Index (setIndex o j x) i = Index o i := by
  cases o <;> simp only [setIndex, Index]
  exact List.getElem?_set_ne (Ne.symm hne)

theorem Index_setIndex_same {o oe : Value} {j : Nat} (h : Index o j = some oe) (x : Value) :
    Index (setIndex o j x) j = some x := by
  cases o with
  | slice T os =>
    simp only [Index] at h
    have hlt : j < os.length := by
      rcases Nat.lt_or_ge j os.length with hl | hl
      · exact hl
      · rw [List.getElem?_eq_none hl] at h; simp at h
    simp [setIndex, Index, hlt]
  | _ => simp [Index] at h

theorem sliceLoop_keeps (isEmpty : Value → Bool) :
    ∀ (es : List Value) (j : Nat) (o r : Value), sliceLoop isEmpty es j o = some r →
      ∀ i, i < j → Index r i = Index o i
  | [], j, o, r, h, i, _ => by
    simp only [sliceLoop, Option.some.injEq] at h; rw [h]
  | e :: rest, j, o, r, h, i, hi => by
    rw [sliceLoop.eq_2] at h
    split at h
    · simp at h
    · split at h
      · simp at h
      · rw [sliceLoop_keeps isEmpty rest (j + 1) _ r h i (by omega),
          Index_setIndex_ne (by omega)]

theorem ptrSliceLoop_keeps (isEmpty : Value → Bool) :
    ∀ (es : List Value) (j : Nat) (o r : Value), ptrSliceLoop isEmpty es j o = some r →
      ∀ i, i < j → Index r i = Index o i
  | [], j, o, r, h, i, _ => by
    simp only [ptrSliceLoop, Option.some.injEq] at h; rw [h]
  | e :: rest, j, o, r, h, i, hi => by
    rw [ptrSliceLoop.eq_2] at h
    split at h
    · simp at h
    · split at h
      all_goals first | (simp at h) | skip
      split at h
      · simp at h
      · rw [ptrSliceLoop_keeps isEmpty rest (j + 1) _ r h i (by omega),
          Index_setIndex_ne (by omega)]
theorem fieldStep_excluded (isEmpty : Value → Bool) (v o : Value) :
    fieldStep isEmpty "-" v o =
      if typeOf v = typeOf o then fieldStep isEmpty "-" v v else none := by
  by_cases hty : typeOf v = typeOf o
  · rw [if_pos hty]
    cases v <;> rw [fieldStep.eq_1, fieldStep.eq_1] <;> simp only [Set, hty, if_true]
  · rw [if_neg hty]
    cases v <;> rw [fieldStep.eq_1] <;> simp only [Set, hty, if_true, if_false]

mutual
theorem walk_idem (isEmpty : Value → Bool) :
    ∀ v : Value, wellFormed v = true → ∀ out d, walk isEmpty v out = some d →
      walk isEmpty v d = some d
  | .struct n fs, hwf, out, d, h => by
    simp only [wellFormed, Bool.and_eq_true, decide_eq_true_eq] at hwf
    rw [walk.eq_1] at h ⊢
    split at h
    · rename_i hp
      rw [if_pos (by rw [(fieldLoop_shape isEmpty fs out d h).1]; exact hp)]
      exact fieldLoop_idem isEmpty fs hwf.1 hwf.2 out d h
    · simp at h
  | .bool _, _, _, _, h => by simp [walk] at h
  | .int _, _, _, _, h => by simp [walk] at h
  | .string _, _, _, _, h => by simp [walk] at h
  | .ptr _, _, _, _, h => by simp [walk] at h
  | .nilPtr _, _, _, _, h => by simp [walk] at h
  | .slice _ _, _, _, _, h => by simp [walk] at h
  | .map _, _, _, _, h => by simp [walk] at h
  | .nilMap, _, _, _, h => by simp [walk] at h
theorem fieldLoop_idem (isEmpty : Value → Bool) :
    ∀ fs : List Field, (fs.map Field.name).Nodup → wfFields fs = true →
      ∀ out d, fieldLoop isEmpty fs out = some d → fieldLoop isEmpty fs d = some d
  | [], _, _, out, d, _ => by simp [fieldLoop]
  | .mk fn ft fv :: rest, hnd, hwf, out, d, h => by
    simp only [wfFields, Bool.and_eq_true] at hwf
    simp only [List.map_cons, List.nodup_cons, Field.name] at hnd
    have hfresh : ∀ f ∈ rest, f.name = fn → isEmpty f.value = true := by
      intro f hf hname
      exact absurd (hname ▸ List.mem_map_of_mem Field.name hf) hnd.1
    rw [fieldLoop.eq_2] at h ⊢
    by_cases hemp : isEmpty fv = true
    · rw [if_pos hemp] at h ⊢
      exact fieldLoop_idem isEmpty rest hnd.2 hwf.2 out d h
    · rw [if_neg hemp] at h ⊢
      split at h
      · simp at h
      · rename_i habs
        have hshape := fieldLoop_shape isEmpty rest out d h
        have hrec : isRecordPtr out = true := by
          cases hr : isRecordPtr out
          · rw [outField_of_not_record hr] at habs; simp at habs
          · rfl
        have hdecl := fieldLoop_declares isEmpty fn rest out d h
        rw [outField_field habs] at hdecl
        have hd : outField d fn = some none := by
          rw [outField_of_record (by rw [hshape.2]; exact hrec)]
          cases hx : d.field? fn
          · rfl
          · rw [hx] at hdecl; simp at hdecl
        simp only [hd]
        exact fieldLoop_idem isEmpty rest hnd.2 hwf.2 out d h
      · rename_i o hfound
        split at h
        · simp at h
        · rename_i o1 hstep
          have hshape := fieldLoop_shape isEmpty rest _ d h
          rw [storeField_isRecordPtr] at hshape
          have hrec : isRecordPtr out = true := by
            cases hr : isRecordPtr out
            · rw [outField_of_not_record hr] at hfound; simp at hfound
            · rfl
          have hframe := fieldLoop_frame isEmpty fn rest _ d hfresh h
          rw [storeField_field_same o1 hfound] at hframe
          have hd : outField d fn = some (some o1) := by
            rw [outField_of_record (by rw [hshape.2]; exact hrec), hframe]
          have hstep2 : fieldStep isEmpty ft fv o1 = some o1 := by
            by_cases ht : ft = "-"
            · have := fieldStep_self isEmpty fv hwf.1 ft o o1 (Or.inl ht) hstep
              subst this
              subst ht
              rw [fieldStep_excluded] at hstep
              split at hstep
              · exact hstep
              · simp at hstep
            · exact fieldStep_idem isEmpty fv hwf.1 ft ht o o1 hstep
          simp only [hd, hstep2, storeField_same hd]
          exact fieldLoop_idem isEmpty rest hnd.2 hwf.2 _ d h
theorem fieldStep_idem (isEmpty : Value → Bool) :
    ∀ v : Value, wellFormed v = true → ∀ (tag : String), tag ≠ "-" → ∀ (o o1 : Value),
      fieldStep isEmpty tag v o = some o1 → fieldStep isEmpty tag v o1 = some o1
  | .struct n fs, hwf, tag, ht, o, o1, h => by
    simp only [wellFormed, Bool.and_eq_true, decide_eq_true_eq] at hwf
    rw [fieldStep.eq_1] at h ⊢
    simp only [if_neg ht] at h ⊢
    simp only [Option.bind_eq_some] at h
    obtain ⟨p, hp, hpe⟩ := h
    have := pointee_eq_some hpe
    subst this
    rw [fieldLoop_idem isEmpty fs hwf.1 hwf.2 _ _ hp]
    rfl
  | .ptr t, hwf, tag, ht, o, o1, h => by
    simp only [wellFormed] at hwf
    rw [fieldStep.eq_1] at h ⊢
    simp only [if_neg ht] at h ⊢
    split at h
    · rename_i hk
      rw [if_pos hk]
      exact walk_idem isEmpty t hwf o o1 h
    · rename_i hk
      rw [if_neg hk]
  | .nilPtr e, _, tag, ht, o, o1, h => by
    rw [fieldStep.eq_1] at h ⊢
    simp only [if_neg ht] at h ⊢
    split at h
    · simp at h
    · rename_i hk
      rw [if_neg hk]
  | .slice e es, hwf, tag, ht, o, o1, h => by
    simp only [wellFormed] at hwf
    rw [fieldStep.eq_1] at h ⊢
    simp only [if_neg ht] at h ⊢
    split at h
    · rename_i hk
      rw [if_pos hk]
      exact sliceLoop_idem isEmpty es hwf 0 o o1 h
    · rename_i hk
      rw [if_neg hk]
      split at h
      · rename_i hk2
        rw [if_pos hk2]
        exact ptrSliceLoop_idem isEmpty es hwf 0 o o1 h
      · rename_i hk2
        rw [if_neg hk2]
  | .bool _, _, tag, ht, o, o1, h => by
    rw [fieldStep.eq_1]; simp only [if_neg ht]
  | .int _, _, tag, ht, o, o1, h => by
    rw [fieldStep.eq_1]; simp only [if_neg ht]
  | .string _, _, tag, ht, o, o1, h => by
    rw [fieldStep.eq_1]; simp only [if_neg ht]
  | .map _, _, tag, ht, o, o1, h => by
    rw [fieldStep.eq_1]; simp only [if_neg ht]
  | .nilMap, _, tag, ht, o, o1, h => by
    rw [fieldStep.eq_1]; simp only [if_neg ht]
theorem sliceLoop_idem (isEmpty : Value → Bool) :
    ∀ es : List Value, wfElems es = true → ∀ (j : Nat) (o r : Value),
      sliceLoop isEmpty es j o = some r → sliceLoop isEmpty es j r = some r
  | [], _, j, o, r, h => by simp [sliceLoop]
  | e :: rest, hwf, j, o, r, h => by
    simp only [wfElems, Bool.and_eq_true] at hwf
    rw [sliceLoop.eq_2] at h ⊢
    split at h
    · simp at h
    · rename_i oe hidx
      split at h
      · simp at h
      · rename_i oe1 hw
        have hkeep := sliceLoop_keeps isEmpty rest (j + 1) _ r h j (by omega)
        rw [Index_setIndex_same hidx] at hkeep
        simp only [Option.bind_eq_some] at hw
        obtain ⟨p, hp, hpe⟩ := hw
        have := pointee_eq_some hpe
        subst this
        have hw2 := walk_idem isEmpty e hwf.1 _ _ hp
        simp only [hkeep, hw2, Option.some_bind, pointee, setIndex_same hkeep]
        exact sliceLoop_idem isEmpty rest hwf.2 (j + 1) _ r h
theorem ptrSliceLoop_idem (isEmpty : Value → Bool) :
    ∀ es : List Value, wfElems es = true → ∀ (j : Nat) (o r : Value),
      ptrSliceLoop isEmpty es j o = some r → ptrSliceLoop isEmpty es j r = some r
  | [], _, j, o, r, h => by simp [ptrSliceLoop]
  | .ptr t :: rest, hwf, j, o, r, h => by
    simp only [wfElems, wellFormed, Bool.and_eq_true] at hwf
    rw [ptrSliceLoop.eq_2] at h ⊢
    split at h
    · simp at h
    · rename_i oe hidx
      simp only at h
      split at h
      · simp at h
      · rename_i oe1 hw
        have hkeep := ptrSliceLoop_keeps isEmpty rest (j + 1) _ r h j (by omega)
        rw [Index_setIndex_same hidx] at hkeep
        have hw2 := walk_idem isEmpty t hwf.1 _ _ hw
        simp only [hkeep, hw2, setIndex_same hkeep]
        exact ptrSliceLoop_idem isEmpty rest hwf.2 (j + 1) _ r h
  | .nilPtr _ :: rest, _, j, o, r, h => by
    rw [ptrSliceLoop.eq_2] at h; split at h <;> simp at h
  | .bool _ :: rest, _, j, o, r, h => by
    rw [ptrSliceLoop.eq_2] at h; split at h <;> simp at h
  | .int _ :: rest, _, j, o, r, h => by
    rw [ptrSliceLoop.eq_2] at h; split at h <;> simp at h
  | .string _ :: rest, _, j, o, r, h => by
    rw [ptrSliceLoop.eq_2] at h; split at h <;> simp at h
  | .struct _ _ :: rest, _, j, o, r, h => by
    rw [ptrSliceLoop.eq_2] at h; split at h <;> simp at h
  | .slice _ _ :: rest, _, j, o, r, h => by
    rw [ptrSliceLoop.eq_2] at h; split at h <;> simp at h
  | .map _ :: rest, _, j, o, r, h => by
    rw [ptrSliceLoop.eq_2] at h; split at h <;> simp at h
  | .nilMap :: rest, _, j, o, r, h => by
    rw [ptrSliceLoop.eq_2] at h; split at h <;> simp at h
end
/-- C15. Idempotence of the restoration walk.  For a source whose field names
are distinct in every record, once `setOmittedFields(item, out)` has completed
and left the destination `out1`, a second `setOmittedFields(item, out1)`
completes as well and leaves the destination exactly `out1`, for every
`isEmptyValue`.  Source and destination are values that share no storage. -/
theorem setOmittedFields_idempotent (isEmpty : Value → Bool) (item out out1 : Value)
    (hwf : wellFormed item = true)
    (h : setOmittedFields isEmpty item out = some out1) :
    setOmittedFields isEmpty item out1 = some out1 := by
  unfold setOmittedFields at h ⊢
  split at h
  · rename_i iVal
    simp only [wellFormed] at hwf
    exact walk_idem isEmpty iVal hwf out out1 h
  · simp at h

/-- Witness for C15 on the worked example: the walk that turned the decoded
destination into the result leaves the result as it is. -/
theorem setOmittedFields_idempotent_witness :
    wellFormed exSource = true ∧
      setOmittedFields isEmptyValue exSource exDecoded = some exResult ∧
      setOmittedFields isEmptyValue exSource exResult = some exResult :=
  ⟨by decide, rfl,
    setOmittedFields_idempotent isEmptyValue exSource exDecoded exResult (by decide) rfl⟩

/-! ## What the walk leaves alone -/

theorem included_field {name : String} {rest : List Step} {v : Value} {fs : List Field}
    (h : included (.field name :: rest) v = true) (hrec : recordFields v = some fs) :
    ∀ f ∈ fs, f.name = name → f.tag ≠ "-" ∧ included rest f.value = true := by
  intro f hf hname
  simp only [included, hrec, List.all_eq_true] at h
  have := h f hf
  simpa [hname] using this

theorem included_index {j : Nat} {rest : List Step} {T : Ty} {es : List Value} {e : Value}
    (h : included (.index j :: rest) (.slice T es) = true) (he : es[j]? = some e) :
    included rest e = true := by
  simpa [included, he] using h

theorem included_ptr (n : String) (fs : List Field) :
    ∀ path : List Step,
      included path (.ptr (.struct n fs)) = included path (.struct n fs)
  | [] => rfl
  | .field _ :: _ => by simp [included, recordFields]
  | .index _ :: _ => by simp [included]

theorem at_ptr_struct (n : String) (fs : List Field) (s : Step) (rest : List Step) :
    (Value.ptr (.struct n fs)).at? (s :: rest) = (Value.struct n fs).at? (s :: rest) := by
  cases s <;> simp [Value.at?, Value.field?, Index]

theorem outField_some {out : Value} {name : String} {r : Option Value}
    (h : outField out name = some r) :
    ∃ sn ofs, out = .ptr (.struct sn ofs) ∧ FieldByName name ofs = r := by
  unfold outField at h
  split at h
  · rename_i sn ofs
    exact ⟨sn, ofs, rfl, Option.some.inj h⟩
  · simp at h

theorem walk_not_record (isEmpty : Value → Bool) {v out d : Value}
    (hrec : isRecordPtr out = false) (h : walk isEmpty v out = some d) : d = out := by
  cases v with
  | struct n fs =>
    rw [walk.eq_1] at h
    split at h
    · rw [fieldLoop_not_record isEmpty hrec] at h
      split at h
      · exact (Option.some.inj h).symm
      · simp at h
    · simp at h
  | _ => simp [walk] at h

theorem walk_shape (isEmpty : Value → Bool) {v out d : Value}
    (h : walk isEmpty v out = some d) : isRecordPtr d = isRecordPtr out := by
  cases v with
  | struct n fs =>
    rw [walk.eq_1] at h
    split at h
    · exact (fieldLoop_shape isEmpty fs out d h).2
    · simp at h
  | _ => simp [walk] at h

theorem isRecordPtr_ptr {o : Value} (h : isRecordPtr (.ptr o) = true) :
    ∃ n fs, o = .struct n fs := by
  cases o <;> simp [isRecordPtr] at h
  exact ⟨_, _, rfl⟩

theorem addr_frame (w : Value → Option Value) (path : List Step) (x : Value)
    (hframe : ∀ out d, w out = some d → out.at? path = some x → d.at? path = some x)
    (hnot : ∀ out d, isRecordPtr out = false → w out = some d → d = out)
    (hshape : ∀ out d, w out = some d → isRecordPtr d = isRecordPtr out)
    (hx : isPrimitive x = true) {o o1 : Value}
    (h : (w (.ptr o)).bind pointee = some o1) (hat : o.at? path = some x) :
    o1.at? path = some x := by
  simp only [Option.bind_eq_some] at h
  obtain ⟨p, hp, hpe⟩ := h
  have := pointee_eq_some hpe
  subst this
  cases hrec : isRecordPtr (.ptr o) with
  | false =>
    have := hnot _ _ hrec hp
    simp only [Value.ptr.injEq] at this
    rw [this]; exact hat
  | true =>
    have hrec1 := hshape _ _ hp
    rw [hrec] at hrec1
    obtain ⟨n, fs, ho⟩ := isRecordPtr_ptr hrec
    obtain ⟨n1, fs1, ho1⟩ := isRecordPtr_ptr hrec1
    subst ho; subst ho1
    cases path with
    | nil =>
      simp only [Value.at?, Option.some.injEq] at hat
      subst hat
      simp [isPrimitive] at hx
    | cons s rest =>
      rw [← at_ptr_struct] at hat ⊢
      exact hframe _ _ hp hat

mutual
theorem walk_keeps (isEmpty : Value → Bool) :
    ∀ (v out d : Value), walk isEmpty v out = some d →
      ∀ (path : List Step) (x : Value), included path v = true → isPrimitive x = true →
        out.at? path = some x → d.at? path = some x
  | .struct n fs, out, d, h, path, x, hinc, hx, hat => by
    rw [walk.eq_1] at h
    split at h
    · refine fieldLoop_keeps isEmpty fs out d h path x ?_ hx hat
      intro name rest hp
      subst hp
      exact included_field hinc rfl
    · simp at h
  | .bool _, _, _, h, _, _, _, _, _ => by simp [walk] at h
  | .int _, _, _, h, _, _, _, _, _ => by simp [walk] at h
  | .string _, _, _, h, _, _, _, _, _ => by simp [walk] at h
  | .ptr _, _, _, h, _, _, _, _, _ => by simp [walk] at h
  | .nilPtr _, _, _, h, _, _, _, _, _ => by simp [walk] at h
  | .slice _ _, _, _, h, _, _, _, _, _ => by simp [walk] at h
  | .map _, _, _, h, _, _, _, _, _ => by simp [walk] at h
  | .nilMap, _, _, h, _, _, _, _, _ => by simp [walk] at h
theorem fieldLoop_keeps (isEmpty : Value → Bool) :
    ∀ (fs : List Field) (out d : Value), fieldLoop isEmpty fs out = some d →
      ∀ (path : List Step) (x : Value),
        (∀ name rest, path = .field name :: rest → ∀ f ∈ fs, f.name = name →
          f.tag ≠ "-" ∧ included rest f.value = true) →
        isPrimitive x = true → out.at? path = some x → d.at? path = some x
  | [], out, d, h, path, x, _, _, hat => by
    simp only [fieldLoop, Option.some.injEq] at h; rw [← h]; exact hat
  | .mk fn ft fv :: rest, out, d, h, path, x, hinc, hx, hat => by
    have hinc2 : ∀ name prest, path = .field name :: prest → ∀ f ∈ rest, f.name = name →
        f.tag ≠ "-" ∧ included prest f.value = true :=
      fun name prest hp f hf hname => hinc name prest hp f (List.mem_cons_of_mem _ hf) hname
    rw [fieldLoop.eq_2] at h
    split at h
    · exact fieldLoop_keeps isEmpty rest out d h path x hinc2 hx hat
    · split at h
      · simp at h
      · exact fieldLoop_keeps isEmpty rest out d h path x hinc2 hx hat
      · rename_i o hfound
        split at h
        · simp at h
        · rename_i o1 hstep
          refine fieldLoop_keeps isEmpty rest _ d h path x hinc2 hx ?_
          obtain ⟨sn, ofs, hout, hlook⟩ := outField_some hfound
          cases path with
          | nil =>
            simp only [Value.at?, Option.some.injEq] at hat
            rw [← hat, hout] at hx
            simp [isPrimitive] at hx
          | cons s prest =>
            cases s with
            | index j =>
              rw [hout] at hat
              simp [Value.at?, Index] at hat
            | field name =>
              by_cases hname : name = fn
              · subst hname
                have hi := hinc name prest rfl (.mk name ft fv) (List.mem_cons_self _ _) rfl
                simp only [Field.tag, Field.value] at hi
                simp only [Value.at?, outField_field hfound, Option.some_bind] at hat
                simp only [Value.at?, storeField_field_same o1 hfound, Option.some_bind]
                exact fieldStep_keeps isEmpty fv ft hi.1 o o1 hstep prest x hi.2 hx hat
              · simp only [Value.at?, storeField_field_ne hname] at hat ⊢
                exact hat
theorem fieldStep_keeps (isEmpty : Value → Bool) :
    ∀ (v : Value) (tag : String), tag ≠ "-" → ∀ (o o1 : Value),
      fieldStep isEmpty tag v o = some o1 →
      ∀ (path : List Step) (x : Value), included path v = true → isPrimitive x = true →
        o.at? path = some x → o1.at? path = some x
  | .struct n fs, tag, ht, o, o1, h, path, x, hinc, hx, hat => by
    rw [fieldStep.eq_1] at h
    simp only [if_neg ht] at h
    refine addr_frame (fieldLoop isEmpty fs) path x ?_ ?_ ?_ hx h hat
    · intro out d hl hat1
      refine fieldLoop_keeps isEmpty fs out d hl path x ?_ hx hat1
      intro name rest hp
      subst hp
      exact included_field hinc rfl
    · intro out d hrec hl
      rw [fieldLoop_not_record isEmpty hrec] at hl
      split at hl
      · exact (Option.some.inj hl).symm
      · simp at hl
    · intro out d hl
      exact (fieldLoop_shape isEmpty fs out d hl).2
  | .ptr t, tag, ht, o, o1, h, path, x, hinc, hx, hat => by
    rw [fieldStep.eq_1] at h
    simp only [if_neg ht] at h
    split at h
    · have hinc1 : included path t = true := by
        cases t with
        | struct n fs => rw [← included_ptr]; exact hinc
        | _ => simp [walk] at h
      exact walk_keeps isEmpty t o o1 h path x hinc1 hx hat
    · rw [← Option.some.inj h]; exact hat
  | .nilPtr e, tag, ht, o, o1, h, path, x, _, _, hat => by
    rw [fieldStep.eq_1] at h
    simp only [if_neg ht] at h
    split at h
    · simp at h
    · rw [← Option.some.inj h]; exact hat
  | .slice e es, tag, ht, o, o1, h, path, x, hinc, hx, hat => by
    rw [fieldStep.eq_1] at h
    simp only [if_neg ht] at h
    have hel : ∀ k prest el, path = .index k :: prest → 0 ≤ k → es[k - 0]? = some el →
        included prest el = true := by
      intro k prest el hp _ hk
      subst hp
      exact included_index hinc (by simpa using hk)
    split at h
    · exact sliceLoop_keeps_path isEmpty es 0 o o1 h path x hel hx hat
    · split at h
      · exact ptrSliceLoop_keeps_path isEmpty es 0 o o1 h path x hel hx hat
      · rw [← Option.some.inj h]; exact hat
  | .bool _, tag, ht, o, o1, h, path, x, _, _, hat => by
    rw [fieldStep.eq_1] at h
    simp only [if_neg ht] at h
    rw [← Option.some.inj h]; exact hat
  | .int _, tag, ht, o, o1, h, path, x, _, _, hat => by
    rw [fieldStep.eq_1] at h
    simp only [if_neg ht] at h
    rw [← Option.some.inj h]; exact hat
  | .string _, tag, ht, o, o1, h, path, x, _, _, hat => by
    rw [fieldStep.eq_1] at h
    simp only [if_neg ht] at h
    rw [← Option.some.inj h]; exact hat
  | .map _, tag, ht, o, o1, h, path, x, _, _, hat => by
    rw [fieldStep.eq_1] at h
    simp only [if_neg ht] at h
    rw [← Option.some.inj h]; exact hat
  | .nilMap, tag, ht, o, o1, h, path, x, _, _, hat => by
    rw [fieldStep.eq_1] at h
    simp only [if_neg ht] at h
    rw [← Option.some.inj h]; exact hat
theorem sliceLoop_keeps_path (isEmpty : Value → Bool) :
    ∀ (es : List Value) (j : Nat) (o r : Value), sliceLoop isEmpty es j o = some r →
      ∀ (path : List Step) (x : Value),
        (∀ k prest el, path = .index k :: prest → j ≤ k → es[k - j]? = some el →
          included prest el = true) →
        isPrimitive x = true → o.at? path = some x → r.at? path = some x
  | [], j, o, r, h, path, x, _, _, hat => by
    simp only [sliceLoop, Option.some.injEq] at h; rw [← h]; exact hat
  | e :: rest, j, o, r, h, path, x, hinc, hx, hat => by
    have hinc2 : ∀ k prest el, path = .index k :: prest → j + 1 ≤ k →
        rest[k - (j + 1)]? = some el → included prest el = true := by
      intro k prest el hp hk hel
      refine hinc k prest el hp (by omega) ?_
      have : k - j = (k - (j + 1)) + 1 := by omega
      rw [this]; simpa using hel
    rw [sliceLoop.eq_2] at h
    split at h
    · simp at h
    · rename_i oe hidx
      split at h
      · simp at h
      · rename_i oe1 hw
        refine sliceLoop_keeps_path isEmpty rest (j + 1) _ r h path x hinc2 hx ?_
        cases o with
        | slice T os =>
          cases path with
          | nil =>
            simp only [Value.at?, Option.some.injEq] at hat
            rw [← hat] at hx
            simp [isPrimitive] at hx
          | cons s prest =>
            cases s with
            | field name => simp [Value.at?, Value.field?] at hat
            | index k =>
              by_cases hk : k = j
              · subst hk
                have hi := hinc k prest e rfl (Nat.le_refl _) (by simp)
                simp only [Value.at?, hidx, Option.some_bind] at hat
                simp only [Value.at?, Index_setIndex_same hidx, Option.some_bind]
                exact addr_frame (walk isEmpty e) prest x
                  (fun out d hwk hat1 => walk_keeps isEmpty e out d hwk prest x hi hx hat1)
                  (fun out d hrec hwk => walk_not_record isEmpty hrec hwk)
                  (fun out d hwk => walk_shape isEmpty hwk) hx hw hat
              · simp only [Value.at?, Index_setIndex_ne hk] at hat ⊢
                exact hat
        | _ => simp [Index] at hidx
theorem ptrSliceLoop_keeps_path (isEmpty : Value → Bool) :
    ∀ (es : List Value) (j : Nat) (o r : Value), ptrSliceLoop isEmpty es j o = some r →
      ∀ (path : List Step) (x : Value),
        (∀ k prest el, path = .index k :: prest → j ≤ k → es[k - j]? = some el →
          included prest el = true) →
        isPrimitive x = true → o.at? path = some x → r.at? path = some x
  | [], j, o, r, h, path, x, _, _, hat => by
    simp only [ptrSliceLoop, Option.some.injEq] at h; rw [← h]; exact hat
  | .ptr t :: rest, j, o, r, h, path, x, hinc, hx, hat => by
    have hinc2 : ∀ k prest el, path = .index k :: prest → j + 1 ≤ k →
        rest[k - (j + 1)]? = some el → included prest el = true := by
      intro k prest el hp hk hel
      refine hinc k prest el hp (by omega) ?_
      have : k - j = (k - (j + 1)) + 1 := by omega
      rw [this]; simpa using hel
    rw [ptrSliceLoop.eq_2] at h
    split at h
    · simp at h
    · rename_i oe hidx
      simp only at h
      split at h
      · simp at h
      · rename_i oe1 hw
        refine ptrSliceLoop_keeps_path isEmpty rest (j + 1) _ r h path x hinc2 hx ?_
        cases o with
        | slice T os =>
          cases path with
          | nil =>
            simp only [Value.at?, Option.some.injEq] at hat
            rw [← hat] at hx
            simp [isPrimitive] at hx
          | cons s prest =>
            cases s with
            | field name => simp [Value.at?, Value.field?] at hat
            | index k =>
              by_cases hk : k = j
              · subst hk
                have hi := hinc k prest (.ptr t) rfl (Nat.le_refl _) (by simp)
                have hi1 : included prest t = true := by
                  cases t with
                  | struct n fs => rw [← included_ptr]; exact hi
                  | _ => simp [walk] at hw
                simp only [Value.at?, hidx, Option.some_bind] at hat
                simp only [Value.at?, Index_setIndex_same hidx, Option.some_bind]
                exact walk_keeps isEmpty t oe oe1 hw prest x hi1 hx hat
              · simp only [Value.at?, Index_setIndex_ne hk] at hat ⊢
                exact hat
        | _ => simp [Index] at hidx
  | .nilPtr _ :: rest, _, _, _, h, _, _, _, _, _ => by
    rw [ptrSliceLoop.eq_2] at h; split at h <;> simp at h
  | .bool _ :: rest, _, _, _, h, _, _, _, _, _ => by
    rw [ptrSliceLoop.eq_2] at h; split at h <;> simp at h
  | .int _ :: rest, _, _, _, h, _, _, _, _, _ => by
    rw [ptrSliceLoop.eq_2] at h; split at h <;> simp at h
  | .string _ :: rest, _, _, _, h, _, _, _, _, _ => by
    rw [ptrSliceLoop.eq_2] at h; split at h <;> simp at h
  | .struct _ _ :: rest, _, _, _, h, _, _, _, _, _ => by
    rw [ptrSliceLoop.eq_2] at h; split at h <;> simp at h
  | .slice _ _ :: rest, _, _, _, h, _, _, _, _, _ => by
    rw [ptrSliceLoop.eq_2] at h; split at h <;> simp at h
  | .map _ :: rest, _, _, _, h, _, _, _, _, _ => by
    rw [ptrSliceLoop.eq_2] at h; split at h <;> simp at h
  | .nilMap :: rest, _, _, _, h, _, _, _, _, _ => by
    rw [ptrSliceLoop.eq_2] at h; split at h <;> simp at h
end

/-- C16. The restoration walk writes only excluded fields.  Whenever
`setOmittedFields(item, out)` completes, every place of the destination, at
any nesting level through fields and sequence elements, that holds a value of
primitive kind before the walk holds the same value after it, provided no
field on the way to it is marked excluded in the source: neither the source
field of the same name nor any source field it lies inside carries the tag
`"-"`.  This holds for every `isEmptyValue`. -/
theorem walk_writes_only_excluded (isEmpty : Value → Bool) (item out out1 : Value)
    (path : List Step) (x : Value)
    (h : setOmittedFields isEmpty item out = some out1)
    (hinc : included path item = true)
    (hx : isPrimitive x = true)
    (hat : out.at? path = some x) :
    out1.at? path = some x := by
  unfold setOmittedFields at h
  split at h
  · rename_i iVal
    have hinc1 : included path iVal = true := by
      cases iVal with
      | struct n fs => rw [← included_ptr]; exact hinc
      | _ => simp [walk] at h
    exact walk_keeps isEmpty iVal out out1 h path x hinc1 hx hat
  · simp at h

/-- Witness for C16 on the worked example: the included `Name` of the second
node pool is `"b"` after decoding and after the walk, while the walk restores
the excluded `Hash` next to it. -/
theorem walk_writes_only_excluded_witness :
    included [.field "Pools", .index 1, .field "Name"] exSource = true ∧
      exDecoded.at? [.field "Pools", .index 1, .field "Name"] = some (.string "b") ∧
      exResult.at? [.field "Pools", .index 1, .field "Name"] = some (.string "b") ∧
      exDecoded.at? [.field "Pools", .index 1, .field "Hash"] = some (.int 0) ∧
      exResult.at? [.field "Pools", .index 1, .field "Hash"] = some (.int 22) :=
  ⟨by decide, rfl,
    walk_writes_only_excluded isEmptyValue exSource exDecoded exResult
      [.field "Pools", .index 1, .field "Name"] (.string "b") rfl (by decide) rfl rfl,
    rfl, rfl⟩

/-! ## What travels through the wire form -/

theorem decode_primitive (fold : String → String) (zero : Ty → Value) {v cur : Value}
    (hp : isPrimitive v = true) (hty : typeOf cur = typeOf v) :
    decode fold zero (encode v) cur = some v := by
  cases v <;> simp [isPrimitive] at hp <;> cases cur <;> simp [typeOf] at hty <;>
    simp [encode, decode]

theorem setField_sig (n : String) (x : Value) :
    ∀ (dfs : List Field) (h : Field), h ∈ setField n x dfs →
      ∃ h0 ∈ dfs, h0.name = h.name ∧ h0.tag = h.tag
  | [], h, hm => by simp [setField] at hm
  | .mk n1 t1 x1 :: rest, h, hm => by
    simp only [setField] at hm
    split at hm
    · rcases List.mem_cons.mp hm with e | e
      · exact ⟨.mk n1 t1 x1, List.mem_cons_self _ _, by rw [e]; simp [Field.name, Field.tag]⟩
      · exact ⟨h, List.mem_cons_of_mem _ e, rfl, rfl⟩
    · rcases List.mem_cons.mp hm with e | e
      · exact ⟨.mk n1 t1 x1, List.mem_cons_self _ _, by rw [e]; simp⟩
      · obtain ⟨h0, hh0, hn⟩ := setField_sig n x rest h e
        exact ⟨h0, List.mem_cons_of_mem _ hh0, hn⟩

theorem findKey_mem {key n : String} {c : Value} :
    ∀ dfs : List Field, findKey key dfs = some (n, c) →
      ∃ t, Field.mk n t c ∈ dfs ∧ t ≠ "-" ∧ wireKey n t = key
  | [], h => by simp [findKey] at h
  | .mk n1 t1 x1 :: rest, h => by
    simp only [findKey] at h
    split at h
    · rename_i hc
      simp only [Option.some.injEq, Prod.mk.injEq] at h
      obtain ⟨rfl, rfl⟩ := h
      exact ⟨t1, List.mem_cons_self _ _, hc.1, hc.2⟩
    · obtain ⟨t, hm, ht⟩ := findKey_mem rest h
      exact ⟨t, List.mem_cons_of_mem _ hm, ht⟩

theorem findFolded_mem {fold : String → String} {key n : String} {c : Value} :
    ∀ dfs : List Field, findFolded fold key dfs = some (n, c) →
      ∃ t, Field.mk n t c ∈ dfs ∧ t ≠ "-" ∧ fold (wireKey n t) = fold key
  | [], h => by simp [findFolded] at h
  | .mk n1 t1 x1 :: rest, h => by
    simp only [findFolded] at h
    split at h
    · rename_i hc
      simp only [Option.some.injEq, Prod.mk.injEq] at h
      obtain ⟨rfl, rfl⟩ := h
      exact ⟨t1, List.mem_cons_self _ _, hc.1, hc.2⟩
    · obtain ⟨t, hm, ht⟩ := findFolded_mem rest h
      exact ⟨t, List.mem_cons_of_mem _ hm, ht⟩

theorem lookupKey_mem {fold : String → String} {key n : String} {c : Value}
    {dfs : List Field} (h : lookupKey fold key dfs = some (n, c)) :
    ∃ t, Field.mk n t c ∈ dfs ∧ t ≠ "-" ∧ fold (wireKey n t) = fold key := by
  unfold lookupKey at h
  split at h
  · rename_i r hr
    simp only [Option.some.injEq] at h
    subst h
    obtain ⟨t, hm, ht, hk⟩ := findKey_mem dfs hr
    exact ⟨t, hm, ht, by rw [hk]⟩
  · exact findFolded_mem dfs h

theorem findKey_shared {name tag : String} (htag : tag ≠ "-") :
    ∀ (dfs : List Field) (cur : Value),
      (∀ h ∈ dfs, h.name = name → h.tag = tag) →
      (∀ h ∈ dfs, h.tag ≠ "-" → h.name ≠ name →
        wireKey h.name h.tag ≠ wireKey name tag) →
      FieldByName name dfs = some cur →
      findKey (wireKey name tag) dfs = some (name, cur)
  | [], cur, _, _, h => by simp [FieldByName] at h
  | .mk n1 t1 x1 :: rest, cur, hd1, hd2, h => by
    simp only [FieldByName] at h
    by_cases hn : n1 = name
    · rw [if_pos hn] at h
      have ht : t1 = tag := hd1 (.mk n1 t1 x1) (List.mem_cons_self _ _) hn
      subst hn; subst ht
      simp only [Option.some.injEq] at h
      simp [findKey, htag, h]
    · rw [if_neg hn] at h
      have hk : ¬ (t1 ≠ "-" ∧ wireKey n1 t1 = wireKey name tag) := by
        rintro ⟨h1, h2⟩
        exact hd2 (.mk n1 t1 x1) (List.mem_cons_self _ _) h1 hn h2
      simp only [findKey, if_neg hk]
      exact findKey_shared htag rest cur
        (fun h hm => hd1 h (List.mem_cons_of_mem _ hm))
        (fun h hm => hd2 h (List.mem_cons_of_mem _ hm)) h

theorem lookupKey_shared (fold : String → String) {name tag : String} (htag : tag ≠ "-")
    {dfs : List Field} {cur : Value}
    (hd1 : ∀ h ∈ dfs, h.name = name → h.tag = tag)
    (hd2 : ∀ h ∈ dfs, h.tag ≠ "-" → h.name ≠ name →
      wireKey h.name h.tag ≠ wireKey name tag)
    (h : FieldByName name dfs = some cur) :
    lookupKey fold (wireKey name tag) dfs = some (name, cur) := by
  simp only [lookupKey, findKey_shared htag dfs cur hd1 hd2 h]

theorem decodeMembers_untouched (fold : String → String) (zero : Ty → Value)
    {name tag : String} :
    ∀ (fs dfs dfs1 : List Field),
      (∀ g ∈ fs, g.tag ≠ "-" → fold (wireKey g.name g.tag) ≠ fold (wireKey name tag)) →
      (∀ h ∈ dfs, h.name = name → h.tag = tag) →
      decodeMembers fold zero (encodeFields fs) dfs = some dfs1 →
      FieldByName name dfs1 = FieldByName name dfs
  | [], dfs, dfs1, _, _, h => by
    simp only [encodeFields, decodeMembers, Option.some.injEq] at h
    rw [h]
  | .mk n t x :: rest, dfs, dfs1, hfold, hd1, h => by
    have hrest : ∀ g ∈ rest, g.tag ≠ "-" →
        fold (wireKey g.name g.tag) ≠ fold (wireKey name tag) :=
      fun g hg => hfold g (List.mem_cons_of_mem _ hg)
    rw [encodeFields.eq_2] at h
    split at h
    · exact decodeMembers_untouched fold zero rest dfs dfs1 hrest hd1 h
    · rename_i ht
      split at h
      · exact decodeMembers_untouched fold zero rest dfs dfs1 hrest hd1 h
      · rw [decodeMembers.eq_2] at h
        split at h
        · exact decodeMembers_untouched fold zero rest dfs dfs1 hrest hd1 h
        · rename_i n1 c1 hlook
          split at h
          · simp at h
          · rename_i v1 _
            obtain ⟨t1, hm, _, hk⟩ := lookupKey_mem hlook
            have hne : name ≠ n1 := by
              intro e
              have ht1 : t1 = tag := hd1 (.mk n1 t1 c1) hm e.symm
              rw [← e, ht1] at hk
              exact hfold (.mk n t x) (List.mem_cons_self _ _) ht hk.symm
            have hd1' : ∀ h ∈ setField n1 v1 dfs, h.name = name → h.tag = tag := by
              intro h hh hn
              obtain ⟨h0, hh0, e1, e2⟩ := setField_sig n1 v1 dfs h hh
              rw [← e2]; exact hd1 h0 hh0 (e1.trans hn)
            rw [decodeMembers_untouched fold zero rest _ dfs1 hrest hd1' h,
              FieldByName_setField_ne hne]

theorem decodeMembers_carries (fold : String → String) (zero : Ty → Value)
    {name tag dtag : String} {v : Value} (htag : tag ≠ "-") (hdtag : dtag ≠ "-")
    (hkey : wireKey name dtag = wireKey name tag) (hp : isPrimitive v = true)
    (hnz : jsonEmpty v = false) :
    ∀ (fs dfs dfs1 : List Field) (cur : Value),
      (fs.map Field.name).Nodup → Field.mk name tag v ∈ fs →
      (∀ g ∈ fs, g.tag ≠ "-" → g.name ≠ name →
        fold (wireKey g.name g.tag) ≠ fold (wireKey name tag)) →
      (∀ h ∈ dfs, h.name = name → h.tag = dtag) →
      (∀ h ∈ dfs, h.tag ≠ "-" → h.name ≠ name →
        wireKey h.name h.tag ≠ wireKey name tag) →
      FieldByName name dfs = some cur → typeOf cur = typeOf v →
      decodeMembers fold zero (encodeFields fs) dfs = some dfs1 →
      FieldByName name dfs1 = some v
  | [], _, _, _, _, hf, _, _, _, _, _, _ => by simp at hf
  | .mk n t x :: rest, dfs, dfs1, cur, hnd, hf, hfold, hd1, hd2, hcur, hty, h => by
    simp only [List.map_cons, List.nodup_cons, Field.name] at hnd
    have hfoldr : ∀ g ∈ rest, g.tag ≠ "-" → g.name ≠ name →
        fold (wireKey g.name g.tag) ≠ fold (wireKey name tag) :=
      fun g hg => hfold g (List.mem_cons_of_mem _ hg)
    by_cases hn : n = name
    · have hhead : Field.mk n t x = Field.mk name tag v := by
        rcases List.mem_cons.mp hf with e | e
        · exact e.symm
        · exact absurd (hn ▸ List.mem_map_of_mem Field.name e) hnd.1
      simp only [Field.mk.injEq] at hhead
      obtain ⟨-, rfl, rfl⟩ := hhead
      subst hn
      have hothers : ∀ g ∈ rest, g.tag ≠ "-" →
          fold (wireKey g.name g.tag) ≠ fold (wireKey n dtag) := by
        intro g hg hgt
        rw [hkey]
        refine hfoldr g hg hgt ?_
        intro e
        exact hnd.1 (e ▸ List.mem_map_of_mem Field.name hg)
      have hd2' : ∀ h ∈ dfs, h.tag ≠ "-" → h.name ≠ n →
          wireKey h.name h.tag ≠ wireKey n dtag := by
        intro h hh h1 h2
        rw [hkey]; exact hd2 h hh h1 h2
      rw [encodeFields.eq_2, if_neg htag, hnz] at h
      simp only [Bool.and_false, Bool.false_eq_true, if_false] at h
      rw [decodeMembers.eq_2, ← hkey, lookupKey_shared fold hdtag hd1 hd2' hcur] at h
      simp only [decode_primitive fold zero hp hty] at h
      have hd1' : ∀ h ∈ setField n x dfs, h.name = n → h.tag = dtag := by
        intro h hh hn
        obtain ⟨h0, hh0, e1, e2⟩ := setField_sig n x dfs h hh
        rw [← e2]; exact hd1 h0 hh0 (e1.trans hn)
      rw [decodeMembers_untouched fold zero rest _ dfs1 hothers hd1' h]
      exact FieldByName_setField_same n x dfs (by rw [hcur]; rfl)
    · have hfr : Field.mk name tag v ∈ rest := by
        rcases List.mem_cons.mp hf with e | e
        · simp only [Field.mk.injEq] at e
          exact absurd e.1.symm hn
        · exact e
      have ih := fun dfs' cur' h1 h2 h3 h4 =>
        decodeMembers_carries fold zero htag hdtag hkey hp hnz rest dfs' dfs1 cur' hnd.2 hfr
          hfoldr h1 h2 h3 h4
      rw [encodeFields.eq_2] at h
      split at h
      · exact ih dfs cur hd1 hd2 hcur hty h
      · rename_i ht
        split at h
        · exact ih dfs cur hd1 hd2 hcur hty h
        · rw [decodeMembers.eq_2] at h
          split at h
          · exact ih dfs cur hd1 hd2 hcur hty h
          · rename_i n1 c1 hlook
            split at h
            · simp at h
            · rename_i v1 _
              obtain ⟨t1, hm, _, hk⟩ := lookupKey_mem hlook
              have hne : name ≠ n1 := by
                intro e
                have ht1 : t1 = dtag := hd1 (.mk n1 t1 c1) hm e.symm
                rw [← e, ht1, hkey] at hk
                exact hfold (.mk n t x) (List.mem_cons_self _ _) ht hn hk.symm
              refine ih (setField n1 v1 dfs) cur ?_ ?_ ?_ hty h
              · intro h hh hn1
                obtain ⟨h0, hh0, e1, e2⟩ := setField_sig n1 v1 dfs h hh
                rw [← e2]; exact hd1 h0 hh0 (e1.trans hn1)
              · intro h hh hht hhn
                obtain ⟨h0, hh0, e1, e2⟩ := setField_sig n1 v1 dfs h hh
                rw [← e1, ← e2]
                exact hd2 h0 hh0 (by rw [e2]; exact hht) (by rw [e1]; exact hhn)
              · rw [FieldByName_setField_ne hne]; exact hcur

theorem field_of_name {name tag : String} {v : Value} :
    ∀ (fs : List Field), (fs.map Field.name).Nodup → Field.mk name tag v ∈ fs →
      ∀ f ∈ fs, f.name = name → f = Field.mk name tag v
  | [], _, hm, _, _, _ => by simp at hm
  | .mk n t x :: rest, hnd, hm, f, hf, hfn => by
    simp only [List.map_cons, List.nodup_cons, Field.name] at hnd
    rcases List.mem_cons.mp hm with e | e
    · simp only [Field.mk.injEq] at e
      obtain ⟨rfl, rfl, rfl⟩ := e
      rcases List.mem_cons.mp hf with e2 | e2
      · exact e2
      · exact absurd (hfn ▸ List.mem_map_of_mem Field.name e2) hnd.1
    · rcases List.mem_cons.mp hf with e2 | e2
      · subst e2
        simp only [Field.name] at hfn
        subst hfn
        exact absurd (List.mem_map_of_mem Field.name e) hnd.1
      · exact field_of_name rest hnd.2 e f e2 hfn

/-- C2. Round-trip of included fields, on the reference codec.  Source and
destination are records that share the field `name`: both declare it, under
tags other than `-` that give it the same wire key, with the same primitive
type, and field names are distinct within each record.  No other field of the
source travels under a key that matches the key of `name`, not even up to
letter case, and no other field of the destination answers to that key.  If
the source value `v` is not the empty value and `Convert` returns without
error, the destination field `name` holds `v`: the value travels through the
wire form into the destination field, whatever that field held before, and the
restoration walk run afterwards does not change it. -/
theorem included_field_round_trip (fold : String → String) (zero : Ty → Value)
    (isEmpty : Value → Bool) (sname : String) (fields : List Field)
    (dname : String) (dfields : List Field) (name tag dtag : String) (v o out2 : Value)
    (hf : Field.mk name tag v ∈ fields)
    (hd : Field.mk name dtag o ∈ dfields)
    (htag : tag ≠ "-")
    (hdtag : dtag ≠ "-")
    (hkey : wireKey name dtag = wireKey name tag)
    (hprim : isPrimitive v = true)
    (hnz : jsonEmpty v = false)
    (hty : typeOf o = typeOf v)
    (hsn : (fields.map Field.name).Nodup)
    (hdn : (dfields.map Field.name).Nodup)
    (hskey : ∀ g ∈ fields, g.tag ≠ "-" → g.name ≠ name →
      fold (wireKey g.name g.tag) ≠ fold (wireKey name tag))
    (hdkey : ∀ h ∈ dfields, h.tag ≠ "-" → h.name ≠ name →
      wireKey h.name h.tag ≠ wireKey name tag)
    (hok : Convert (jsonCodecFold fold zero) isEmpty (.ptr (.struct sname fields))
      (.ptr (.struct dname dfields)) = .returned none out2) :
    out2.field? name = some v := by
  have hcur : FieldByName name dfields = some o := FieldByName_of_mem dfields hdn hd
  have hd1 : ∀ h ∈ dfields, h.name = name → h.tag = dtag := by
    intro h hh hn
    rw [field_of_name dfields hdn hd h hh hn]; rfl
  simp only [Convert, jsonCodecFold, encode, decode, isMap] at hok
  cases hdm : decodeMembers fold zero (encodeFields fields) dfields with
  | none => simp [hdm] at hok
  | some dfs1 =>
    simp only [hdm, Option.map_some', Bool.false_eq_true, if_false] at hok
    have htrans : FieldByName name dfs1 = some v :=
      decodeMembers_carries fold zero htag hdtag hkey hprim hnz fields dfields dfs1 o hsn hf
        hskey hd1 hdkey hcur hty hdm
    cases hw : setOmittedFields isEmpty (.ptr (.struct sname fields))
        (.ptr (.struct dname dfs1)) with
    | none => simp [hw] at hok
    | some out3 =>
      simp only [hw, Outcome.returned.injEq, true_and] at hok
      subst hok
      have hinc : included [.field name] (.struct sname fields) = true := by
        simp only [included, recordFields, List.all_eq_true]
        intro g hg
        by_cases hn : g.name = name
        · rw [field_of_name fields hsn hf g hg hn]
          simp [Field.name, Field.tag, htag]
        · simp [hn]
      have hat : (Value.ptr (.struct dname dfs1)).at? [.field name] = some v := by
        simp [Value.at?, Value.field?, htrans]
      have hwalk : walk isEmpty (.struct sname fields) (.ptr (.struct dname dfs1)) =
          some out3 := hw
      have := walk_keeps isEmpty (.struct sname fields) _ out3 hwalk [.field name] v hinc
        hprim hat
      simpa [Value.at?] using this

/-- Witness for C2: the included `Name`, tagged `name,omitempty` in the source
and `name` in the destination, travels into a destination whose `Name` and
`Zone` were populated before the call.  The empty `Zone` does not travel, so
the destination keeps its own. -/
theorem included_field_round_trip_witness :
    Convert (jsonCodecFold asciiFold exZero) isEmptyValue
        (.ptr (.struct "v1beta1.Cluster" rtFields))
        (.ptr (.struct "v1.Cluster" rtDestFields)) =
      .returned none (.ptr (.struct "v1.Cluster"
        [.mk "Name" "name" (.string "prod"),
         .mk "Zone" "zone,omitempty" (.string "eu"),
         .mk "Etag" "-" (.string "abc")])) ∧
      (Value.ptr (.struct "v1.Cluster"
        [.mk "Name" "name" (.string "prod"),
         .mk "Zone" "zone,omitempty" (.string "eu"),
         .mk "Etag" "-" (.string "abc")])).field? "Name" = some (.string "prod") :=
  ⟨rfl,
    included_field_round_trip asciiFold exZero isEmptyValue "v1beta1.Cluster" rtFields
      "v1.Cluster" rtDestFields "Name" "name,omitempty" "name" (.string "prod")
      (.string "old") _
      (by simp [rtFields]) (by simp [rtDestFields]) (by decide) (by decide) (by decide)
      rfl rfl rfl (by decide) (by decide) (by decide) (by decide) rfl⟩

end Gke
